import Mathlib

namespace SecureChat

/-! Character classes mirroring the JS regex classes used in `renderMarkdown`. -/

/-- The backtick character, written via its code point. -/
def tick : Char := Char.ofNat 96

/-- JS `\w` word characters: ASCII letters, digits, underscore. -/
def isWordChar (c : Char) : Bool := c.isAlpha || c.isDigit || c = '_'

/-- Code points of JS whitespace (the set matched by `\s` and stripped by
`String.prototype.trim`): tab, LF, VT, FF, CR, space, NBSP, and the Unicode
space separators plus LS, PS, and BOM. -/
def jsSpaceCodes : List Nat :=
  [9, 10, 11, 12, 13, 32, 160, 0x1680, 0x2000, 0x2001, 0x2002, 0x2003,
   0x2004, 0x2005, 0x2006, 0x2007, 0x2008, 0x2009, 0x200A, 0x2028,
   0x2029, 0x202F, 0x205F, 0x3000, 0xFEFF]

/-- Whether `c` is JS whitespace. -/
def isJsSpace (c : Char) : Bool := jsSpaceCodes.contains c.toNat

/-- JS line terminators (what `^`/`$` anchor at with the `m` flag, and what
`.` refuses to match): LF, CR, LS, PS. -/
def isLineTerm (c : Char) : Bool :=
  c = '\n' || c = '\r' || c.toNat = 0x2028 || c.toNat = 0x2029

/-- Boolean: `p` is a prefix of `l`. -/
def isPre : List Char → List Char → Bool
  | [], _ => true
  | _ :: _, [] => false
  | p :: ps, c :: cs => p == c && isPre ps cs

/-- `escapeHtml` builds a DOM text node and reads back `innerHTML`; per the
HTML fragment-serialization algorithm this escapes `&` `<` `>` and U+00A0
(no-break space) and nothing else — in particular it does not escape `"`. -/
def escChar (c : Char) : List Char :=
  if c = '&' then "&amp;".data
  else if c = '<' then "&lt;".data
  else if c = '>' then "&gt;".data
  else if c.toNat = 160 then "&nbsp;".data
  else [c]

/-- The escaping stage (`escapeHtml` in the source) on character lists. -/
def escapeHtmlL : List Char → List Char
  | [] => []
  | c :: r => escChar c ++ escapeHtmlL r

/-- The escaping stage on strings. -/
def escapeHtml (s : String) : String := ⟨escapeHtmlL s.data⟩

/-- JS `String.prototype.trim`: remove leading and trailing JS whitespace. -/
def jsTrim (l : List Char) : List Char :=
  ((l.dropWhile isJsSpace).reverse.dropWhile isJsSpace).reverse

/-- Split `l` at the first (leftmost) occurrence of `pat`, returning the text
before it and the text after it, like the lazy `[\s\S]*?` search up to a
literal. -/
def splitFirst (pat : List Char) : List Char → Option (List Char × List Char)
  | [] => if isPre pat [] then some ([], []) else none
  | c :: rest =>
    if isPre pat (c :: rest) then some ([], (c :: rest).drop pat.length)
    else
      match splitFirst pat rest with
      | some (a, b) => some (c :: a, b)
      | none => none

/-- Split `l` at the last (rightmost) occurrence of `pat`, as the greedy
`.*` followed by a literal does after backtracking. -/
def lastSplit (pat : List Char) : List Char → Option (List Char × List Char)
  | [] => if isPre pat [] then some ([], []) else none
  | c :: rest =>
    match lastSplit pat rest with
    | some (a, b) => some (c :: a, b)
    | none =>
      if isPre pat (c :: rest) then some ([], (c :: rest).drop pat.length)
      else none

/-! The generic left-to-right global-replace scanner: at each position try the
matcher; on success emit its replacement and resume after the consumed text
(JS `String.replace` with a `g` flag); on failure emit one character and
advance.  Fuel is the length of the scanned list; every step consumes at
least one character, so this fuel is always sufficient. -/

/-- One global-replace pass, fuelled. A matcher returns the replacement text
together with the rest of the input after the match. -/
def scanAux (m : List Char → Option (List Char × List Char)) :
    Nat → List Char → List Char
  | 0, l => l
  | _ + 1, [] => []
  | n + 1, c :: rest =>
    match m (c :: rest) with
    | some (emit, after) => emit ++ scanAux m n after
    | none => c :: scanAux m n rest

/-- One global-replace pass over `l`. -/
def scan (m : List Char → Option (List Char × List Char)) (l : List Char) :
    List Char :=
  scanAux m l.length l

/-! Stage 1: fenced code blocks.
`html.replace(/```(\w*)\n([\s\S]*?)```/g, (_, lang, code) =>
  '<pre><code>' + code.trim() + '</code></pre>')`.
The greedy `\w*` takes the maximal run of word characters after the opening
backticks and a literal `\n` must follow; the lazy body runs to the earliest
closing triple backtick. -/

/-- Matcher for one fenced code block at the head of the input. -/
def fenceMatch (l : List Char) : Option (List Char × List Char) :=
  if isPre [tick, tick, tick] l then
    match (l.drop 3).dropWhile isWordChar with
    | c :: body =>
      if c = '\n' then
        match splitFirst [tick, tick, tick] body with
        | some (code, rest) =>
            some ("<pre><code>".data ++ jsTrim code ++ "</code></pre>".data,
              rest)
        | none => none
      else none
    | [] => none
  else none

/-- The fenced-code-block stage. -/
def stageFence (l : List Char) : List Char := scan fenceMatch l

/-! Stage 2: inline code. `html.replace(/`([^`]+)`/g, '<code>$1</code>')`. -/

/-- Matcher for one inline code span at the head of the input. -/
def inlineMatch (l : List Char) : Option (List Char × List Char) :=
  match l with
  | [] => none
  | c :: rest =>
    if c = tick then
      let content := rest.takeWhile (fun d => d != tick)
      if content.isEmpty then none
      else
        match rest.dropWhile (fun d => d != tick) with
        | _ :: rest2 => some ("<code>".data ++ content ++ "</code>".data, rest2)
        | [] => none
    else none

/-- The inline-code stage. -/
def stageInline (l : List Char) : List Char := scan inlineMatch l

/-! Stages 3-5: headers, processed per line.  `/^### (.+)$/gm` and its `##`
and `#` variants are anchored to whole lines, `.` matching no line
terminator, so each pass transforms each line independently. -/

/-- Break off the first line: returns the line (no terminator) and the rest
of the input beginning with the terminator, if any. -/
def breakLine : List Char → List Char × List Char
  | [] => ([], [])
  | c :: rest =>
    if isLineTerm c then ([], c :: rest)
    else
      let p := breakLine rest
      (c :: p.1, p.2)

/-- Apply `f` to every line of the input, keeping the line terminators.
Fuel bounds the number of lines; `length + 1` always suffices. -/
def mapLines (f : List Char → List Char) : Nat → List Char → List Char
  | 0, l => l
  | n + 1, l =>
    let p := breakLine l
    match p.2 with
    | [] => f p.1
    | t :: r2 => f p.1 ++ t :: mapLines f n r2

/-- One header rule on one line: if the line is `pre` followed by at least
one character, wrap the remainder in `openT`/`closeT`; otherwise leave it. -/
def headerLine (pre openT closeT : List Char) (line : List Char) : List Char :=
  if isPre pre line then
    let content := line.drop pre.length
    if content.isEmpty then line else openT ++ content ++ closeT
  else line

/-- The `### ` header stage (`/^### (.+)$/gm` → `<h3>$1</h3>`). -/
def stageH3 (l : List Char) : List Char :=
  mapLines (headerLine "### ".data "<h3>".data "</h3>".data) (l.length + 1) l

/-- The `## ` header stage. -/
def stageH2 (l : List Char) : List Char :=
  mapLines (headerLine "## ".data "<h2>".data "</h2>".data) (l.length + 1) l

/-- The `# ` header stage. -/
def stageH1 (l : List Char) : List Char :=
  mapLines (headerLine "# ".data "<h1>".data "</h1>".data) (l.length + 1) l

/-! Stage 6: bold. `html.replace(/\*\*([^*]+)\*\*/g, '<strong>$1</strong>')`.
After `**`, the content is the maximal nonempty run of non-asterisk
characters (newlines included), and `**` must follow. -/

/-- Matcher for one bold span at the head of the input. -/
def boldMatch (l : List Char) : Option (List Char × List Char) :=
  if isPre "**".data l then
    let rest := l.drop 2
    let content := rest.takeWhile (fun d => d != '*')
    if content.isEmpty then none
    else
      let rest2 := rest.drop content.length
      if isPre "**".data rest2 then
        some ("<strong>".data ++ content ++ "</strong>".data, rest2.drop 2)
      else none
  else none

/-- The bold stage. -/
def stageBold (l : List Char) : List Char := scan boldMatch l

/-! Stage 7: italic. `html.replace(/\*([^*]+)\*/g, '<em>$1</em>')`. -/

/-- Matcher for one italic span at the head of the input. -/
def italMatch (l : List Char) : Option (List Char × List Char) :=
  match l with
  | [] => none
  | c :: rest =>
    if c = '*' then
      let content := rest.takeWhile (fun d => d != '*')
      if content.isEmpty then none
      else
        match rest.dropWhile (fun d => d != '*') with
        | _ :: rest2 => some ("<em>".data ++ content ++ "</em>".data, rest2)
        | [] => none
    else none

/-- The italic stage. -/
def stageItal (l : List Char) : List Char := scan italMatch l

/-! Stage 8: unordered list items. `html.replace(/^- (.+)$/gm, '<li>$1</li>')`. -/

/-- One unordered-list rule on one line. -/
def listLine (line : List Char) : List Char :=
  if isPre "- ".data line then
    let content := line.drop 2
    if content.isEmpty then line else "<li>".data ++ content ++ "</li>".data
  else line

/-- The unordered-list-item stage. -/
def stageListItems (l : List Char) : List Char :=
  mapLines listLine (l.length + 1) l

/-! Stage 9: list grouping.
`html.replace(/((?:<li>.*<\/li>\n?)+)/g, '<ul>$1</ul>')`.
One unit is `<li>`, then (greedy `.*` within the line, backtracking to the
last `</li>` of the line) the content, then `</li>`, then an optional `\n`;
the `+` takes as many consecutive units as possible and `$1` is the whole
match, so the wrapper preserves the newlines between the units. -/

/-- Matcher for one `<li>.*</li>\n?` unit at the head of the input: returns
the consumed text verbatim and the rest. -/
def liUnit (l : List Char) : Option (List Char × List Char) :=
  if isPre "<li>".data l then
    let rest := l.drop 4
    let lineRegion := rest.takeWhile (fun c => !(isLineTerm c))
    match lastSplit "</li>".data lineRegion with
    | some (content, tailInLine) =>
      let afterLine := rest.drop lineRegion.length
      let restAll := tailInLine ++ afterLine
      match restAll with
      | c :: r2 =>
          if c = '\n' then
            some ("<li>".data ++ content ++ "</li>".data ++ ['\n'], r2)
          else some ("<li>".data ++ content ++ "</li>".data, c :: r2)
      | [] => some ("<li>".data ++ content ++ "</li>".data, [])
    | none => none
  else none

/-- Match as many consecutive `<li>` units as possible (the `(?:...)+`). -/
def liRun : Nat → List Char → Option (List Char × List Char)
  | 0, _ => none
  | n + 1, l =>
    match liUnit l with
    | none => none
    | some (txt, rest) =>
      match liRun n rest with
      | some (txt2, rest2) => some (txt ++ txt2, rest2)
      | none => some (txt, rest)

/-- Matcher for one run of `<li>` units at the head of the input, wrapped in
`<ul>…</ul>`. -/
def groupMatch (l : List Char) : Option (List Char × List Char) :=
  match liRun l.length l with
  | some (txt, rest) => some ("<ul>".data ++ txt ++ "</ul>".data, rest)
  | none => none

/-- The list-grouping stage. -/
def stageGroup (l : List Char) : List Char := scan groupMatch l

/-! Stage 10: ordered list items.
`html.replace(/^\d+\. (.+)$/gm, '<li>$1</li>')` — same `<li>` tag, and no
wrapper pass follows it. -/

/-- One ordered-list rule on one line: maximal digit run, then `. `, then a
nonempty remainder. -/
def orderedLine (line : List Char) : List Char :=
  let ds := line.takeWhile (fun c => c.isDigit)
  if ds.isEmpty then line
  else
    let rest := line.drop ds.length
    if isPre ". ".data rest then
      let content := rest.drop 2
      if content.isEmpty then line else "<li>".data ++ content ++ "</li>".data
    else line

/-- The ordered-list-item stage. -/
def stageOrdered (l : List Char) : List Char :=
  mapLines orderedLine (l.length + 1) l

/-! Stage 11: paragraphs. `html.replace(/\n\n/g, '</p><p>')`, then the whole
string is wrapped as `'<p>' + html + '</p>'`. -/

/-- Matcher for a blank-line boundary. -/
def paraMatch (l : List Char) : Option (List Char × List Char) :=
  if isPre ['\n', '\n'] l then some ("</p><p>".data, l.drop 2) else none

/-- The paragraph-assembly stage. -/
def stagePara (l : List Char) : List Char :=
  "<p>".data ++ scan paraMatch l ++ "</p>".data

/-! Stage 12: cleanup.  Seven global replaces, in source order:
empty paragraphs are deleted, and a `<p>`/`</p>` adjacent (up to JS
whitespace) to a header, `<pre>`, or `<ul>` boundary is deleted. -/

/-- Matcher for `/<p>\s*<\/p>/` (deleted). -/
def emptyPMatch (l : List Char) : Option (List Char × List Char) :=
  if isPre "<p>".data l then
    let rest := (l.drop 3).dropWhile isJsSpace
    if isPre "</p>".data rest then some ([], rest.drop 4) else none
  else none

/-- Matcher for `/<p>\s*(TAG)/` → `$1`, for any tag in `tags`. -/
def unwrapOpenMatch (tags : List (List Char)) (l : List Char) :
    Option (List Char × List Char) :=
  if isPre "<p>".data l then
    let rest := (l.drop 3).dropWhile isJsSpace
    match tags.find? (fun t => isPre t rest) with
    | some t => some (t, rest.drop t.length)
    | none => none
  else none

/-- Matcher for `/(TAG)\s*<\/p>/` → `$1`, for any tag in `tags`. -/
def unwrapCloseMatch (tags : List (List Char)) (l : List Char) :
    Option (List Char × List Char) :=
  match tags.find? (fun t => isPre t l) with
  | some t =>
    let rest := (l.drop t.length).dropWhile isJsSpace
    if isPre "</p>".data rest then some (t, rest.drop 4) else none
  | none => none

/-- `/<p>\s*<\/p>/g` → `''`. -/
def stageCleanA (l : List Char) : List Char := scan emptyPMatch l

/-- `/<p>\s*(<h[123]>)/g` → `$1`. -/
def stageCleanB (l : List Char) : List Char :=
  scan (unwrapOpenMatch ["<h1>".data, "<h2>".data, "<h3>".data]) l

/-- `/(<\/h[123]>)\s*<\/p>/g` → `$1`. -/
def stageCleanC (l : List Char) : List Char :=
  scan (unwrapCloseMatch ["</h1>".data, "</h2>".data, "</h3>".data]) l

/-- `/<p>\s*(<pre>)/g` → `$1`. -/
def stageCleanD (l : List Char) : List Char :=
  scan (unwrapOpenMatch ["<pre>".data]) l

/-- `/(<\/pre>)\s*<\/p>/g` → `$1`. -/
def stageCleanE (l : List Char) : List Char :=
  scan (unwrapCloseMatch ["</pre>".data]) l

/-- `/<p>\s*(<ul>)/g` → `$1`. -/
def stageCleanF (l : List Char) : List Char :=
  scan (unwrapOpenMatch ["<ul>".data]) l

/-- `/(<\/ul>)\s*<\/p>/g` → `$1`. -/
def stageCleanG (l : List Char) : List Char :=
  scan (unwrapCloseMatch ["</ul>".data]) l

/-- All structural stages of `renderMarkdown` after the escaping stage, in
source order (lines 36-72). -/
def structuralStages (l : List Char) : List Char :=
  stageCleanG (stageCleanF (stageCleanE (stageCleanD (stageCleanC
    (stageCleanB (stageCleanA (stagePara (stageOrdered (stageGroup
      (stageListItems (stageItal (stageBold (stageH1 (stageH2 (stageH3
        (stageInline (stageFence l)))))))))))))))))

/-- The whole renderer on character lists: escape first, then the structural
pipeline. -/
def renderMarkdownL (l : List Char) : List Char :=
  structuralStages (escapeHtmlL l)

/-- `renderMarkdown` from the source: the markdown-lite renderer. -/
def renderMarkdown (s : String) : String := ⟨renderMarkdownL s.data⟩

/-- Count the non-overlapping occurrences of `pat` in `l`, scanning left to
right (fuelled; `l.length` suffices since `pat` is nonempty wherever used). -/
def occCountAux (pat : List Char) : Nat → List Char → Nat
  | 0, _ => 0
  | n + 1, l =>
    match splitFirst pat l with
    | some (_, b) => occCountAux pat n b + 1
    | none => 0

/-- Count the non-overlapping occurrences of `pat` in `l`. -/
def occCount (pat l : List Char) : Nat := occCountAux pat l.length l

/-! ### Occurrence of a pattern, and the provenance framework used for the
empty-paragraph cleanup invariant -/

/-- `pat` occurs somewhere in `l` as a contiguous substring. -/
def Occurs (pat l : List Char) : Prop := ∃ a b, l = a ++ pat ++ b

/-- Boolean occurrence test via the leftmost-split scanner. -/
def occursB (pat l : List Char) : Bool := (splitFirst pat l).isSome

/-- Neither `<p>` nor `</p>` occurs in `l`. -/
def NoP (l : List Char) : Prop :=
  ¬ Occurs "<p>".data l ∧ ¬ Occurs "</p>".data l

/-- The templates inserted by stages 1-10 (fenced code through ordered
lists). -/
def stageTpls : List (List Char) :=
  ["<pre><code>".data, "</code></pre>".data, "<code>".data, "</code>".data,
   "<h1>".data, "</h1>".data, "<h2>".data, "</h2>".data, "<h3>".data,
   "</h3>".data, "<strong>".data, "</strong>".data, "<em>".data,
   "</em>".data, "<li>".data, "</li>".data, "<ul>".data, "</ul>".data]

/-- Provenance states: the output so far ends with a template or nothing
(`safe`), ends with a copied character contiguous with the current source
position (`cont`), or ends with a copied character that is no longer
contiguous (`dead`, so no copy may follow until a template intervenes). -/
inductive MSt where
  | safe : MSt
  | cont : MSt
  | dead : MSt
deriving DecidableEq

/-- The state after skipping a source character without emitting it. -/
def skipSt : MSt → MSt
  | MSt.safe => MSt.safe
  | _ => MSt.dead

/-- `Alt ts s src out`: the output `out` is an interleaving of inserted
templates from `ts` and copied characters of the source `src`, where two
copied characters are adjacent in the output only if they are adjacent in
the source (an inserted template lifts the constraint). -/
inductive Alt (ts : List (List Char)) : MSt → List Char → List Char → Prop
  | nil : ∀ s l, Alt ts s l []
  | stop : ∀ s l, s ≠ MSt.dead → Alt ts s l l
  | copy : ∀ s c l out, s ≠ MSt.dead → Alt ts MSt.cont l out →
      Alt ts s (c :: l) (c :: out)
  | skip : ∀ s c l out, Alt ts (skipSt s) l out → Alt ts s (c :: l) out
  | tpl : ∀ s t l out, t ∈ ts → Alt ts MSt.safe l out → Alt ts s l (t ++ out)

/-- `out` is empty or starts with a template from `ts`. -/
def TplHead (ts : List (List Char)) (out : List Char) : Prop :=
  out = [] ∨ ∃ t ∈ ts, ∃ r, out = t ++ r

/-- `out` agrees with `src` on a prefix and then is empty or
template-headed. -/
def StartOK (ts : List (List Char)) (src out : List Char) : Prop :=
  ∃ j, out.take j = src.take j ∧ TplHead ts (out.drop j)

/-- A matcher decomposes, on success, into a template, a copied substring of
the input, and a template. -/
def MDecomp (ts : List (List Char))
    (m : List Char → Option (List Char × List Char)) : Prop :=
  ∀ l e r, m l = some (e, r) → ∃ tl mid tr pre post,
    tl ∈ ts ∧ tr ∈ ts ∧ e = tl ++ (mid ++ tr) ∧
    l = pre ++ (mid ++ (post ++ r))

/-- A per-line function decomposes, on a match, into a template, a copied
suffix of the line, and a template. -/
def LDecomp (ts : List (List Char)) (f : List Char → List Char) : Prop :=
  ∀ line, f line = line ∨ ∃ tl mid tr pre,
    tl ∈ ts ∧ tr ∈ ts ∧ f line = tl ++ (mid ++ tr) ∧ line = pre ++ mid

/-! ### Paragraph segments and cleanup blocks -/

/-- The paragraph separator emitted for `\n\n`. -/
def pSep : List Char := "</p><p>".data

/-- The segments the paragraph stage's scan cuts the text into (fuelled like
`scanAux`). -/
def segsAux : Nat → List Char → List (List Char)
  | 0, l => [l]
  | _ + 1, [] => [[]]
  | n + 1, c :: rest =>
    if isPre ['\n', '\n'] (c :: rest) then [] :: segsAux n rest.tail
    else
      match segsAux n rest with
      | [] => [[c]]
      | s :: ss => (c :: s) :: ss

/-- Join segments with the paragraph separator. -/
def joinSegs : List (List Char) → List Char
  | [] => []
  | [s] => s
  | s :: s2 :: ss => s ++ pSep ++ joinSegs (s2 :: ss)

/-- Wrap one segment in a paragraph. -/
def wrapP (s : List Char) : List Char :=
  "<p>".data ++ (s ++ "</p>".data)

/-- One paragraph block during the cleanup stages: an optional `<p>`, a
core, and an optional `</p>`. -/
structure PBlock where
  hasOp : Bool
  core : List Char
  hasCl : Bool

/-- Render one block back to text. -/
def renderB (b : PBlock) : List Char :=
  (if b.hasOp then "<p>".data else []) ++
    (b.core ++ (if b.hasCl then "</p>".data else []))

/-- Render a block list back to text. -/
def renderBs (bs : List PBlock) : List Char := (bs.map renderB).flatten

/-- Opening tags of the block elements the cleanup stages unwrap. -/
def openerTags : List (List Char) :=
  ["<h1>".data, "<h2>".data, "<h3>".data, "<pre>".data, "<ul>".data]

/-- Closing tags of the block elements the cleanup stages unwrap. -/
def closerTags : List (List Char) :=
  ["</h1>".data, "</h2>".data, "</h3>".data, "</pre>".data, "</ul>".data]

/-- Remove trailing JS whitespace. -/
def trimWsEnd (l : List Char) : List Char :=
  (l.reverse.dropWhile isJsSpace).reverse

/-- Boolean: `t` is a suffix of `l`. -/
def endsWith (t l : List Char) : Bool := isPre t.reverse l.reverse

/-- The effect of one `<p>TAG`-unwrap cleanup on one block. -/
def stepOpen (tags : List (List Char)) (b : PBlock) : PBlock :=
  if b.hasOp then
    match tags.find? (fun t => isPre t (b.core.dropWhile isJsSpace)) with
    | some _ => ⟨false, b.core.dropWhile isJsSpace, b.hasCl⟩
    | none => b
  else b

/-- The effect of one `TAG</p>`-unwrap cleanup on one block. -/
def stepClose (tags : List (List Char)) (b : PBlock) : PBlock :=
  if b.hasCl then
    match tags.find? (fun t => endsWith t (trimWsEnd b.core)) with
    | some _ => ⟨b.hasOp, trimWsEnd b.core, false⟩
    | none => b
  else b

/-- The invariant each block keeps through the cleanup stages. -/
def GoodB (b : PBlock) : Prop :=
  b.core ≠ [] ∧ b.core.all isJsSpace = false ∧
  ¬ Occurs "<p>".data b.core ∧ ¬ Occurs "</p>".data b.core ∧
  (b.hasCl = false → ∃ u t, t ∈ closerTags ∧ b.core = u ++ t) ∧
  (b.hasOp = false → ∃ t r, t ∈ openerTags ∧ b.core = t ++ r)

/-! ### Helper lemmas for the escaping stage -/

/-- No replacement produced by `escChar` contains a raw angle bracket. -/
theorem escChar_no_angle (c : Char) : '<' ∉ escChar c ∧ '>' ∉ escChar c := by
  unfold escChar
  split_ifs with h1 h2 h3 h4
  · exact ⟨by decide, by decide⟩
  · exact ⟨by decide, by decide⟩
  · exact ⟨by decide, by decide⟩
  · exact ⟨by decide, by decide⟩
  · constructor
    · intro h
      exact h2 (List.mem_singleton.mp h).symm
    · intro h
      exact h3 (List.mem_singleton.mp h).symm

/-- The escaped text contains no raw angle bracket at all. -/
theorem escapeHtmlL_no_angle (l : List Char) :
    '<' ∉ escapeHtmlL l ∧ '>' ∉ escapeHtmlL l := by
  induction l with
  | nil => exact ⟨List.not_mem_nil _, List.not_mem_nil _⟩
  | cons c r ih =>
    constructor
    · intro h
      rcases List.mem_append.mp h with h' | h'
      · exact (escChar_no_angle c).1 h'
      · exact ih.1 h'
    · intro h
      rcases List.mem_append.mp h with h' | h'
      · exact (escChar_no_angle c).2 h'
      · exact ih.2 h'

/-- `escapeHtmlL` distributes over concatenation. -/
theorem escapeHtmlL_append (l1 l2 : List Char) :
    escapeHtmlL (l1 ++ l2) = escapeHtmlL l1 ++ escapeHtmlL l2 := by
  induction l1 with
  | nil => rfl
  | cons c r ih => simp [escapeHtmlL, ih]

/-! ### Claim theorems (concrete parts) -/

/-- Claim C1, counterexample: the input consisting of one `"` character is
rendered with the quote left raw — the output is `<p>"</p>` and contains no
`&quot;` entity — so a reserved `"` from the input does not appear as an
entity reference. -/
theorem c1_counterexample :
    renderMarkdown "\"" = "<p>\"</p>" ∧
    splitFirst "&quot;".data (renderMarkdown "\"").data = none := by
  constructor
  · decide
  · decide

/-- Claim C1 as amended: escaping runs first, and it removes every raw `<`
and `>` coming from the input — the text entering the structural stages
contains no angle bracket at all, so every `<`/`>` of the final output was
introduced by a structural stage's own template; `"` is not escaped. -/
theorem c1_escape_precedes_structure (s : String) :
    ('<' ∉ escapeHtmlL s.data ∧ '>' ∉ escapeHtmlL s.data) ∧
    renderMarkdown s = ⟨structuralStages (escapeHtmlL s.data)⟩ :=
  ⟨escapeHtmlL_no_angle s.data, rfl⟩

/-- Claim C2 (code bug): `**not bold**` inside a fenced code block is
transformed to `<strong>not bold</strong>` by the later bold stage, because
the fence replacement splices the rendered markup back into the working
string instead of protecting it behind a placeholder. -/
theorem c2_fenced_content_transformed :
    renderMarkdown "```\n**not bold**\n```" =
      "<pre><code><strong>not bold</strong></code></pre>" := by decide

/-- Claim C3: the renderer is a total function (it is defined as a Lean
function on all strings), and delimiter-only or malformed markup — a lone
`**`, a lone backtick, a lone `#`, an unterminated fence, an unmatched
emphasis delimiter — comes out as literal text rather than failing. -/
theorem c3_total_malformed_literal :
    renderMarkdown "" = "" ∧
    renderMarkdown "**" = "<p>**</p>" ∧
    renderMarkdown "`" = "<p>`</p>" ∧
    renderMarkdown "#" = "<p>#</p>" ∧
    renderMarkdown "```\nx" = "<p>```\nx</p>" ∧
    renderMarkdown "*a" = "<p>*a</p>" := by
  refine ⟨by decide, by decide, by decide, by decide, by decide, by decide⟩

/-- Claim C4, counterexample: the escaping stage maps `"` to itself, not to
`&quot;` — `escapeHtml` serializes a text node, and that serialization does
not escape quotes. -/
theorem c4_counterexample :
    escapeHtml "\"" = "\"" ∧ escapeHtml "\"" ≠ "&quot;" := by
  constructor
  · decide
  · decide

/-- Claim C4 as amended: the escaping stage is a character-wise homomorphism
mapping `&`→`&amp;`, `<`→`&lt;`, `>`→`&gt;`, U+00A0→`&nbsp;`, and leaving
every other character — including `"` and newlines — unchanged. -/
theorem c4_escape_characterisation :
    (∀ l1 l2 : List Char,
        escapeHtmlL (l1 ++ l2) = escapeHtmlL l1 ++ escapeHtmlL l2) ∧
    (escapeHtml "&" = "&amp;" ∧ escapeHtml "<" = "&lt;" ∧
      escapeHtml ">" = "&gt;" ∧ escapeHtml " " = "&nbsp;" ∧
      escapeHtml "\n" = "\n" ∧ escapeHtml "\"" = "\"") ∧
    (∀ c : Char, c ≠ '&' → c ≠ '<' → c ≠ '>' → c.toNat ≠ 160 →
      escapeHtmlL [c] = [c]) := by
  refine ⟨escapeHtmlL_append, ⟨by decide, by decide, by decide, by decide,
    by decide, by decide⟩, ?_⟩
  intro c h1 h2 h3 h4
  simp [escapeHtmlL, escChar, h1, h2, h3, h4]

/-- Claim C4 witness: the amended characterisation applied at concrete
inputs. -/
theorem c4_escape_characterisation_witness :
    escapeHtmlL ("a&".data ++ "<b".data) =
      escapeHtmlL "a&".data ++ escapeHtmlL "<b".data ∧
    escapeHtmlL ['x'] = ['x'] :=
  ⟨c4_escape_characterisation.1 "a&".data "<b".data,
    c4_escape_characterisation.2.2 'x' (by decide) (by decide) (by decide)
      (by decide)⟩

/-- Claim C5, counterexample: for the input `a\n# b\nc` the header sits in
the middle of the paragraph, neither cleanup rule fires, and the output
`<p>a\n<h1>b</h1>\nc</p>` nests the `<h1>` block inside the `<p>`. -/
theorem c5_counterexample :
    renderMarkdown "a\n# b\nc" = "<p>a\n<h1>b</h1>\nc</p>" := by decide

/-- Claim C6, counterexample: for `- a\n- b` the rendered output is not
`<ul><li>a</li><li>b</li></ul>`; the grouping pass captures the newline
between the two items inside `$1`, so the newline survives inside the
wrapper. -/
theorem c6_counterexample :
    renderMarkdown "- a\n- b" ≠ "<ul><li>a</li><li>b</li></ul>" ∧
    renderMarkdown "- a\n- b" = "<ul><li>a</li>\n<li>b</li></ul>" := by
  constructor
  · decide
  · decide

/-- Claim C6 as amended: adjacent `- ` lines are merged into one single
`<ul>` wrapper — one `<li>` per line, exactly one `<ul>`, never two —
with the separating newline preserved inside the wrapper. -/
theorem c6_single_ul_wrapper :
    renderMarkdown "- a\n- b" = "<ul><li>a</li>\n<li>b</li></ul>" ∧
    occCount "<ul>".data (renderMarkdown "- a\n- b").data = 1 ∧
    occCount "</ul>".data (renderMarkdown "- a\n- b").data = 1 ∧
    occCount "<li>".data (renderMarkdown "- a\n- b").data = 2 := by
  refine ⟨by decide, by decide, by decide, by decide⟩

/-- Claim C8, counterexample: the bold rule's content class `[^*]+` accepts
newlines, so `**a\nb**` is bolded across the newline instead of being left
literal as a rule with no newline inside would do. -/
theorem c8_counterexample :
    renderMarkdown "**a\nb**" = "<p><strong>a\nb</strong></p>" ∧
    renderMarkdown "**a\nb**" ≠ "<p>**a\nb**</p>" := by
  constructor
  · decide
  · decide

/-- Claim C8 as amended: bold spans (`**` around a nonempty run of
non-asterisk characters, newlines allowed) are rewritten before the italic
rule runs, so `**a** *b*` renders as `<strong>a</strong> <em>b</em>`. -/
theorem c8_bold_before_italic :
    renderMarkdown "**a** *b*" = "<p><strong>a</strong> <em>b</em></p>" := by
  decide

/-- Claim C9, counterexample: the fenced body `\n\nx\n\n\n` loses all of its
leading and trailing blank lines (`String.trim`), not exactly one of each —
the output contains no newline at all. -/
theorem c9_counterexample :
    renderMarkdown "```\n\n\nx\n\n\n```" = "<pre><code>x</code></pre>" ∧
    '\n' ∉ (renderMarkdown "```\n\n\nx\n\n\n```").data := by
  constructor
  · decide
  · decide

/-- Claim C10: rendering the empty string: the paragraph stage wraps the
empty text as `<p></p>`, the cleanup pass removes the empty wrapper, and
the final output is the empty string. -/
theorem c10_empty_input :
    stagePara [] = "<p></p>".data ∧
    stageCleanA "<p></p>".data = [] ∧
    renderMarkdown "" = "" := by
  refine ⟨by decide, by decide, by decide⟩

/-! ### Generic lemmas about the global-replace scanner -/

/-- The scanner leaves the empty list alone, whatever the fuel. -/
theorem scanAux_nil (m : List Char → Option (List Char × List Char)) :
    ∀ n, scanAux m n [] = []
  | 0 => rfl
  | _ + 1 => rfl

/-- A matcher `shrinks` when every successful match consumes at least one
character. -/
def Shrinks (m : List Char → Option (List Char × List Char)) : Prop :=
  ∀ l e r, m l = some (e, r) → r.length < l.length

/-- For a shrinking matcher, any fuel at least the input length computes the
same scan. -/
theorem scanAux_fuel (m : List Char → Option (List Char × List Char))
    (hm : Shrinks m) :
    ∀ n n' l, l.length ≤ n → l.length ≤ n' →
      scanAux m n l = scanAux m n' l := by
  intro n
  induction n with
  | zero =>
    intro n' l hn _
    have : l = [] := List.eq_nil_of_length_eq_zero (Nat.le_zero.mp hn)
    subst this
    rw [scanAux_nil, scanAux_nil]
  | succ n ih =>
    intro n' l hn hn'
    cases l with
    | nil => rw [scanAux_nil, scanAux_nil]
    | cons c rest =>
      cases n' with
      | zero => simp at hn'
      | succ n'' =>
        simp only [scanAux]
        cases h : m (c :: rest) with
        | none =>
          have h1 : rest.length ≤ n := by
            simp only [List.length_cons] at hn; omega
          have h2 : rest.length ≤ n'' := by
            simp only [List.length_cons] at hn'; omega
          dsimp only
          rw [ih n'' rest h1 h2]
        | some p =>
          obtain ⟨e, r⟩ := p
          have hr : r.length < (c :: rest).length := hm _ _ _ h
          have h1 : r.length ≤ n := by
            simp only [List.length_cons] at hr hn; omega
          have h2 : r.length ≤ n'' := by
            simp only [List.length_cons] at hr hn'; omega
          dsimp only
          rw [ih n'' r h1 h2]

/-- Scan of the empty list. -/
theorem scan_nil (m : List Char → Option (List Char × List Char)) :
    scan m [] = [] := rfl

/-- One scanner step on a failed match. -/
theorem scan_cons_none (m : List Char → Option (List Char × List Char))
    {c : Char} {l : List Char} (h : m (c :: l) = none) :
    scan m (c :: l) = c :: scan m l := by
  simp only [scan, List.length_cons, scanAux, h]

/-- One scanner step on a successful match, for a shrinking matcher. -/
theorem scan_cons_some (m : List Char → Option (List Char × List Char))
    (hm : Shrinks m) {c : Char} {l e r : List Char}
    (h : m (c :: l) = some (e, r)) :
    scan m (c :: l) = e ++ scan m r := by
  have hr : r.length < (c :: l).length := hm _ _ _ h
  simp only [scan, List.length_cons, scanAux, h]
  congr 1
  exact scanAux_fuel m hm l.length r.length r
    (by simp only [List.length_cons] at hr; omega) (Nat.le_refl _)

/-- A matcher is head-gated by `x` when it can only match at an `x`. -/
def HeadGate (m : List Char → Option (List Char × List Char)) (x : Char) :
    Prop :=
  m [] = none ∧ ∀ c l, c ≠ x → m (c :: l) = none

/-- A matcher is pair-gated by `x, y` when it can only match at an `x`
immediately followed by a `y`. -/
def PairGate (m : List Char → Option (List Char × List Char)) (x y : Char) :
    Prop :=
  m [] = none ∧ (∀ c, m [c] = none) ∧
    ∀ c d l, ¬(c = x ∧ d = y) → m (c :: d :: l) = none

/-- The scanner copies a region containing no gate character. -/
theorem scan_append_head {m : List Char → Option (List Char × List Char)}
    {x : Char} (hm : HeadGate m x) (a b : List Char)
    (ha : ∀ c ∈ a, c ≠ x) : scan m (a ++ b) = a ++ scan m b := by
  induction a with
  | nil => rfl
  | cons c a' ih =>
    have h := hm.2 c (a' ++ b) (ha c (List.mem_cons_self c a'))
    simp only [List.cons_append]
    rw [scan_cons_none m h, ih (fun d hd => ha d (List.mem_cons_of_mem c hd))]

/-- The scanner is the identity on input containing no gate character. -/
theorem scan_id_head {m : List Char → Option (List Char × List Char)}
    {x : Char} (hm : HeadGate m x) (l : List Char)
    (ha : ∀ c ∈ l, c ≠ x) : scan m l = l := by
  have h := scan_append_head hm l [] ha
  simpa [scan_nil] using h

/-- Boolean: the list contains no adjacent pair `x, y`. -/
def noPairB (x y : Char) : List Char → Bool
  | c :: d :: r => !(c == x && d == y) && noPairB x y (d :: r)
  | _ => true

/-- The pair test on a two-or-more-element list. -/
theorem noPairB_cons₂ (x y c d : Char) (r : List Char) :
    noPairB x y (c :: d :: r) =
      (!(c == x && d == y) && noPairB x y (d :: r)) := rfl

/-- If a list passes the pair test, so does its tail. -/
theorem noPairB_tail {x y c : Char} {t : List Char}
    (h : noPairB x y (c :: t) = true) : noPairB x y t = true := by
  cases t with
  | nil => rfl
  | cons d r =>
    rw [noPairB_cons₂, Bool.and_eq_true] at h
    exact h.2

/-- A passing pair test rules out the pair at the head. -/
theorem noPairB_head {x y c d : Char} {r : List Char}
    (h : noPairB x y (c :: d :: r) = true) : ¬(c = x ∧ d = y) := by
  rw [noPairB_cons₂, Bool.and_eq_true] at h
  intro ⟨h1, h2⟩
  subst h1; subst h2
  simp at h

/-- The scanner is the identity on input with no adjacent gate pair. -/
theorem scan_id_pair {m : List Char → Option (List Char × List Char)}
    {x y : Char} (hm : PairGate m x y) (l : List Char)
    (hl : noPairB x y l = true) : scan m l = l := by
  induction l with
  | nil => rfl
  | cons c rest ih =>
    cases rest with
    | nil =>
      rw [scan_cons_none m (hm.2.1 c), scan_nil]
    | cons d r =>
      rw [scan_cons_none m (hm.2.2 c d r (noPairB_head hl)),
        ih (noPairB_tail hl)]

/-- The scanner copies a region after which no gate pair begins, then
continues on the remainder. -/
theorem scan_append_pair {m : List Char → Option (List Char × List Char)}
    {x y : Char} (hm : PairGate m x y) (a b : List Char)
    (ha : noPairB x y (a ++ b.take 1) = true) :
    scan m (a ++ b) = a ++ scan m b := by
  induction a with
  | nil => rfl
  | cons c a' ih =>
    simp only [List.cons_append]
    cases h2 : a' ++ b with
    | nil =>
      have ha' : a' = [] := by
        cases a' with
        | nil => rfl
        | cons u v => simp at h2
      have hb : b = [] := by
        subst ha'; simpa using h2
      subst ha'; subst hb
      simp only [List.nil_append, List.append_nil, scan_nil]
      rw [scan_cons_none m (hm.2.1 c), scan_nil]
    | cons d r =>
      have hpair : ¬(c = x ∧ d = y) := by
        cases a' with
        | nil =>
          simp only [List.nil_append] at h2
          subst h2
          exact noPairB_head (by simpa using ha)
        | cons u v =>
          simp only [List.cons_append] at h2
          have hu : u = d := (List.cons.injEq _ _ _ _).mp h2 |>.1
          subst hu
          exact noPairB_head (by simpa using ha)
      have ihr := ih (noPairB_tail (by simpa using ha))
      rw [h2] at ihr
      rw [scan_cons_none m (hm.2.2 c d r hpair), ihr]

/-! ### Gate facts for the individual matchers -/

/-- Characters can be tested unequal through `==`. -/
theorem beq_false_of_ne {c d : Char} (h : c ≠ d) : (c == d) = false :=
  beq_eq_false_iff_ne.mpr h

/-- The fence matcher only fires at a backtick. -/
theorem fenceMatch_gate : HeadGate fenceMatch tick := by
  refine ⟨rfl, ?_⟩
  intro c l h
  have hb : (tick == c) = false := beq_false_of_ne (Ne.symm h)
  simp [fenceMatch, isPre, hb]

/-- The inline-code matcher only fires at a backtick. -/
theorem inlineMatch_gate : HeadGate inlineMatch tick := by
  refine ⟨rfl, ?_⟩
  intro c l h
  simp [inlineMatch, h]

/-- The bold matcher only fires at an asterisk. -/
theorem boldMatch_gate : HeadGate boldMatch '*' := by
  refine ⟨rfl, ?_⟩
  intro c l h
  have hb : (('*' : Char) == c) = false := beq_false_of_ne (Ne.symm h)
  simp [boldMatch, isPre, hb]

/-- The italic matcher only fires at an asterisk. -/
theorem italMatch_gate : HeadGate italMatch '*' := by
  refine ⟨rfl, ?_⟩
  intro c l h
  simp [italMatch, h]

/-- The paragraph matcher only fires at a newline. -/
theorem paraMatch_gate : HeadGate paraMatch '\n' := by
  refine ⟨rfl, ?_⟩
  intro c l h
  have hb : (('\n' : Char) == c) = false := beq_false_of_ne (Ne.symm h)
  simp [paraMatch, isPre, hb]

/-- The empty-paragraph matcher only fires at `<` followed by `p`. -/
theorem emptyPMatch_gate : PairGate emptyPMatch '<' 'p' := by
  refine ⟨rfl, ?_, ?_⟩
  · intro c
    simp [emptyPMatch, isPre]
  · intro c d l h
    by_cases hc : c = '<'
    · subst hc
      have hd : d ≠ 'p' := fun e => h ⟨rfl, e⟩
      have hb : (('p' : Char) == d) = false := beq_false_of_ne (Ne.symm hd)
      simp [emptyPMatch, isPre, hb]
    · have hb : (('<' : Char) == c) = false := beq_false_of_ne (Ne.symm hc)
      simp [emptyPMatch, isPre, hb]

/-- The `<p>`-unwrap matcher only fires at `<` followed by `p`. -/
theorem unwrapOpenMatch_gate (tags : List (List Char)) :
    PairGate (unwrapOpenMatch tags) '<' 'p' := by
  refine ⟨rfl, ?_, ?_⟩
  · intro c
    simp [unwrapOpenMatch, isPre]
  · intro c d l h
    by_cases hc : c = '<'
    · subst hc
      have hd : d ≠ 'p' := fun e => h ⟨rfl, e⟩
      have hb : (('p' : Char) == d) = false := beq_false_of_ne (Ne.symm hd)
      simp [unwrapOpenMatch, isPre, hb]
    · have hb : (('<' : Char) == c) = false := beq_false_of_ne (Ne.symm hc)
      simp [unwrapOpenMatch, isPre, hb]

/-- The `</p>`-unwrap matcher, for closing tags of the form `</…`, only
fires at `<` followed by `/`. -/
theorem unwrapCloseMatch_gate (tags : List (List Char))
    (ht : ∀ t ∈ tags, ∃ t', t = '<' :: '/' :: t') :
    PairGate (unwrapCloseMatch tags) '<' '/' := by
  have hnone : ∀ l, (∀ t ∈ tags, isPre t l = false) →
      unwrapCloseMatch tags l = none := by
    intro l hl
    have : tags.find? (fun t => isPre t l) = none :=
      List.find?_eq_none.mpr (fun t htm => by simp [hl t htm])
    simp [unwrapCloseMatch, this]
  refine ⟨?_, ?_, ?_⟩
  · refine hnone [] ?_
    intro t htm
    obtain ⟨t', rfl⟩ := ht t htm
    rfl
  · intro c
    refine hnone [c] ?_
    intro t htm
    obtain ⟨t', rfl⟩ := ht t htm
    simp [isPre]
  · intro c d l h
    refine hnone (c :: d :: l) ?_
    intro t htm
    obtain ⟨t', rfl⟩ := ht t htm
    by_cases hc : c = '<'
    · subst hc
      have hd : d ≠ '/' := fun e => h ⟨rfl, e⟩
      have hb : (('/' : Char) == d) = false := beq_false_of_ne (Ne.symm hd)
      simp [isPre, hb]
    · have hb : (('<' : Char) == c) = false := beq_false_of_ne (Ne.symm hc)
      simp [isPre, hb]

/-- The list-grouping matcher only fires at `<` followed by `l`. -/
theorem groupMatch_gate : PairGate groupMatch '<' 'l' := by
  refine ⟨rfl, ?_, ?_⟩
  · intro c
    simp [groupMatch, liRun, liUnit, isPre]
  · intro c d l h
    have hu : liUnit (c :: d :: l) = none := by
      by_cases hc : c = '<'
      · subst hc
        have hd : d ≠ 'l' := fun e => h ⟨rfl, e⟩
        have hb : (('l' : Char) == d) = false := beq_false_of_ne (Ne.symm hd)
        simp [liUnit, isPre, hb]
      · have hb : (('<' : Char) == c) = false := beq_false_of_ne (Ne.symm hc)
        simp [liUnit, isPre, hb]
    simp [groupMatch, liRun, hu]

/-! ### Line and character helpers -/

/-- A terminator-free input is a single line. -/
theorem breakLine_no_term (l : List Char)
    (h : ∀ c ∈ l, isLineTerm c = false) : breakLine l = (l, []) := by
  induction l with
  | nil => rfl
  | cons c r ih =>
    have hc := h c (List.mem_cons_self c r)
    have ihr := ih (fun d hd => h d (List.mem_cons_of_mem c hd))
    simp [breakLine, hc, ihr]

/-- On a terminator-free input a per-line pass is just the line function. -/
theorem mapLines_single (f : List Char → List Char) (n : Nat) (l : List Char)
    (h : ∀ c ∈ l, isLineTerm c = false) : mapLines f (n + 1) l = f l := by
  simp [mapLines, breakLine_no_term l h]

/-- Escaping is the identity on text whose characters all escape to
themselves. -/
theorem escapeHtmlL_id (l : List Char) (h : ∀ c ∈ l, escChar c = [c]) :
    escapeHtmlL l = l := by
  induction l with
  | nil => rfl
  | cons c r ih =>
    have hc := h c (List.mem_cons_self c r)
    have ihr := ih (fun d hd => h d (List.mem_cons_of_mem c hd))
    simp [escapeHtmlL, hc, ihr]

/-- An alphabetic character or a space escapes to itself. -/
theorem alphaSpace_escChar (c : Char) (h : c.isAlpha = true ∨ c = ' ') :
    escChar c = [c] := by
  rcases h with h | h
  · have h1 : c ≠ '&' := fun e => by subst e; exact absurd h (by decide)
    have h2 : c ≠ '<' := fun e => by subst e; exact absurd h (by decide)
    have h3 : c ≠ '>' := fun e => by subst e; exact absurd h (by decide)
    have h4 : c.toNat ≠ 160 := by
      intro e
      have hc : c = Char.ofNat 160 := by
        have := Char.ofNat_toNat c
        rw [e] at this
        exact this.symm
      subst hc
      exact absurd h (by decide)
    simp [escChar, h1, h2, h3, h4]
  · subst h; rfl

/-- An alphabetic character or a space differs from any character that is
neither alphabetic nor a space. -/
theorem alphaSpace_ne {c : Char} (h : c.isAlpha = true ∨ c = ' ')
    (d : Char) (hd : d.isAlpha = false) (hds : d ≠ ' ') : c ≠ d := by
  rcases h with h | h
  · intro e
    subst e
    rw [h] at hd
    cases hd
  · subst h
    exact fun e => hds e.symm

/-- An alphabetic character or a space has no code point belonging to a
character that is neither alphabetic nor a space. -/
theorem alphaSpace_toNat_ne {c : Char} (h : c.isAlpha = true ∨ c = ' ')
    (n : Nat) (hn : (Char.ofNat n).isAlpha = false)
    (hns : Char.ofNat n ≠ ' ') : c.toNat ≠ n := by
  intro e
  have hc : c = Char.ofNat n := by
    have := Char.ofNat_toNat c
    rw [e] at this
    exact this.symm
  subst hc
  rcases h with h | h
  · rw [h] at hn; cases hn
  · exact hns h

/-- An alphabetic character or a space is not a line terminator. -/
theorem alphaSpace_not_term {c : Char} (h : c.isAlpha = true ∨ c = ' ') :
    isLineTerm c = false := by
  have h1 : c ≠ '\n' := alphaSpace_ne h '\n' (by decide) (by decide)
  have h2 : c ≠ '\r' := alphaSpace_ne h '\r' (by decide) (by decide)
  have h3 : c.toNat ≠ 0x2028 := alphaSpace_toNat_ne h _ (by decide) (by decide)
  have h4 : c.toNat ≠ 0x2029 := alphaSpace_toNat_ne h _ (by decide) (by decide)
  simp [isLineTerm, h1, h2, h3, h4]

/-- Bridging lemma: prepending a non-`x` character and an `x`-free block to
a pair-free list keeps the list pair-free. -/
theorem noPairB_bridge (x y c : Char) (X B : List Char)
    (hc : c ≠ x) (hX : ∀ a ∈ X, a ≠ x) (hB : noPairB x y B = true) :
    noPairB x y (c :: (X ++ B)) = true := by
  induction X generalizing c with
  | nil =>
    simp only [List.nil_append]
    cases B with
    | nil => rfl
    | cons b r =>
      rw [noPairB_cons₂, Bool.and_eq_true]
      exact ⟨by simp [beq_false_of_ne hc], hB⟩
  | cons a X' ih =>
    simp only [List.cons_append]
    rw [noPairB_cons₂, Bool.and_eq_true]
    refine ⟨by simp [beq_false_of_ne hc], ?_⟩
    exact ih a (hX a (List.mem_cons_self a X'))
      (fun d hd => hX d (List.mem_cons_of_mem a hd))

/-! ### Decomposition and shrink lemmas -/

/-- Dropping a prefix by a predicate cannot lengthen a list. -/
theorem dropWhile_length_le (p : Char → Bool) (l : List Char) :
    (l.dropWhile p).length ≤ l.length := by
  induction l with
  | nil => simp
  | cons c r ih =>
    by_cases h : p c
    · simp only [List.dropWhile_cons, h, if_true, List.length_cons]
      exact Nat.le_succ_of_le ih
    · simp [List.dropWhile_cons, h]

/-- A successful prefix test yields an append decomposition. -/
theorem isPre_exists {p l : List Char} (h : isPre p l = true) :
    ∃ r, l = p ++ r := by
  induction p generalizing l with
  | nil => exact ⟨l, rfl⟩
  | cons pc ps ih =>
    cases l with
    | nil => simp [isPre] at h
    | cons c cs =>
      have h' : (pc == c) = true ∧ isPre ps cs = true := by
        simpa [isPre, Bool.and_eq_true] using h
      obtain ⟨r, hr⟩ := ih h'.2
      exact ⟨r, by simp [eq_of_beq h'.1, hr]⟩

/-- `splitFirst` decomposes its input around the pattern. -/
theorem splitFirst_some {pat l a b : List Char}
    (h : splitFirst pat l = some (a, b)) : l = a ++ pat ++ b := by
  induction l generalizing a with
  | nil =>
    unfold splitFirst at h
    by_cases hp : isPre pat [] = true
    · rw [if_pos hp] at h
      obtain ⟨r, hr⟩ := isPre_exists hp
      simp only [Option.some.injEq, Prod.mk.injEq, List.drop_nil] at h
      obtain ⟨ha, hb⟩ := h
      subst ha; subst hb
      have hpat : pat = [] := by
        cases pat with
        | nil => rfl
        | cons x xs => simp at hr
      subst hpat; rfl
    · rw [if_neg hp] at h; cases h
  | cons c rest ih =>
    unfold splitFirst at h
    by_cases hp : isPre pat (c :: rest) = true
    · rw [if_pos hp] at h
      simp only [Option.some.injEq, Prod.mk.injEq] at h
      obtain ⟨ha, hb⟩ := h
      subst ha
      obtain ⟨r, hr⟩ := isPre_exists hp
      rw [hr, List.drop_left] at hb
      subst hb
      rw [hr]; rfl
    · rw [if_neg hp] at h
      cases hs : splitFirst pat rest with
      | none => rw [hs] at h; cases h
      | some p =>
        obtain ⟨a', b'⟩ := p
        rw [hs] at h
        simp only [Option.some.injEq, Prod.mk.injEq] at h
        obtain ⟨ha, hb⟩ := h
        subst hb
        rw [← ha, ih hs]; rfl

/-- The `<p>`-unwrap matcher consumes at least the `<p>`. -/
theorem unwrapOpenMatch_shrinks (tags : List (List Char)) :
    Shrinks (unwrapOpenMatch tags) := by
  intro l e r h
  unfold unwrapOpenMatch at h
  by_cases hp : isPre "<p>".data l = true
  · rw [if_pos hp] at h
    dsimp only at h
    cases hf : tags.find? (fun t => isPre t ((l.drop 3).dropWhile isJsSpace))
      with
    | none => rw [hf] at h; cases h
    | some t =>
      rw [hf] at h
      simp only [Option.some.injEq, Prod.mk.injEq] at h
      obtain ⟨-, hr⟩ := h
      obtain ⟨l', hl⟩ := isPre_exists hp
      have h1 : ((l.drop 3).dropWhile isJsSpace).length ≤ (l.drop 3).length :=
        dropWhile_length_le _ _
      have h2 : (l.drop 3).length = l.length - 3 := List.length_drop 3 l
      have h3 : l.length = l'.length + 3 := by simp [hl]
      have h4 : r.length ≤ ((l.drop 3).dropWhile isJsSpace).length := by
        rw [← hr]
        simp [List.length_drop]
      omega
  · rw [if_neg hp] at h; cases h

/-- The fence matcher consumes at least the delimiters. -/
theorem fenceMatch_shrinks : Shrinks fenceMatch := by
  intro l e r h
  unfold fenceMatch at h
  by_cases hp : isPre [tick, tick, tick] l = true
  · rw [if_pos hp] at h
    cases hd : (l.drop 3).dropWhile isWordChar with
    | nil => rw [hd] at h; cases h
    | cons c body =>
      rw [hd] at h
      dsimp only at h
      by_cases hc : c = '\n'
      · rw [if_pos hc] at h
        cases hs : splitFirst [tick, tick, tick] body with
        | none => rw [hs] at h; cases h
        | some p =>
          obtain ⟨code, rest⟩ := p
          rw [hs] at h
          simp only [Option.some.injEq, Prod.mk.injEq] at h
          obtain ⟨-, hr⟩ := h
          have hdec := splitFirst_some hs
          have h1 : rest.length + 3 ≤ body.length := by
            rw [hdec]; simp
          have h2 : (c :: body).length ≤ (l.drop 3).length := by
            rw [← hd]
            exact dropWhile_length_le _ _
          have h3 : (l.drop 3).length = l.length - 3 := List.length_drop 3 l
          obtain ⟨l', hl⟩ := isPre_exists hp
          have h4 : l.length = l'.length + 3 := by simp [hl]
          simp only [List.length_cons] at h2
          rw [← hr]
          omega
      · rw [if_neg hc] at h; cases h
  · rw [if_neg hp] at h; cases h

/-! ### Assembling pair-freeness of shaped strings -/

/-- Pair test for a block, given the character that follows the block. -/
def noPairChain (x y : Char) : List Char → Option Char → Bool
  | [], _ => true
  | [c], some d => !(c == x && d == y)
  | [_], none => true
  | c :: d :: r, nxt => !(c == x && d == y) && noPairChain x y (d :: r) nxt

/-- A block that passes the chained pair test against the next character can
be prepended to a pair-free nonempty list. -/
theorem noPairB_of_chain (x y : Char) (A : List Char) (c : Char)
    (t : List Char) (hA : noPairChain x y A (some c) = true)
    (ht : noPairB x y (c :: t) = true) :
    noPairB x y (A ++ (c :: t)) = true := by
  induction A with
  | nil => simpa using ht
  | cons a A' ih =>
    cases A' with
    | nil =>
      rw [List.singleton_append, noPairB_cons₂, Bool.and_eq_true]
      exact ⟨by simpa [noPairChain] using hA, ht⟩
    | cons a' A'' =>
      have h' : noPairChain x y (a' :: A'') (some c) = true ∧
          (!(a == x && a' == y)) = true := by
        rw [noPairChain, Bool.and_eq_true] at hA
        exact ⟨hA.2, hA.1⟩
      have ihr := ih h'.1
      simp only [List.cons_append] at ihr ⊢
      rw [noPairB_cons₂, Bool.and_eq_true]
      exact ⟨h'.2, ihr⟩

/-- A block of non-`x` characters can be prepended to a pair-free list. -/
theorem noPairB_bridge0 (x y : Char) (X B : List Char)
    (hX : ∀ a ∈ X, a ≠ x) (hB : noPairB x y B = true) :
    noPairB x y (X ++ B) = true := by
  cases X with
  | nil => simpa using hB
  | cons c X' =>
    exact noPairB_bridge x y c X' B (hX c (List.mem_cons_self c X'))
      (fun d hd => hX d (List.mem_cons_of_mem c hd)) hB

/-- Characters of the universal block differ from `d` when `d` is neither
alphabetic nor a space; the concrete blocks are checked by computation. -/
theorem forall_ne_shape {X : List Char}
    (hX : ∀ c ∈ X, c.isAlpha = true ∨ c = ' ') (A B : List Char) (d : Char)
    (hd : d.isAlpha = false) (hds : d ≠ ' ')
    (hA : ∀ c ∈ A, c ≠ d) (hB : ∀ c ∈ B, c ≠ d) :
    ∀ c ∈ A ++ (X ++ B), c ≠ d := by
  intro c hc
  rcases List.mem_append.mp hc with h | h
  · exact hA c h
  · rcases List.mem_append.mp h with h' | h'
    · exact alphaSpace_ne (hX c h') d hd hds
    · exact hB c h'

/-- No character of the shaped string is a line terminator. -/
theorem forall_term_shape {X : List Char}
    (hX : ∀ c ∈ X, c.isAlpha = true ∨ c = ' ') (A B : List Char)
    (hA : ∀ c ∈ A, isLineTerm c = false)
    (hB : ∀ c ∈ B, isLineTerm c = false) :
    ∀ c ∈ A ++ (X ++ B), isLineTerm c = false := by
  intro c hc
  rcases List.mem_append.mp hc with h | h
  · exact hA c h
  · rcases List.mem_append.mp h with h' | h'
    · exact alphaSpace_not_term (hX c h')
    · exact hB c h'

/-! ### Stage-by-stage behaviour on a `### X` header line (alphabetic or
space content `X`) -/

/-- Escaping leaves a plain header line unchanged. -/
theorem c7aux_escape (X : List Char)
    (hX : ∀ c ∈ X, c.isAlpha = true ∨ c = ' ') :
    escapeHtmlL ("### ".data ++ X) = "### ".data ++ X := by
  apply escapeHtmlL_id
  intro c hc
  rcases List.mem_append.mp hc with h | h
  · exact (by decide : ∀ c ∈ "### ".data, escChar c = [c]) c h
  · exact alphaSpace_escChar c (hX c h)

/-- The fence stage leaves a backtick-free line unchanged. -/
theorem c7aux_fence (X : List Char)
    (hX : ∀ c ∈ X, c.isAlpha = true ∨ c = ' ') :
    stageFence ("### ".data ++ X) = "### ".data ++ X := by
  apply scan_id_head fenceMatch_gate
  intro c hc
  rcases List.mem_append.mp hc with h | h
  · exact (by decide : ∀ c ∈ "### ".data, c ≠ tick) c h
  · exact alphaSpace_ne (hX c h) tick (by decide) (by decide)

/-- The inline-code stage leaves a backtick-free line unchanged. -/
theorem c7aux_inline (X : List Char)
    (hX : ∀ c ∈ X, c.isAlpha = true ∨ c = ' ') :
    stageInline ("### ".data ++ X) = "### ".data ++ X := by
  apply scan_id_head inlineMatch_gate
  intro c hc
  rcases List.mem_append.mp hc with h | h
  · exact (by decide : ∀ c ∈ "### ".data, c ≠ tick) c h
  · exact alphaSpace_ne (hX c h) tick (by decide) (by decide)

/-- The `###` header stage rewrites the line to an `<h3>` element. -/
theorem c7aux_h3 (X : List Char) (hne : X ≠ [])
    (hX : ∀ c ∈ X, c.isAlpha = true ∨ c = ' ') :
    stageH3 ("### ".data ++ X) = "<h3>".data ++ (X ++ "</h3>".data) := by
  have hterm : ∀ c ∈ "### ".data ++ X, isLineTerm c = false := by
    intro c hc
    rcases List.mem_append.mp hc with h | h
    · exact (by decide : ∀ c ∈ "### ".data, isLineTerm c = false) c h
    · exact alphaSpace_not_term (hX c h)
  unfold stageH3
  rw [mapLines_single _ _ _ hterm]
  cases X with
  | nil => exact absurd rfl hne
  | cons x0 X' => rfl

/-- The `##` header stage does not touch the produced `<h3>` line. -/
theorem c7aux_h2 (X : List Char)
    (hX : ∀ c ∈ X, c.isAlpha = true ∨ c = ' ') :
    stageH2 ("<h3>".data ++ (X ++ "</h3>".data)) =
      "<h3>".data ++ (X ++ "</h3>".data) := by
  have hterm := forall_term_shape hX "<h3>".data "</h3>".data
    (by decide) (by decide)
  unfold stageH2
  rw [mapLines_single _ _ _ hterm]
  rfl

/-- The `#` header stage does not touch the produced `<h3>` line. -/
theorem c7aux_h1 (X : List Char)
    (hX : ∀ c ∈ X, c.isAlpha = true ∨ c = ' ') :
    stageH1 ("<h3>".data ++ (X ++ "</h3>".data)) =
      "<h3>".data ++ (X ++ "</h3>".data) := by
  have hterm := forall_term_shape hX "<h3>".data "</h3>".data
    (by decide) (by decide)
  unfold stageH1
  rw [mapLines_single _ _ _ hterm]
  rfl

/-- The bold stage leaves an asterisk-free line unchanged. -/
theorem c7aux_bold (X : List Char)
    (hX : ∀ c ∈ X, c.isAlpha = true ∨ c = ' ') :
    stageBold ("<h3>".data ++ (X ++ "</h3>".data)) =
      "<h3>".data ++ (X ++ "</h3>".data) :=
  scan_id_head boldMatch_gate _
    (forall_ne_shape hX "<h3>".data "</h3>".data '*' (by decide) (by decide)
      (by decide) (by decide))

/-- The italic stage leaves an asterisk-free line unchanged. -/
theorem c7aux_ital (X : List Char)
    (hX : ∀ c ∈ X, c.isAlpha = true ∨ c = ' ') :
    stageItal ("<h3>".data ++ (X ++ "</h3>".data)) =
      "<h3>".data ++ (X ++ "</h3>".data) :=
  scan_id_head italMatch_gate _
    (forall_ne_shape hX "<h3>".data "</h3>".data '*' (by decide) (by decide)
      (by decide) (by decide))

/-- The list-item stage does not touch the `<h3>` line. -/
theorem c7aux_items (X : List Char)
    (hX : ∀ c ∈ X, c.isAlpha = true ∨ c = ' ') :
    stageListItems ("<h3>".data ++ (X ++ "</h3>".data)) =
      "<h3>".data ++ (X ++ "</h3>".data) := by
  have hterm := forall_term_shape hX "<h3>".data "</h3>".data
    (by decide) (by decide)
  unfold stageListItems
  rw [mapLines_single _ _ _ hterm]
  rfl

/-- The grouping stage does not touch the `<h3>` line (no `<li`). -/
theorem c7aux_group (X : List Char)
    (hX : ∀ c ∈ X, c.isAlpha = true ∨ c = ' ') :
    stageGroup ("<h3>".data ++ (X ++ "</h3>".data)) =
      "<h3>".data ++ (X ++ "</h3>".data) := by
  apply scan_id_pair groupMatch_gate
  exact noPairB_of_chain '<' 'l' ['<', 'h', '3'] '>' (X ++ "</h3>".data)
    (by decide)
    (noPairB_bridge '<' 'l' '>' X "</h3>".data (by decide)
      (fun a ha => alphaSpace_ne (hX a ha) '<' (by decide) (by decide))
      (by decide))

/-- The ordered-list stage does not touch the `<h3>` line. -/
theorem c7aux_ordered (X : List Char)
    (hX : ∀ c ∈ X, c.isAlpha = true ∨ c = ' ') :
    stageOrdered ("<h3>".data ++ (X ++ "</h3>".data)) =
      "<h3>".data ++ (X ++ "</h3>".data) := by
  have hterm := forall_term_shape hX "<h3>".data "</h3>".data
    (by decide) (by decide)
  unfold stageOrdered
  rw [mapLines_single _ _ _ hterm]
  rfl

/-- The paragraph stage wraps the newline-free `<h3>` line. -/
theorem c7aux_para (X : List Char)
    (hX : ∀ c ∈ X, c.isAlpha = true ∨ c = ' ') :
    stagePara ("<h3>".data ++ (X ++ "</h3>".data)) =
      "<p><h3>".data ++ (X ++ "</h3></p>".data) := by
  unfold stagePara
  rw [scan_id_head paraMatch_gate _
    (forall_ne_shape hX "<h3>".data "</h3>".data '\n' (by decide) (by decide)
      (by decide) (by decide))]
  simp only [List.append_assoc]
  rfl

/-- The empty-paragraph cleanup does not fire on the wrapped header. -/
theorem c7aux_cleanA (X : List Char)
    (hX : ∀ c ∈ X, c.isAlpha = true ∨ c = ' ') :
    stageCleanA ("<p><h3>".data ++ (X ++ "</h3></p>".data)) =
      "<p><h3>".data ++ (X ++ "</h3></p>".data) := by
  have hXlt : ∀ a ∈ X, a ≠ '<' :=
    fun a ha => alphaSpace_ne (hX a ha) '<' (by decide) (by decide)
  have hpair : noPairB '<' 'p'
      ("p><h3".data ++ ('>' :: (X ++ "</h3></p>".data))) = true :=
    noPairB_of_chain '<' 'p' "p><h3".data '>' (X ++ "</h3></p>".data)
      (by decide)
      (noPairB_bridge '<' 'p' '>' X "</h3></p>".data (by decide) hXlt
        (by decide))
  have h0 : emptyPMatch
      ('<' :: ("p><h3".data ++ ('>' :: (X ++ "</h3></p>".data)))) = none := rfl
  show scan emptyPMatch
      ('<' :: ("p><h3".data ++ ('>' :: (X ++ "</h3></p>".data)))) =
    '<' :: ("p><h3".data ++ ('>' :: (X ++ "</h3></p>".data)))
  rw [scan_cons_none _ h0, scan_id_pair emptyPMatch_gate _ hpair]

/-- The `<p><h[123]>` cleanup strips the leading `<p>`. -/
theorem c7aux_cleanB (X : List Char)
    (hX : ∀ c ∈ X, c.isAlpha = true ∨ c = ' ') :
    stageCleanB ("<p><h3>".data ++ (X ++ "</h3></p>".data)) =
      "<h3>".data ++ (X ++ "</h3></p>".data) := by
  have hXlt : ∀ a ∈ X, a ≠ '<' :=
    fun a ha => alphaSpace_ne (hX a ha) '<' (by decide) (by decide)
  have h0 : unwrapOpenMatch ["<h1>".data, "<h2>".data, "<h3>".data]
      ('<' :: ("p><h3>".data ++ (X ++ "</h3></p>".data))) =
      some ("<h3>".data, X ++ "</h3></p>".data) := rfl
  show scan (unwrapOpenMatch ["<h1>".data, "<h2>".data, "<h3>".data])
      ('<' :: ("p><h3>".data ++ (X ++ "</h3></p>".data))) =
    "<h3>".data ++ (X ++ "</h3></p>".data)
  rw [scan_cons_some _ (unwrapOpenMatch_shrinks _) h0,
    scan_id_pair (unwrapOpenMatch_gate _) _
      (noPairB_bridge0 '<' 'p' X "</h3></p>".data hXlt (by decide))]

/-- The `</h[123]></p>` cleanup strips the trailing `</p>`. -/
theorem c7aux_cleanC (X : List Char)
    (hX : ∀ c ∈ X, c.isAlpha = true ∨ c = ' ') :
    stageCleanC ("<h3>".data ++ (X ++ "</h3></p>".data)) =
      "<h3>".data ++ (X ++ "</h3>".data) := by
  have hXlt : ∀ a ∈ X, a ≠ '<' :=
    fun a ha => alphaSpace_ne (hX a ha) '<' (by decide) (by decide)
  have hgate := unwrapCloseMatch_gate
    ["</h1>".data, "</h2>".data, "</h3>".data]
    (by
      intro t ht
      simp only [List.mem_cons] at ht
      rcases ht with rfl | rfl | rfl | h
      · exact ⟨"h1>".data, rfl⟩
      · exact ⟨"h2>".data, rfl⟩
      · exact ⟨"h3>".data, rfl⟩
      · exact absurd h (List.not_mem_nil t))
  have ha : noPairB '<' '/'
      (("<h3>".data ++ X) ++ List.take 1 "</h3></p>".data) = true :=
    noPairB_of_chain '<' '/' "<h3".data '>' (X ++ ['<']) (by decide)
      (noPairB_bridge '<' '/' '>' X ['<'] (by decide) hXlt (by decide))
  have hsp := scan_append_pair hgate ("<h3>".data ++ X) "</h3></p>".data ha
  have htail : scan (unwrapCloseMatch
      ["</h1>".data, "</h2>".data, "</h3>".data]) "</h3></p>".data =
      "</h3>".data := by decide
  rw [htail] at hsp
  exact hsp

/-- The `<p><pre>` cleanup does not fire. -/
theorem c7aux_cleanD (X : List Char)
    (hX : ∀ c ∈ X, c.isAlpha = true ∨ c = ' ') :
    stageCleanD ("<h3>".data ++ (X ++ "</h3>".data)) =
      "<h3>".data ++ (X ++ "</h3>".data) := by
  have hXlt : ∀ a ∈ X, a ≠ '<' :=
    fun a ha => alphaSpace_ne (hX a ha) '<' (by decide) (by decide)
  apply scan_id_pair (unwrapOpenMatch_gate _)
  exact noPairB_of_chain '<' 'p' "<h3".data '>' (X ++ "</h3>".data)
    (by decide)
    (noPairB_bridge '<' 'p' '>' X "</h3>".data (by decide) hXlt (by decide))

/-- The `</pre></p>` cleanup does not fire. -/
theorem c7aux_cleanE (X : List Char)
    (hX : ∀ c ∈ X, c.isAlpha = true ∨ c = ' ') :
    stageCleanE ("<h3>".data ++ (X ++ "</h3>".data)) =
      "<h3>".data ++ (X ++ "</h3>".data) := by
  have hXlt : ∀ a ∈ X, a ≠ '<' :=
    fun a ha => alphaSpace_ne (hX a ha) '<' (by decide) (by decide)
  have hgate := unwrapCloseMatch_gate ["</pre>".data]
    (by
      intro t ht
      simp only [List.mem_cons] at ht
      rcases ht with rfl | h
      · exact ⟨"pre>".data, rfl⟩
      · exact absurd h (List.not_mem_nil t))
  have ha : noPairB '<' '/'
      (("<h3>".data ++ X) ++ List.take 1 "</h3>".data) = true :=
    noPairB_of_chain '<' '/' "<h3".data '>' (X ++ ['<']) (by decide)
      (noPairB_bridge '<' '/' '>' X ['<'] (by decide) hXlt (by decide))
  have hsp := scan_append_pair hgate ("<h3>".data ++ X) "</h3>".data ha
  have htail : scan (unwrapCloseMatch ["</pre>".data]) "</h3>".data =
      "</h3>".data := by decide
  rw [htail] at hsp
  exact hsp

/-- The `<p><ul>` cleanup does not fire. -/
theorem c7aux_cleanF (X : List Char)
    (hX : ∀ c ∈ X, c.isAlpha = true ∨ c = ' ') :
    stageCleanF ("<h3>".data ++ (X ++ "</h3>".data)) =
      "<h3>".data ++ (X ++ "</h3>".data) := by
  have hXlt : ∀ a ∈ X, a ≠ '<' :=
    fun a ha => alphaSpace_ne (hX a ha) '<' (by decide) (by decide)
  apply scan_id_pair (unwrapOpenMatch_gate _)
  exact noPairB_of_chain '<' 'p' "<h3".data '>' (X ++ "</h3>".data)
    (by decide)
    (noPairB_bridge '<' 'p' '>' X "</h3>".data (by decide) hXlt (by decide))

/-- The `</ul></p>` cleanup does not fire. -/
theorem c7aux_cleanG (X : List Char)
    (hX : ∀ c ∈ X, c.isAlpha = true ∨ c = ' ') :
    stageCleanG ("<h3>".data ++ (X ++ "</h3>".data)) =
      "<h3>".data ++ (X ++ "</h3>".data) := by
  have hXlt : ∀ a ∈ X, a ≠ '<' :=
    fun a ha => alphaSpace_ne (hX a ha) '<' (by decide) (by decide)
  have hgate := unwrapCloseMatch_gate ["</ul>".data]
    (by
      intro t ht
      simp only [List.mem_cons] at ht
      rcases ht with rfl | h
      · exact ⟨"ul>".data, rfl⟩
      · exact absurd h (List.not_mem_nil t))
  have ha : noPairB '<' '/'
      (("<h3>".data ++ X) ++ List.take 1 "</h3>".data) = true :=
    noPairB_of_chain '<' '/' "<h3".data '>' (X ++ ['<']) (by decide)
      (noPairB_bridge '<' '/' '>' X ['<'] (by decide) hXlt (by decide))
  have hsp := scan_append_pair hgate ("<h3>".data ++ X) "</h3>".data ha
  have htail : scan (unwrapCloseMatch ["</ul>".data]) "</h3>".data =
      "</h3>".data := by decide
  rw [htail] at hsp
  exact hsp

/-- Claim C7: a `### X` line is rendered as `<h3>X</h3>` — never `<h1>` or
`<h2>` — for every nonempty alphabetic-or-space `X`; and the three header
rules apply most-specific first, each anchored to its own line, as the
three-line input shows. -/
theorem c7_header_rule :
    (∀ X : List Char, X ≠ [] → (∀ c ∈ X, c.isAlpha = true ∨ c = ' ') →
      renderMarkdown ⟨"### ".data ++ X⟩ =
        ⟨"<h3>".data ++ (X ++ "</h3>".data)⟩) ∧
    renderMarkdown "### a\n## b\n# c" =
      "<h3>a</h3>\n<h2>b</h2>\n<h1>c</h1>" := by
  refine ⟨?_, by decide⟩
  intro X hne hX
  show (⟨renderMarkdownL ("### ".data ++ X)⟩ : String) = _
  have hli : renderMarkdownL ("### ".data ++ X) =
      "<h3>".data ++ (X ++ "</h3>".data) := by
    unfold renderMarkdownL structuralStages
    rw [c7aux_escape X hX, c7aux_fence X hX, c7aux_inline X hX,
      c7aux_h3 X hne hX, c7aux_h2 X hX, c7aux_h1 X hX, c7aux_bold X hX,
      c7aux_ital X hX, c7aux_items X hX, c7aux_group X hX,
      c7aux_ordered X hX, c7aux_para X hX, c7aux_cleanA X hX,
      c7aux_cleanB X hX, c7aux_cleanC X hX, c7aux_cleanD X hX,
      c7aux_cleanE X hX, c7aux_cleanF X hX, c7aux_cleanG X hX]
  rw [hli]

/-- Claim C7 witness: the header rule applied to the concrete line
`### Title`. -/
theorem c7_header_rule_witness :
    renderMarkdown "### Title" = "<h3>Title</h3>" := by
  have h := c7_header_rule.1 "Title".data (by decide) (by decide)
  calc renderMarkdown "### Title"
      = renderMarkdown ⟨"### ".data ++ "Title".data⟩ := by rfl
    _ = ⟨"<h3>".data ++ ("Title".data ++ "</h3>".data)⟩ := h
    _ = "<h3>Title</h3>" := by rfl

/-! ### The fence stage on a whole fenced block -/

/-- Scanning for the closing fence in a backtick-free body finds exactly the
appended closing fence. -/
theorem splitFirst_ticks (body : List Char) (hb : ∀ c ∈ body, c ≠ tick) :
    splitFirst [tick, tick, tick] (body ++ [tick, tick, tick]) =
      some (body, []) := by
  induction body with
  | nil => rfl
  | cons c body' ih =>
    have hc : c ≠ tick := hb c (List.mem_cons_self c body')
    have hb' : ∀ d ∈ body', d ≠ tick :=
      fun d hd => hb d (List.mem_cons_of_mem c hd)
    have hpre : isPre [tick, tick, tick]
        (c :: (body' ++ [tick, tick, tick])) = false := by
      simp [isPre, beq_false_of_ne (Ne.symm hc)]
    simp [splitFirst, hpre, ih hb']

/-- Claim C9 as amended: a fenced block whose body contains no backtick is
rewritten to `<pre><code>…</code></pre>` around `jsTrim` of the body — all
leading and trailing JS whitespace is stripped (JS `String.trim`), and a
body with no leading or trailing whitespace is kept verbatim, so interior
whitespace is never touched. -/
theorem c9_fence_trim :
    (∀ body : List Char, (∀ c ∈ body, c ≠ tick) →
      stageFence (tick :: ([tick, tick] ++ ('\n' :: (body ++ "```".data)))) =
        "<pre><code>".data ++ jsTrim body ++ "</code></pre>".data) ∧
    (∀ m : List Char, (∀ c ∈ m.take 1, isJsSpace c = false) →
      (∀ c ∈ m.reverse.take 1, isJsSpace c = false) → jsTrim m = m) := by
  constructor
  · intro body hb
    have hsplit := splitFirst_ticks body hb
    have h0 : fenceMatch
        (tick :: ([tick, tick] ++ ('\n' :: (body ++ "```".data)))) =
        some ("<pre><code>".data ++ jsTrim body ++ "</code></pre>".data,
          []) := by
      unfold fenceMatch
      rw [if_pos (show isPre [tick, tick, tick]
        (tick :: ([tick, tick] ++ ('\n' :: (body ++ "```".data)))) = true
        from rfl)]
      rw [show ((tick :: ([tick, tick] ++
          ('\n' :: (body ++ "```".data)))).drop 3).dropWhile isWordChar =
        '\n' :: (body ++ [tick, tick, tick]) from rfl]
      dsimp only
      rw [if_pos rfl, hsplit]
    rw [show stageFence
        (tick :: ([tick, tick] ++ ('\n' :: (body ++ "```".data)))) =
      scan fenceMatch
        (tick :: ([tick, tick] ++ ('\n' :: (body ++ "```".data)))) from rfl]
    rw [scan_cons_some _ fenceMatch_shrinks h0, scan_nil, List.append_nil]
  · intro m hhead hlast
    unfold jsTrim
    have h1 : m.dropWhile isJsSpace = m := by
      cases m with
      | nil => rfl
      | cons c r =>
        have hc := hhead c (by simp [List.take])
        simp [List.dropWhile_cons, hc]
    rw [h1]
    have h2 : m.reverse.dropWhile isJsSpace = m.reverse := by
      cases hr : m.reverse with
      | nil => rfl
      | cons d r2 =>
        have hd := hlast d (by rw [hr]; simp [List.take])
        simp [List.dropWhile_cons, hd]
    rw [h2, List.reverse_reverse]

/-- Claim C9 witness: the fence-stage characterisation applied to a body
with surrounding whitespace, and the trim characterisation applied to a
body with interior whitespace only. -/
theorem c9_fence_trim_witness :
    stageFence "```\n\n x \n```".data =
      "<pre><code>".data ++ jsTrim "\n x \n".data ++ "</code></pre>".data ∧
    jsTrim "a b".data = "a b".data := by
  constructor
  · exact c9_fence_trim.1 "\n x \n".data (by decide)
  · exact c9_fence_trim.2 "a b".data (by decide) (by decide)

/-! ### Occurrence machinery -/

/-- A pattern is a prefix of itself extended. -/
theorem isPre_append_self (p r : List Char) : isPre p (p ++ r) = true := by
  induction p with
  | nil => rfl
  | cons c ps ih => simp [isPre, ih]

/-- Prefix tests extend to longer lists. -/
theorem isPre_mono {p v : List Char} (X : List Char)
    (h : isPre p v = true) : isPre p (v ++ X) = true := by
  obtain ⟨r, rfl⟩ := isPre_exists h
  rw [List.append_assoc]
  exact isPre_append_self p (r ++ X)

/-- A prefix the same length as the list is the list. -/
theorem isPre_eq_of_length {p l : List Char} (h : isPre p l = true)
    (hl : p.length = l.length) : p = l := by
  obtain ⟨r, rfl⟩ := isPre_exists h
  have : r = [] := by
    have := congrArg id hl
    simp only [List.length_append] at hl
    exact List.eq_nil_of_length_eq_zero (by omega)
  simp [this]

/-- Splitting a prefix test across an append. -/
theorem isPre_append_split {p u v : List Char}
    (h : isPre p (u ++ v) = true) :
    isPre p u = true ∨ ∃ t, p = u ++ t ∧ isPre t v = true := by
  induction p generalizing u with
  | nil => exact Or.inl rfl
  | cons c ps ih =>
    cases u with
    | nil => exact Or.inr ⟨c :: ps, rfl, h⟩
    | cons d u' =>
      rw [List.cons_append] at h
      have h' : (c == d) = true ∧ isPre ps (u' ++ v) = true := by
        simpa [isPre, Bool.and_eq_true] using h
      rcases ih h'.2 with h1 | ⟨t, ht, hv⟩
      · exact Or.inl (by simp [isPre, h'.1, h1])
      · exact Or.inr ⟨t, by simp [eq_of_beq h'.1, ht], hv⟩

/-- A mismatch at the head falsifies the prefix test. -/
theorem isPre_head_ne {c d : Char} (p l : List Char) (h : c ≠ d) :
    isPre (c :: p) (d :: l) = false := by
  simp [isPre, beq_false_of_ne h]

/-- An occurrence at the very front. -/
theorem occurs_of_isPre {pat l : List Char} (h : isPre pat l = true) :
    Occurs pat l := by
  obtain ⟨r, rfl⟩ := isPre_exists h
  exact ⟨[], r, rfl⟩

/-- An occurrence survives prepending. -/
theorem occurs_append_left {pat v : List Char} (u : List Char)
    (h : Occurs pat v) : Occurs pat (u ++ v) := by
  obtain ⟨a, b, rfl⟩ := h
  exact ⟨u ++ a, b, by simp [List.append_assoc]⟩

/-- An occurrence survives appending. -/
theorem occurs_append_right {pat u : List Char} (v : List Char)
    (h : Occurs pat u) : Occurs pat (u ++ v) := by
  obtain ⟨a, b, rfl⟩ := h
  exact ⟨a, b ++ v, by simp [List.append_assoc]⟩

/-- An occurrence in an inner substring is an occurrence. -/
theorem occurs_sub {pat m l : List Char} (h : Occurs pat m)
    (hd : ∃ a b, l = a ++ (m ++ b)) : Occurs pat l := by
  obtain ⟨a, b, rfl⟩ := hd
  exact occurs_append_left a (occurs_append_right b h)

/-- No nonempty pattern occurs in the empty list. -/
theorem not_occurs_nil {pat : List Char} (h : pat ≠ []) :
    ¬ Occurs pat [] := by
  rintro ⟨a, b, hab⟩
  cases a with
  | nil =>
    cases pat with
    | nil => exact h rfl
    | cons c r => simp at hab
  | cons c r => simp at hab

/-- An occurrence survives a cons. -/
theorem occurs_cons {pat l : List Char} (c : Char) (h : Occurs pat l) :
    Occurs pat (c :: l) := by
  obtain ⟨a, b, rfl⟩ := h
  exact ⟨c :: a, b, rfl⟩

/-- Splitting an occurrence across an append: either it lies in `v`, or the
pattern begins at some nonempty suffix `u2` of `u`. -/
theorem occurs_append_cases {pat u v : List Char}
    (h : Occurs pat (u ++ v)) :
    Occurs pat v ∨ ∃ u1 u2, u = u1 ++ u2 ∧ u2 ≠ [] ∧
      isPre pat (u2 ++ v) = true := by
  obtain ⟨a, b, hab⟩ := h
  induction u generalizing a with
  | nil => exact Or.inl ⟨a, b, hab⟩
  | cons c u' ih =>
    cases a with
    | nil =>
      have h2 : (c :: u') ++ v = pat ++ b := by simpa using hab
      exact Or.inr ⟨[], c :: u', rfl, by simp,
        by rw [h2]; exact isPre_append_self _ _⟩
    | cons d a' =>
      have h2 : u' ++ v = a' ++ pat ++ b := by
        have := congrArg List.tail hab
        simpa using this
      rcases ih a' h2 with h1 | ⟨u1, u2, hu, hne, hp⟩
      · exact Or.inl h1
      · exact Or.inr ⟨c :: u1, u2, by rw [hu, List.cons_append], hne, hp⟩

/-- The boolean test is complete for genuine occurrences. -/
theorem occursB_of_occurs {pat l : List Char} (h : Occurs pat l) :
    occursB pat l = true := by
  obtain ⟨a, b, rfl⟩ := h
  unfold occursB
  suffices hs : splitFirst pat (a ++ pat ++ b) ≠ none by
    cases hx : splitFirst pat (a ++ pat ++ b) with
    | none => exact absurd hx hs
    | some p => simp
  induction a with
  | nil =>
    simp only [List.nil_append]
    cases hp : pat with
    | nil =>
      cases b with
      | nil => simp [splitFirst, isPre]
      | cons c r => simp [splitFirst, isPre]
    | cons c ps =>
      have hi : isPre (c :: ps) ((c :: ps) ++ b) = true :=
        isPre_append_self (c :: ps) b
      rw [List.cons_append] at hi
      simp [splitFirst, hi]
  | cons c a' ih =>
    rw [List.cons_append, List.cons_append]
    by_cases hp : isPre pat (c :: (a' ++ pat ++ b)) = true
    · rw [List.append_assoc] at hp
      simp [splitFirst, hp]
    · rw [List.append_assoc] at hp ⊢
      simp only [splitFirst, hp, if_false]
      cases hx : splitFirst pat (a' ++ (pat ++ b)) with
      | none =>
        rw [← List.append_assoc] at hx
        exact absurd hx ih
      | some p =>
        obtain ⟨x, y⟩ := p
        simp

/-- The boolean test is sound. -/
theorem occurs_of_occursB {pat l : List Char} (h : occursB pat l = true) :
    Occurs pat l := by
  unfold occursB at h
  cases hx : splitFirst pat l with
  | none => rw [hx] at h; cases h
  | some p =>
    obtain ⟨a, b⟩ := p
    exact ⟨a, b, splitFirst_some hx⟩

/-- Occurrence is equivalent to its boolean test. -/
theorem occurs_iff {pat l : List Char} :
    Occurs pat l ↔ occursB pat l = true :=
  ⟨occursB_of_occurs, occurs_of_occursB⟩

/-- Text without `<` contains neither paragraph tag. -/
theorem noP_of_no_lt {l : List Char} (h : '<' ∉ l) : NoP l := by
  constructor
  · rintro ⟨a, b, rfl⟩
    exact h (List.mem_append.mpr (Or.inl (List.mem_append.mpr
      (Or.inr (by decide)))))
  · rintro ⟨a, b, rfl⟩
    exact h (List.mem_append.mpr (Or.inl (List.mem_append.mpr
      (Or.inr (by decide)))))

/-- `NoP` passes to the tail. -/
theorem noP_tail {c : Char} {l : List Char} (h : NoP (c :: l)) : NoP l :=
  ⟨fun ho => h.1 (occurs_cons c ho), fun ho => h.2 (occurs_cons c ho)⟩

/-- The head of a dropped list is a member of the base list. -/
theorem head_drop_ne {l : List Char} {x : Char} (hx : x ∉ l) (k : Nat) :
    (l.drop k).head? ≠ some x := by
  intro h
  have hm : x ∈ l.drop k := by
    cases hd : l.drop k with
    | nil => rw [hd] at h; cases h
    | cons c r =>
      rw [hd] at h
      have : c = x := by simpa using h
      subst this
      exact List.mem_cons_self c r
  exact hx (List.drop_subset k l hm)

/-- The head of an append with a nonempty left part. -/
theorem head?_append_left {α : Type} {l : List α} (r : List α)
    (h : l ≠ []) : (l ++ r).head? = l.head? := by
  cases l with
  | nil => exact absurd rfl h
  | cons c t => rfl

/-! ### Basic facts about the provenance relation -/

/-- A dead-state interleaving is valid from any state. -/
theorem alt_dead_any {ts : List (List Char)} :
    ∀ {l out}, Alt ts MSt.dead l out → ∀ s, Alt ts s l out := by
  suffices h : ∀ s0 l out, Alt ts s0 l out → s0 = MSt.dead →
      ∀ s, Alt ts s l out by
    intro l out hd s
    exact h _ _ _ hd rfl s
  intro s0 l out h
  induction h with
  | nil s l => exact fun _ s' => Alt.nil s' l
  | stop s l hs => exact fun he _ => absurd he hs
  | copy s c l out hs hpre ih => exact fun he _ => absurd he hs
  | skip s c l out hpre ih =>
    intro he s'
    subst he
    exact Alt.skip s' c l out (ih rfl (skipSt s'))
  | tpl s t l out ht hpre ih =>
    exact fun _ s' => Alt.tpl s' t l out ht hpre

/-- A contiguous-state interleaving is valid from the template state. -/
theorem alt_cont_safe {ts : List (List Char)} :
    ∀ {l out}, Alt ts MSt.cont l out → Alt ts MSt.safe l out := by
  suffices h : ∀ s0 l out, Alt ts s0 l out → s0 = MSt.cont →
      Alt ts MSt.safe l out by
    intro l out hc
    exact h _ _ _ hc rfl
  intro s0 l out h
  induction h with
  | nil s l => exact fun _ => Alt.nil _ l
  | stop s l hs => exact fun _ => Alt.stop _ l (by decide)
  | copy s c l out hs hpre ih =>
    exact fun _ => Alt.copy _ c l out (by decide) hpre
  | skip s c l out hpre ih =>
    intro he
    subst he
    exact Alt.skip MSt.safe c l out (alt_dead_any hpre MSt.safe)
  | tpl s t l out ht hpre ih =>
    exact fun _ => Alt.tpl _ t l out ht hpre

/-- A contiguous-state interleaving is valid from any live state. -/
theorem alt_of_cont {ts : List (List Char)} {s : MSt} {l out : List Char}
    (hs : s ≠ MSt.dead) (h : Alt ts MSt.cont l out) : Alt ts s l out := by
  cases s with
  | dead => exact absurd rfl hs
  | cont => exact h
  | safe => exact alt_cont_safe h

/-- Copy a whole contiguous region. -/
theorem alt_copies {ts : List (List Char)} (a : List Char) {s : MSt}
    {l out : List Char} (hs : s ≠ MSt.dead)
    (h : Alt ts MSt.cont l out) : Alt ts s (a ++ l) (a ++ out) := by
  induction a generalizing s with
  | nil => exact alt_of_cont hs h
  | cons c a' ih =>
    exact Alt.copy s c (a' ++ l) (a' ++ out) hs (ih (by decide))

/-- Skip a whole region, staying in the template state. -/
theorem alt_skips_safe {ts : List (List Char)} (a : List Char)
    {l out : List Char} (h : Alt ts MSt.safe l out) :
    Alt ts MSt.safe (a ++ l) out := by
  induction a with
  | nil => exact h
  | cons c a' ih => exact Alt.skip MSt.safe c (a' ++ l) out ih

/-- Build the interleaving for one match step: a template, a copied
substring, a template, then the continuation. -/
theorem alt_of_match {ts : List (List Char)} {s : MSt}
    {tl mid tr pre post l r out : List Char} (htl : tl ∈ ts) (htr : tr ∈ ts)
    (hl : l = pre ++ (mid ++ (post ++ r))) (hs : s ≠ MSt.dead)
    (hr : Alt ts MSt.safe r out) :
    Alt ts s l (tl ++ (mid ++ (tr ++ out))) := by
  refine Alt.tpl s tl l _ htl ?_
  subst hl
  refine alt_skips_safe pre ?_
  refine alt_copies mid (by decide) ?_
  exact Alt.tpl MSt.cont tr _ _ htr (alt_skips_safe post hr)

/-- Every scan of a decomposing matcher is an interleaving. -/
theorem alt_scan {ts : List (List Char)}
    {m : List Char → Option (List Char × List Char)} (hm : MDecomp ts m) :
    ∀ n l s, s ≠ MSt.dead → Alt ts s l (scanAux m n l) := by
  intro n
  induction n with
  | zero => exact fun l s hs => Alt.stop s l hs
  | succ n ih =>
    intro l s hs
    cases l with
    | nil =>
      rw [scanAux_nil]
      exact Alt.nil s []
    | cons c rest =>
      cases hmatch : m (c :: rest) with
      | none =>
        rw [show scanAux m (n + 1) (c :: rest) = c :: scanAux m n rest by
          simp [scanAux, hmatch]]
        exact Alt.copy s c rest _ hs (ih rest MSt.cont (by decide))
      | some p =>
        obtain ⟨e, r⟩ := p
        rw [show scanAux m (n + 1) (c :: rest) = e ++ scanAux m n r by
          simp [scanAux, hmatch]]
        obtain ⟨tl, mid, tr, pre, post, htl, htr, he, hsrc⟩ :=
          hm _ _ _ hmatch
        rw [he, List.append_assoc, List.append_assoc]
        exact alt_of_match htl htr hsrc hs (ih r MSt.safe (by decide))

/-- `breakLine` decomposes its input. -/
theorem breakLine_decomp (l : List Char) :
    l = (breakLine l).1 ++ (breakLine l).2 := by
  induction l with
  | nil => rfl
  | cons c rest ih =>
    by_cases h : isLineTerm c = true
    · simp [breakLine, h]
    · have h' : isLineTerm c = false := by simpa using h
      simp only [breakLine, h', Bool.false_eq_true, if_false,
        List.cons_append]
      exact congrArg (c :: ·) ih

/-- Every per-line pass of a decomposing line function is an
interleaving. -/
theorem alt_mapLines {ts : List (List Char)} {f : List Char → List Char}
    (hf : LDecomp ts f) :
    ∀ fuel l s, s ≠ MSt.dead → Alt ts s l (mapLines f fuel l) := by
  intro fuel
  induction fuel with
  | zero => exact fun l s hs => Alt.stop s l hs
  | succ n ih =>
    intro l s hs
    have hbl := breakLine_decomp l
    cases hp2 : (breakLine l).2 with
    | nil =>
      rw [show mapLines f (n + 1) l = f (breakLine l).1 by
        simp [mapLines, hp2]]
      rcases hf (breakLine l).1 with heq |
        ⟨tl, mid, tr, pre, htl, htr, hfl, hline⟩
      · rw [heq]
        rw [hp2, List.append_nil] at hbl
        rw [← hbl]
        exact Alt.stop s l hs
      · rw [hfl]
        rw [hp2, List.append_nil] at hbl
        have hl : l = pre ++ (mid ++ ([] ++ [])) := by
          rw [hbl, hline]; simp
        have hm := alt_of_match htl htr hl hs (Alt.nil MSt.safe [])
        simpa using hm
    | cons t0 r2 =>
      rw [show mapLines f (n + 1) l =
          f (breakLine l).1 ++ t0 :: mapLines f n r2 by
        simp [mapLines, hp2]]
      rcases hf (breakLine l).1 with heq |
        ⟨tl, mid, tr, pre, htl, htr, hfl, hline⟩
      · rw [heq]
        rw [hp2] at hbl
        have hcp := alt_copies (breakLine l).1 hs
          (Alt.copy MSt.cont t0 r2 _ (by decide) (ih r2 MSt.cont (by decide)))
        rw [← hbl] at hcp
        exact hcp
      · rw [hfl, List.append_assoc, List.append_assoc]
        rw [hp2] at hbl
        have hl : l = pre ++ (mid ++ ([] ++ (t0 :: r2))) := by
          rw [hbl, hline]; simp
        exact alt_of_match htl htr hl hs
          (Alt.copy MSt.safe t0 r2 _ (by decide) (ih r2 MSt.cont (by decide)))

/-- Soundness of the boolean non-occurrence check. -/
theorem not_occurs_of_b {pat t : List Char} (h : occursB pat t = false) :
    ¬ Occurs pat t := fun ho => by
  have hb := occursB_of_occurs ho
  rw [h] at hb
  cases hb

/-! ### The master non-occurrence lemma for interleavings -/

/-- If the output agrees with an occurrence-free source on a prefix and then
is template-headed, the pattern is not a prefix of the output. -/
theorem startOK_no_isPre {ts : List (List Char)} {pat : List Char}
    (hpat4 : pat.length ≤ 4)
    (hdrop : ∀ k, 1 ≤ k → (pat.drop k).head? ≠ some '<')
    (hts : ∀ t ∈ ts, t.head? = some '<' ∧ 4 ≤ t.length ∧
      occursB pat t = false)
    {src out : List Char} (hsrc : ¬ Occurs pat src)
    (hok : StartOK ts src out) : ¬ isPre pat out = true := by
  intro hp
  obtain ⟨j, hj, hT⟩ := hok
  rw [← List.take_append_drop j out] at hp
  rcases isPre_append_split hp with h1 | ⟨tp, htp, hpre⟩
  · obtain ⟨r, hr⟩ := isPre_exists h1
    apply hsrc
    have hsplit : src = pat ++ (r ++ src.drop j) := by
      conv_lhs => rw [← List.take_append_drop j src, ← hj, hr]
      rw [List.append_assoc]
    exact ⟨[], r ++ src.drop j, by simpa using hsplit⟩
  · cases htp' : tp with
    | nil =>
      subst htp'
      rw [List.append_nil] at htp
      apply hsrc
      have hsplit : src = pat ++ src.drop j := by
        conv_lhs => rw [← List.take_append_drop j src, ← hj, ← htp]
      exact ⟨[], src.drop j, by simpa using hsplit⟩
    | cons x tp2 =>
      subst htp'
      rcases hT with hnil | ⟨t, htm, r, hr⟩
      · rw [hnil] at hpre
        simp [isPre] at hpre
      · obtain ⟨hthead, htlen, htb⟩ := hts t htm
        have htocc := not_occurs_of_b htb
        cases ht : t with
        | nil => rw [ht] at hthead; cases hthead
        | cons c0 t' =>
          have hc0 : c0 = '<' := by
            rw [ht] at hthead
            simpa using hthead
          subst hc0
          rw [ht] at hr
          rw [hr] at hpre
          cases hA : out.take j with
          | nil =>
            rw [hA, List.nil_append] at htp
            rcases isPre_append_split hpre with h2 | ⟨tp3, htp3, hpre3⟩
            · refine htocc ?_
              rw [ht]
              exact occurs_of_isPre (by rw [htp]; exact h2)
            · cases htp3x : tp3 with
              | nil =>
                subst htp3x
                rw [List.append_nil] at htp3
                refine htocc ?_
                rw [ht, ← htp3, ← htp]
                exact ⟨[], [], by simp⟩
              | cons y tp4 =>
                subst htp3x
                have hlen := congrArg List.length htp3
                simp only [List.length_cons, List.length_append] at hlen
                have hplen := congrArg List.length htp
                simp only [List.length_cons] at hplen
                rw [ht] at htlen
                simp only [List.length_cons] at htlen
                omega
          | cons a0 A' =>
            have hxlt : x = '<' := by
              have hpre' : (x == '<') = true ∧
                  isPre tp2 (t' ++ r) = true := by
                simpa [isPre, Bool.and_eq_true] using hpre
              exact eq_of_beq hpre'.1
            have hd : (pat.drop (out.take j).length).head? = some '<' := by
              rw [htp, List.drop_left, hxlt]
              rfl
            exact hdrop (out.take j).length
              (by rw [hA]; exact Nat.succ_le_succ (Nat.zero_le _)) hd

/-- The master lemma: an interleaving of an occurrence-free source with
templates that are `<`-headed, `>`-ended, at least four characters long and
occurrence-free never contains the (at most four character long,
`<`-starting, properly `<`-less and properly `>`-less) pattern. -/
theorem alt_noP {ts : List (List Char)} {pat : List Char}
    (hpat4 : pat.length ≤ 4) (hpatne : pat ≠ [])
    (hdrop : ∀ k, 1 ≤ k → (pat.drop k).head? ≠ some '<')
    (htake : ∀ k, 1 ≤ k → k < pat.length →
      (pat.take k).reverse.head? ≠ some '>')
    (hts : ∀ t ∈ ts, t.head? = some '<' ∧ 4 ≤ t.length ∧
      occursB pat t = false ∧ t.reverse.head? = some '>') :
    ∀ {s l out}, Alt ts s l out → ¬ Occurs pat l →
      ¬ Occurs pat out ∧ (s = MSt.dead → TplHead ts out) ∧
        (s = MSt.cont → StartOK ts l out) := by
  have hts3 : ∀ t ∈ ts, t.head? = some '<' ∧ 4 ≤ t.length ∧
      occursB pat t = false :=
    fun t ht => ⟨(hts t ht).1, (hts t ht).2.1, (hts t ht).2.2.1⟩
  intro s l out halt
  induction halt with
  | nil s l =>
    intro _
    exact ⟨not_occurs_nil hpatne, fun _ => Or.inl rfl,
      fun _ => ⟨0, rfl, Or.inl rfl⟩⟩
  | stop s l hs =>
    intro hl
    exact ⟨hl, fun he => absurd he hs,
      fun _ => ⟨l.length, rfl, Or.inl (List.drop_length l)⟩⟩
  | copy s c l out hs hpre ih =>
    intro hsrc
    have hl : ¬ Occurs pat l := fun ho => hsrc (occurs_cons c ho)
    obtain ⟨ihO, _, ihC⟩ := ih hl
    obtain ⟨j, hj, hT⟩ := ihC rfl
    have hok : StartOK ts (c :: l) (c :: out) := by
      refine ⟨j + 1, ?_, ?_⟩
      · rw [List.take_succ_cons, List.take_succ_cons, hj]
      · rw [List.drop_succ_cons]
        exact hT
    refine ⟨?_, fun he => absurd he hs, fun _ => hok⟩
    intro hocc
    rcases @occurs_append_cases pat [c] out hocc
      with h1 | ⟨u1, u2, hu, hne, hp⟩
    · exact ihO h1
    · have hu2 : u2 = [c] := by
        cases u1 with
        | nil => simpa using hu.symm
        | cons d u1' =>
          have hlu := congrArg List.length hu
          cases u2 with
          | nil => exact absurd rfl hne
          | cons e u2' =>
            simp only [List.length_cons, List.length_append,
              List.length_nil] at hlu
            omega
      subst hu2
      have hno := startOK_no_isPre hpat4 hdrop hts3 hsrc hok
      exact hno hp
  | skip s c l out hpre ih =>
    intro hsrc
    have hl : ¬ Occurs pat l := fun ho => hsrc (occurs_cons c ho)
    obtain ⟨ihO, ihD, _⟩ := ih hl
    refine ⟨ihO, ?_, ?_⟩
    · intro he
      subst he
      exact ihD rfl
    · intro he
      subst he
      exact ⟨0, rfl, ihD rfl⟩
  | tpl s t l out htm hpre ih =>
    intro hsrc
    obtain ⟨ihO, _, _⟩ := ih hsrc
    obtain ⟨hthead, htlen, htb, htrev⟩ := hts t htm
    have htocc := not_occurs_of_b htb
    refine ⟨?_, fun _ => Or.inr ⟨t, htm, out, rfl⟩,
      fun _ => ⟨0, rfl, Or.inr ⟨t, htm, out, rfl⟩⟩⟩
    intro hocc
    rcases occurs_append_cases hocc with h1 | ⟨u1, u2, hut, hne, hp⟩
    · exact ihO h1
    · rcases isPre_append_split hp with h2 | ⟨tp, htp, hpre2⟩
      · exact htocc (occurs_sub (occurs_of_isPre h2)
          ⟨u1, [], by simp [hut]⟩)
      · cases htp' : tp with
        | nil =>
          subst htp'
          rw [List.append_nil] at htp
          exact htocc ⟨u1, [], by simp [hut, htp]⟩
        | cons y tp2 =>
          subst htp'
          have hu2take : pat.take u2.length = u2 := by
            rw [htp]
            exact List.take_left _ _
          have hlt : u2.length < pat.length := by
            have hlen := congrArg List.length htp
            simp only [List.length_cons, List.length_append] at hlen
            omega
          have h1le : 1 ≤ u2.length := by
            cases u2 with
            | nil => exact absurd rfl hne
            | cons _ _ => exact Nat.succ_le_succ (Nat.zero_le _)
          have hrev : u2.reverse.head? = some '>' := by
            have e1 : u2.reverse ++ u1.reverse = t.reverse := by
              rw [← List.reverse_append, ← hut]
            have e2 := head?_append_left (l := u2.reverse) u1.reverse
              (by simpa using hne)
            rw [e1] at e2
            rw [← e2]
            exact htrev
          exact htake u2.length h1le hlt (by rw [hu2take]; exact hrev)

/-! ### Pattern and template facts -/

/-- Proper tails of `<p>` never start with `<`. -/
theorem p1_drop : ∀ k, 1 ≤ k → (("<p>".data).drop k).head? ≠ some '<' := by
  intro k hk
  have hmem : '<' ∉ ("<p>".data).drop 1 := by decide
  have e : ("<p>".data).drop k = (("<p>".data).drop 1).drop (k - 1) := by
    rw [List.drop_drop]
    congr 1
    omega
  rw [e]
  exact head_drop_ne hmem (k - 1)

/-- Proper tails of `</p>` never start with `<`. -/
theorem p2_drop : ∀ k, 1 ≤ k → (("</p>".data).drop k).head? ≠ some '<' := by
  intro k hk
  have hmem : '<' ∉ ("</p>".data).drop 1 := by decide
  have e : ("</p>".data).drop k = (("</p>".data).drop 1).drop (k - 1) := by
    rw [List.drop_drop]
    congr 1
    omega
  rw [e]
  exact head_drop_ne hmem (k - 1)

/-- Proper heads of `<p>` never end with `>`. -/
theorem p1_take : ∀ k, 1 ≤ k → k < ("<p>".data).length →
    (("<p>".data).take k).reverse.head? ≠ some '>' := by
  have h : ∀ k, k < ("<p>".data).length → 1 ≤ k →
      ¬ ((("<p>".data).take k).reverse.head? = some '>') := by decide
  exact fun k h1 h2 => h k h2 h1

/-- Proper heads of `</p>` never end with `>`. -/
theorem p2_take : ∀ k, 1 ≤ k → k < ("</p>".data).length →
    (("</p>".data).take k).reverse.head? ≠ some '>' := by
  have h : ∀ k, k < ("</p>".data).length → 1 ≤ k →
      ¬ ((("</p>".data).take k).reverse.head? = some '>') := by decide
  exact fun k h1 h2 => h k h2 h1

/-- Every stage template is `<`-headed, `>`-ended, at least four characters,
and contains neither paragraph tag. -/
theorem stageTpls_facts (pat : List Char)
    (hp : pat = "<p>".data ∨ pat = "</p>".data) :
    ∀ t ∈ stageTpls, t.head? = some '<' ∧ 4 ≤ t.length ∧
      occursB pat t = false ∧ t.reverse.head? = some '>' := by
  rcases hp with rfl | rfl <;> decide

/-! ### Decomposition support -/

/-- Dropping the measured `takeWhile` prefix is `dropWhile`. -/
theorem drop_takeWhile (p : Char → Bool) (l : List Char) :
    l.drop (l.takeWhile p).length = l.dropWhile p := by
  induction l with
  | nil => rfl
  | cons c r ih =>
    by_cases h : p c
    · simp [List.takeWhile_cons, List.dropWhile_cons, h, ih]
    · simp [List.takeWhile_cons, List.dropWhile_cons, h]

/-- Split a list around its trailing run of `p`-characters. -/
theorem rev_split (p : Char → Bool) (d : List Char) :
    d = (d.reverse.dropWhile p).reverse ++ (d.reverse.takeWhile p).reverse
    := by
  have h := List.takeWhile_append_dropWhile (p := p) (l := d.reverse)
  have h2 := congrArg List.reverse h
  rw [List.reverse_append, List.reverse_reverse] at h2
  exact h2.symm

/-- `jsTrim` splits its argument into stripped whitespace and the core. -/
theorem jsTrim_decomp (l : List Char) : ∃ a b, l = a ++ (jsTrim l ++ b) := by
  refine ⟨l.takeWhile isJsSpace,
    ((l.dropWhile isJsSpace).reverse.takeWhile isJsSpace).reverse, ?_⟩
  conv_lhs => rw [← List.takeWhile_append_dropWhile (p := isJsSpace) (l := l)]
  unfold jsTrim
  exact congrArg (l.takeWhile isJsSpace ++ ·) (rev_split isJsSpace _)

/-- `lastSplit` decomposes its input around the pattern. -/
theorem lastSplit_some {pat l a b : List Char}
    (h : lastSplit pat l = some (a, b)) : l = a ++ pat ++ b := by
  induction l generalizing a with
  | nil =>
    unfold lastSplit at h
    by_cases hp : isPre pat [] = true
    · rw [if_pos hp] at h
      obtain ⟨r, hr⟩ := isPre_exists hp
      simp only [Option.some.injEq, Prod.mk.injEq, List.drop_nil] at h
      obtain ⟨ha, hb⟩ := h
      subst ha; subst hb
      cases pat with
      | nil => rfl
      | cons x xs => simp at hr
    · rw [if_neg hp] at h; cases h
  | cons c rest ih =>
    unfold lastSplit at h
    cases hs : lastSplit pat rest with
    | some p =>
      obtain ⟨a', b'⟩ := p
      rw [hs] at h
      simp only [Option.some.injEq, Prod.mk.injEq] at h
      obtain ⟨ha, hb⟩ := h
      subst hb
      rw [← ha, ih hs]
      rfl
    | none =>
      rw [hs] at h
      dsimp only at h
      by_cases hp : isPre pat (c :: rest) = true
      · rw [if_pos hp] at h
        simp only [Option.some.injEq, Prod.mk.injEq] at h
        obtain ⟨ha, hb⟩ := h
        subst ha
        obtain ⟨r, hr⟩ := isPre_exists hp
        rw [hr, List.drop_left] at hb
        subst hb
        rw [hr]; rfl
      · rw [if_neg hp] at h; cases h

/-! ### Matcher decompositions into templates and copied substrings -/

/-- The fence matcher emits its templates around a substring of the
input. -/
theorem fenceMatch_mdecomp : MDecomp stageTpls fenceMatch := by
  intro l e r h
  unfold fenceMatch at h
  by_cases hp : isPre [tick, tick, tick] l = true
  · rw [if_pos hp] at h
    cases hd : (l.drop 3).dropWhile isWordChar with
    | nil => rw [hd] at h; cases h
    | cons c body =>
      rw [hd] at h
      dsimp only at h
      by_cases hc : c = '\n'
      · rw [if_pos hc] at h
        cases hs : splitFirst [tick, tick, tick] body with
        | none => rw [hs] at h; cases h
        | some p =>
          obtain ⟨code, rest⟩ := p
          rw [hs] at h
          simp only [Option.some.injEq, Prod.mk.injEq] at h
          obtain ⟨he, hr⟩ := h
          subst hr
          obtain ⟨l3, hl3⟩ := isPre_exists hp
          have hd3 : l.drop 3 = l3 := by
            rw [hl3]; exact List.drop_left' rfl
          rw [hd3] at hd
          have hbody := splitFirst_some hs
          obtain ⟨wa, wb, hcode⟩ := jsTrim_decomp code
          refine ⟨"<pre><code>".data, jsTrim code, "</code></pre>".data,
            [tick, tick, tick] ++ (l3.takeWhile isWordChar ++ ('\n' :: wa)),
            wb ++ [tick, tick, tick], by decide, by decide, ?_, ?_⟩
          · rw [← he, List.append_assoc]
          · subst hc
            rw [hl3]
            conv_lhs =>
              rw [← List.takeWhile_append_dropWhile
                (p := isWordChar) (l := l3), hd, hbody, hcode]
            simp [List.append_assoc]
      · rw [if_neg hc] at h; cases h
  · rw [if_neg hp] at h; cases h

/-- The inline-code matcher emits its templates around a substring of the
input. -/
theorem inlineMatch_mdecomp : MDecomp stageTpls inlineMatch := by
  intro l e r h
  cases l with
  | nil => simp [inlineMatch] at h
  | cons c rest =>
    simp only [inlineMatch] at h
    by_cases hc : c = tick
    · rw [if_pos hc] at h
      by_cases hemp : (rest.takeWhile (fun d => d != tick)).isEmpty = true
      · rw [if_pos hemp] at h; cases h
      · rw [if_neg hemp] at h
        cases hdw : rest.dropWhile (fun d => d != tick) with
        | nil => rw [hdw] at h; cases h
        | cons d rest2 =>
          rw [hdw] at h
          simp only [Option.some.injEq, Prod.mk.injEq] at h
          obtain ⟨he, hr⟩ := h
          subst hr
          refine ⟨"<code>".data, rest.takeWhile (fun d => d != tick),
            "</code>".data, [tick], [d], by decide, by decide, ?_, ?_⟩
          · rw [← he, List.append_assoc]
          · subst hc
            conv_lhs =>
              rw [show rest = rest.takeWhile (fun d => d != tick) ++
                  rest.dropWhile (fun d => d != tick) from
                (List.takeWhile_append_dropWhile
                  (fun d => d != tick) rest).symm, hdw]
            simp
    · rw [if_neg hc] at h; cases h

/-- The bold matcher emits its templates around a substring of the input. -/
theorem boldMatch_mdecomp : MDecomp stageTpls boldMatch := by
  intro l e r h
  unfold boldMatch at h
  by_cases hp : isPre "**".data l = true
  · rw [if_pos hp] at h
    dsimp only at h
    by_cases hemp :
        ((l.drop 2).takeWhile (fun d => d != '*')).isEmpty = true
    · rw [if_pos hemp] at h; cases h
    · rw [if_neg hemp] at h
      by_cases hp2 : isPre "**".data
          ((l.drop 2).drop
            ((l.drop 2).takeWhile (fun d => d != '*')).length) = true
      · rw [if_pos hp2] at h
        simp only [Option.some.injEq, Prod.mk.injEq] at h
        obtain ⟨he, hr⟩ := h
        obtain ⟨l2, hl2⟩ := isPre_exists hp
        have hd2 : l.drop 2 = l2 := by
          rw [hl2]; exact List.drop_left' rfl
        rw [hd2] at hemp hp2 hr
        rw [drop_takeWhile] at hp2 hr
        obtain ⟨r3, hr3⟩ := isPre_exists hp2
        refine ⟨"<strong>".data, l2.takeWhile (fun d => d != '*'),
          "</strong>".data, "**".data, "**".data,
          by decide, by decide, ?_, ?_⟩
        · rw [← he, hd2, List.append_assoc]
        · rw [hl2]
          conv_lhs =>
            rw [← List.takeWhile_append_dropWhile
              (p := fun d => d != '*') (l := l2), hr3]
          rw [← hr, hr3]
          simp [List.drop_left']
      · rw [if_neg hp2] at h; cases h
  · rw [if_neg hp] at h; cases h

/-- The italic matcher emits its templates around a substring of the
input. -/
theorem italMatch_mdecomp : MDecomp stageTpls italMatch := by
  intro l e r h
  cases l with
  | nil => simp [italMatch] at h
  | cons c rest =>
    simp only [italMatch] at h
    by_cases hc : c = '*'
    · rw [if_pos hc] at h
      by_cases hemp : (rest.takeWhile (fun d => d != '*')).isEmpty = true
      · rw [if_pos hemp] at h; cases h
      · rw [if_neg hemp] at h
        cases hdw : rest.dropWhile (fun d => d != '*') with
        | nil => rw [hdw] at h; cases h
        | cons d rest2 =>
          rw [hdw] at h
          simp only [Option.some.injEq, Prod.mk.injEq] at h
          obtain ⟨he, hr⟩ := h
          subst hr
          refine ⟨"<em>".data, rest.takeWhile (fun d => d != '*'),
            "</em>".data, ['*'], [d], by decide, by decide, ?_, ?_⟩
          · rw [← he, List.append_assoc]
          · subst hc
            conv_lhs =>
              rw [show rest = rest.takeWhile (fun d => d != '*') ++
                  rest.dropWhile (fun d => d != '*') from
                (List.takeWhile_append_dropWhile
                  (fun d => d != '*') rest).symm, hdw]
            simp
    · rw [if_neg hc] at h; cases h

/-- A matched list-item unit is exactly the consumed text. -/
theorem liUnit_consume {l u rest : List Char}
    (h : liUnit l = some (u, rest)) : l = u ++ rest := by
  unfold liUnit at h
  by_cases hp : isPre "<li>".data l = true
  · rw [if_pos hp] at h
    dsimp only at h
    set LR := (l.drop 4).takeWhile (fun c => !(isLineTerm c)) with hLR
    set A := (l.drop 4).drop LR.length with hA
    cases hls : lastSplit "</li>".data LR with
    | none => rw [hls] at h; cases h
    | some p =>
      obtain ⟨content, tailInLine⟩ := p
      rw [hls] at h
      dsimp only at h
      have hdec := lastSplit_some hls
      obtain ⟨l4, hl4⟩ := isPre_exists hp
      have hd4 : l.drop 4 = l4 := by rw [hl4]; exact List.drop_left' rfl
      have hsplit4 : l.drop 4 = LR ++ A := by
        rw [hA, hLR, drop_takeWhile]
        exact (List.takeWhile_append_dropWhile _ _).symm
      have heq : l = "<li>".data ++ ((content ++ "</li>".data ++
          tailInLine) ++ A) := by
        conv_lhs => rw [hl4, ← hd4, hsplit4, hdec]
      simp only [List.append_assoc] at heq
      cases hra : tailInLine ++ A with
      | nil =>
        rw [hra] at h
        simp only [Option.some.injEq, Prod.mk.injEq] at h
        obtain ⟨h1, h2⟩ := h
        subst h1; subst h2
        rw [List.append_nil]
        obtain ⟨ht, hA0⟩ := List.append_eq_nil.mp hra
        rw [ht, hA0] at heq
        simpa [List.append_assoc] using heq
      | cons c0 r2 =>
        rw [hra] at h
        dsimp only at h
        by_cases hc0 : c0 = '\n'
        · rw [if_pos hc0] at h
          simp only [Option.some.injEq, Prod.mk.injEq] at h
          obtain ⟨h1, h2⟩ := h
          subst h1; subst h2
          rw [hra] at heq
          subst hc0
          simpa [List.append_assoc] using heq
        · rw [if_neg hc0] at h
          simp only [Option.some.injEq, Prod.mk.injEq] at h
          obtain ⟨h1, h2⟩ := h
          subst h1; subst h2
          rw [hra] at heq
          simpa [List.append_assoc] using heq
  · rw [if_neg hp] at h; cases h

/-- A matched run of list-item units is exactly the consumed text. -/
theorem liRun_consume : ∀ n {l txt rest : List Char},
    liRun n l = some (txt, rest) → l = txt ++ rest := by
  intro n
  induction n with
  | zero => intro l txt rest h; cases h
  | succ n ih =>
    intro l txt rest h
    unfold liRun at h
    cases hu : liUnit l with
    | none => rw [hu] at h; cases h
    | some p =>
      obtain ⟨t1, r1⟩ := p
      rw [hu] at h
      dsimp only at h
      cases hr : liRun n r1 with
      | none =>
        rw [hr] at h
        simp only [Option.some.injEq, Prod.mk.injEq] at h
        obtain ⟨h1, h2⟩ := h
        subst h1; subst h2
        exact liUnit_consume hu
      | some q =>
        obtain ⟨t2, r2⟩ := q
        rw [hr] at h
        simp only [Option.some.injEq, Prod.mk.injEq] at h
        obtain ⟨h1, h2⟩ := h
        subst h1; subst h2
        rw [liUnit_consume hu, ih hr, List.append_assoc]

/-- The grouping matcher emits its templates around the consumed run. -/
theorem groupMatch_mdecomp : MDecomp stageTpls groupMatch := by
  intro l e r h
  unfold groupMatch at h
  cases hr : liRun l.length l with
  | none => rw [hr] at h; cases h
  | some p =>
    obtain ⟨txt, rest⟩ := p
    rw [hr] at h
    simp only [Option.some.injEq, Prod.mk.injEq] at h
    obtain ⟨he, hrr⟩ := h
    subst hrr
    refine ⟨"<ul>".data, txt, "</ul>".data, [], [], by decide, by decide,
      ?_, ?_⟩
    · rw [← he, List.append_assoc]
    · simpa using liRun_consume _ hr

/-- A header line pass decomposes into templates around a line suffix. -/
theorem headerLine_ldecomp (pre openT closeT : List Char)
    (ho : openT ∈ stageTpls) (hc : closeT ∈ stageTpls) :
    LDecomp stageTpls (headerLine pre openT closeT) := by
  intro line
  unfold headerLine
  by_cases hp : isPre pre line = true
  · rw [if_pos hp]
    dsimp only
    by_cases hemp : (line.drop pre.length).isEmpty = true
    · rw [if_pos hemp]
      exact Or.inl rfl
    · rw [if_neg hemp]
      refine Or.inr ⟨openT, line.drop pre.length, closeT, pre, ho, hc,
        List.append_assoc _ _ _, ?_⟩
      obtain ⟨r, hr⟩ := isPre_exists hp
      conv_lhs => rw [hr]
      rw [hr, List.drop_left]
  · rw [if_neg hp]
    exact Or.inl rfl

/-- The unordered-list line pass decomposes into templates around a line
suffix. -/
theorem listLine_ldecomp : LDecomp stageTpls listLine := by
  intro line
  unfold listLine
  by_cases hp : isPre "- ".data line = true
  · rw [if_pos hp]
    dsimp only
    by_cases hemp : (line.drop 2).isEmpty = true
    · rw [if_pos hemp]
      exact Or.inl rfl
    · rw [if_neg hemp]
      refine Or.inr ⟨"<li>".data, line.drop 2, "</li>".data, "- ".data,
        by decide, by decide, List.append_assoc _ _ _, ?_⟩
      obtain ⟨r, hr⟩ := isPre_exists hp
      conv_lhs => rw [hr]
      rw [hr]
      rw [show ("- ".data ++ r).drop 2 = r from List.drop_left' rfl]
  · rw [if_neg hp]
    exact Or.inl rfl

/-- The ordered-list line pass decomposes into templates around a line
suffix. -/
theorem orderedLine_ldecomp : LDecomp stageTpls orderedLine := by
  intro line
  unfold orderedLine
  dsimp only
  by_cases h1 : (line.takeWhile (fun c => c.isDigit)).isEmpty = true
  · rw [if_pos h1]; exact Or.inl rfl
  · rw [if_neg h1]
    by_cases h2 : isPre ". ".data
        (line.drop (line.takeWhile (fun c => c.isDigit)).length) = true
    · rw [if_pos h2]
      by_cases h3 : ((line.drop (line.takeWhile
          (fun c => c.isDigit)).length).drop 2).isEmpty = true
      · rw [if_pos h3]; exact Or.inl rfl
      · rw [if_neg h3]
        refine Or.inr ⟨"<li>".data,
          (line.drop (line.takeWhile (fun c => c.isDigit)).length).drop 2,
          "</li>".data,
          line.takeWhile (fun c => c.isDigit) ++ ". ".data,
          by decide, by decide, List.append_assoc _ _ _, ?_⟩
        obtain ⟨r, hr⟩ := isPre_exists h2
        rw [hr]
        rw [show (". ".data ++ r).drop 2 = r from List.drop_left' rfl]
        conv_lhs =>
          rw [← List.takeWhile_append_dropWhile
            (p := fun c => c.isDigit) (l := line)]
        rw [← drop_takeWhile (fun c => c.isDigit) line, hr,
          List.append_assoc]
    · rw [if_neg h2]; exact Or.inl rfl

/-! ### No paragraph tag is created before the paragraph stage -/

/-- A scan with a decomposing matcher preserves paragraph-tag freedom. -/
theorem noP_scan {m : List Char → Option (List Char × List Char)}
    (hm : MDecomp stageTpls m) {l : List Char} (h : NoP l) :
    NoP (scan m l) := by
  have a := alt_scan hm l.length l MSt.safe (by decide)
  have f1 := alt_noP (by decide) (by decide) p1_drop
    p1_take (stageTpls_facts _ (Or.inl rfl)) a h.1
  have f2 := alt_noP (by decide) (by decide) p2_drop
    p2_take (stageTpls_facts _ (Or.inr rfl)) a h.2
  exact ⟨f1.1, f2.1⟩

/-- A per-line pass with a decomposing line function preserves
paragraph-tag freedom. -/
theorem noP_mapLines {f : List Char → List Char}
    (hf : LDecomp stageTpls f) (fuel : Nat) {l : List Char} (h : NoP l) :
    NoP (mapLines f fuel l) := by
  have a := alt_mapLines hf fuel l MSt.safe (by decide)
  have f1 := alt_noP (by decide) (by decide) p1_drop
    p1_take (stageTpls_facts _ (Or.inl rfl)) a h.1
  have f2 := alt_noP (by decide) (by decide) p2_drop
    p2_take (stageTpls_facts _ (Or.inr rfl)) a h.2
  exact ⟨f1.1, f2.1⟩

/-- The text reaching the paragraph stage contains neither `<p>` nor
`</p>`. -/
theorem pipeline10_noP {l0 : List Char} (h : NoP l0) :
    NoP (stageOrdered (stageGroup (stageListItems (stageItal (stageBold
      (stageH1 (stageH2 (stageH3 (stageInline (stageFence l0)))))))))) := by
  have h1 : NoP (stageFence l0) := noP_scan fenceMatch_mdecomp h
  have h2 : NoP (stageInline (stageFence l0)) :=
    noP_scan inlineMatch_mdecomp h1
  have h3 : NoP (stageH3 (stageInline (stageFence l0))) := noP_mapLines
    (headerLine_ldecomp "### ".data "<h3>".data "</h3>".data
      (by decide) (by decide)) _ h2
  have h4 : NoP (stageH2 (stageH3 (stageInline (stageFence l0)))) :=
    noP_mapLines (headerLine_ldecomp "## ".data "<h2>".data "</h2>".data
      (by decide) (by decide)) _ h3
  have h5 : NoP (stageH1 (stageH2 (stageH3 (stageInline
      (stageFence l0))))) :=
    noP_mapLines (headerLine_ldecomp "# ".data "<h1>".data "</h1>".data
      (by decide) (by decide)) _ h4
  have h6 := noP_scan boldMatch_mdecomp h5
  have h7 := noP_scan italMatch_mdecomp h6
  have h8 : NoP (stageListItems (stageItal (stageBold (stageH1 (stageH2
      (stageH3 (stageInline (stageFence l0)))))))) :=
    noP_mapLines listLine_ldecomp _ h7
  have h9 := noP_scan groupMatch_mdecomp h8
  exact noP_mapLines orderedLine_ldecomp _ h9

/-! ### The paragraph stage produces wrapped segments -/

/-- The segment list is never empty. -/
theorem segsAux_ne_nil : ∀ n l, segsAux n l ≠ [] := by
  intro n
  induction n with
  | zero => intro l; simp [segsAux]
  | succ n ih =>
    intro l
    cases l with
    | nil => simp [segsAux]
    | cons c rest =>
      unfold segsAux
      by_cases hp : isPre ['\n', '\n'] (c :: rest) = true
      · rw [if_pos hp]; simp
      · rw [if_neg hp]
        cases hs : segsAux n rest with
        | nil => simp
        | cons s ss => simp

/-- The paragraph scan joins the segments with the separator. -/
theorem para_join : ∀ n l,
    scanAux paraMatch n l = joinSegs (segsAux n l) := by
  intro n
  induction n with
  | zero => intro l; rfl
  | succ n ih =>
    intro l
    cases l with
    | nil => rfl
    | cons c rest =>
      by_cases hp : isPre ['\n', '\n'] (c :: rest) = true
      · have ht : (c :: rest).drop 2 = rest.tail := by
          rw [show (c :: rest).drop 2 = rest.drop 1 from rfl, List.drop_one]
        have hm : paraMatch (c :: rest) = some (pSep, rest.tail) := by
          unfold paraMatch
          rw [if_pos hp, ht]
          rfl
        have hscan : scanAux paraMatch (n + 1) (c :: rest) =
            pSep ++ scanAux paraMatch n rest.tail := by
          simp [scanAux, hm]
        rw [hscan]
        rw [show segsAux (n + 1) (c :: rest) = [] :: segsAux n rest.tail
          from by simp only [segsAux]; rw [if_pos hp]]
        cases hs : segsAux n rest.tail with
        | nil => exact absurd hs (segsAux_ne_nil n rest.tail)
        | cons s ss =>
          rw [show joinSegs ([] :: s :: ss) =
            [] ++ pSep ++ joinSegs (s :: ss) from rfl]
          rw [ih rest.tail, hs]
          simp
      · have hm : paraMatch (c :: rest) = none := by
          unfold paraMatch
          rw [if_neg hp]
        have hscan : scanAux paraMatch (n + 1) (c :: rest) =
            c :: scanAux paraMatch n rest := by
          simp [scanAux, hm]
        rw [hscan, ih rest]
        rw [show segsAux (n + 1) (c :: rest) = (match segsAux n rest with
          | [] => [[c]] | s :: ss => (c :: s) :: ss) from by
          simp only [segsAux]; rw [if_neg hp]]
        cases hs : segsAux n rest with
        | nil => exact absurd hs (segsAux_ne_nil n rest)
        | cons s ss =>
          cases ss with
          | nil => rfl
          | cons s2 ss2 =>
            rw [show joinSegs ((c :: s) :: s2 :: ss2) =
              (c :: s) ++ pSep ++ joinSegs (s2 :: ss2) from rfl]
            rw [show joinSegs (s :: s2 :: ss2) =
              s ++ pSep ++ joinSegs (s2 :: ss2) from rfl]
            simp

/-- The first segment is a prefix of the text; later segments are inner
substrings. -/
theorem segsAux_decomp : ∀ n l s0 ss, segsAux n l = s0 :: ss →
    (∃ b, l = s0 ++ b) ∧ ∀ s ∈ ss, ∃ a b, l = a ++ (s ++ b) := by
  intro n
  induction n with
  | zero =>
    intro l s0 ss h
    obtain ⟨h1, h2⟩ := (List.cons.injEq _ _ _ _).mp
      (show [l] = s0 :: ss from h)
    subst h1
    refine ⟨⟨[], by simp⟩, ?_⟩
    intro s hs
    rw [← h2] at hs
    cases hs
  | succ n ih =>
    intro l s0 ss h
    cases l with
    | nil =>
      obtain ⟨h1, h2⟩ := (List.cons.injEq _ _ _ _).mp
        (show [([] : List Char)] = s0 :: ss from h)
      refine ⟨⟨[], by rw [← h1]; rfl⟩, ?_⟩
      intro s hs
      rw [← h2] at hs
      cases hs
    | cons c rest =>
      unfold segsAux at h
      by_cases hp : isPre ['\n', '\n'] (c :: rest) = true
      · rw [if_pos hp] at h
        obtain ⟨hs0, hss⟩ := (List.cons.injEq _ _ _ _).mp h
        subst hs0
        refine ⟨⟨c :: rest, rfl⟩, ?_⟩
        intro s hs
        rw [← hss] at hs
        cases hseg : segsAux n rest.tail with
        | nil => exact absurd hseg (segsAux_ne_nil _ _)
        | cons t0 ts =>
          obtain ⟨⟨b0, hb0⟩, hrest⟩ := ih rest.tail t0 ts hseg
          rw [hseg] at hs
          obtain ⟨r, hr⟩ := isPre_exists hp
          have h2 : c :: rest = '\n' :: '\n' :: r := by simpa using hr
          obtain ⟨hc, hrest2⟩ := (List.cons.injEq _ _ _ _).mp h2
          have hrt : rest.tail = r := by rw [hrest2]; rfl
          rcases List.mem_cons.mp hs with rfl | hs2
          · refine ⟨['\n', '\n'], b0, ?_⟩
            rw [hrt] at hb0
            rw [h2, hb0]
            simp
          · obtain ⟨a, b, hab⟩ := hrest s hs2
            refine ⟨'\n' :: '\n' :: a, b, ?_⟩
            rw [hrt] at hab
            rw [h2, hab]
            simp
      · rw [if_neg hp] at h
        cases hseg : segsAux n rest with
        | nil => exact absurd hseg (segsAux_ne_nil _ _)
        | cons t0 ts =>
          rw [hseg] at h
          obtain ⟨hs0, hss⟩ := (List.cons.injEq _ _ _ _).mp h
          obtain ⟨⟨b0, hb0⟩, hrest⟩ := ih rest t0 ts hseg
          subst hs0
          refine ⟨⟨b0, by rw [hb0]; rfl⟩, ?_⟩
          intro s hs
          rw [← hss] at hs
          obtain ⟨a, b, hab⟩ := hrest s hs
          exact ⟨c :: a, b, by rw [hab]; rfl⟩

/-- Wrapping the joined segments wraps each segment. -/
theorem joinSegs_wrap : ∀ ss : List (List Char), ss ≠ [] →
    "<p>".data ++ (joinSegs ss ++ "</p>".data) =
      (ss.map wrapP).flatten := by
  intro ss
  induction ss with
  | nil => intro h; exact absurd rfl h
  | cons s ss2 ih =>
    intro _
    cases ss2 with
    | nil => simp [joinSegs, wrapP]
    | cons s2 ss3 =>
      have hps : pSep = "</p>".data ++ "<p>".data := by decide
      rw [show joinSegs (s :: s2 :: ss3) = s ++ pSep ++ joinSegs (s2 :: ss3)
        from rfl]
      rw [show ((s :: s2 :: ss3).map wrapP).flatten =
        wrapP s ++ ((s2 :: ss3).map wrapP).flatten from by simp]
      rw [← ih (by simp), hps]
      simp [wrapP, List.append_assoc]

/-- The paragraph stage output is the flattened wrapped-segment list, and
every segment is paragraph-tag free. -/
theorem stagePara_wraps (U : List Char) (h : NoP U) :
    stagePara U = ((segsAux U.length U).map wrapP).flatten ∧
    ∀ s ∈ segsAux U.length U, NoP s := by
  constructor
  · unfold stagePara
    rw [show scan paraMatch U = scanAux paraMatch U.length U from rfl]
    rw [para_join]
    rw [← joinSegs_wrap _ (segsAux_ne_nil _ _)]
    simp [List.append_assoc]
  · intro s hs
    cases hseg : segsAux U.length U with
    | nil => exact absurd hseg (segsAux_ne_nil _ _)
    | cons s0 ss =>
      rw [hseg] at hs
      obtain ⟨⟨b0, hb0⟩, hrest⟩ := segsAux_decomp _ _ _ _ hseg
      rcases List.mem_cons.mp hs with rfl | hs2
      · exact ⟨fun ho => h.1 (occurs_sub ho ⟨[], b0, by simpa using hb0⟩),
               fun ho => h.2 (occurs_sub ho ⟨[], b0, by simpa using hb0⟩)⟩
      · obtain ⟨a, b, hab⟩ := hrest s hs2
        exact ⟨fun ho => h.1 (occurs_sub ho ⟨a, b, hab⟩),
               fun ho => h.2 (occurs_sub ho ⟨a, b, hab⟩)⟩

/-! ### Region walks for the cleanup scans -/

/-- The scanner copies a region in which no suffix position matches. -/
theorem scan_append_none {m : List Char → Option (List Char × List Char)}
    (a b : List Char)
    (ha : ∀ a1 a2, a = a1 ++ a2 → a2 ≠ [] → m (a2 ++ b) = none) :
    scan m (a ++ b) = a ++ scan m b := by
  induction a with
  | nil => rfl
  | cons c a' ih =>
    have h0 : m (c :: (a' ++ b)) = none := ha [] (c :: a') rfl (by simp)
    have ih' := ih (fun a1 a2 he hne => ha (c :: a1) a2 (by rw [he]; rfl) hne)
    rw [List.cons_append, scan_cons_none m h0, ih']
    rfl

/-- One scanner step on a successful match at a nonempty input. -/
theorem scan_some {m : List Char → Option (List Char × List Char)}
    (hm : Shrinks m) {l e r : List Char} (hne : l ≠ [])
    (h : m l = some (e, r)) : scan m l = e ++ scan m r := by
  cases l with
  | nil => exact absurd rfl hne
  | cons c t => exact scan_cons_some m hm h

/-- A suffix of an append restricted to one side. -/
theorem suffix_of_append {a1 a2 X Y : List Char}
    (h : a1 ++ a2 = X ++ Y) :
    (∃ x2, a2 = x2 ++ Y ∧ ∃ x1, X = x1 ++ x2) ∨ ∃ y1, Y = y1 ++ a2 := by
  induction X generalizing a1 with
  | nil => exact Or.inr ⟨a1, by simpa using h.symm⟩
  | cons x X' ih =>
    cases a1 with
    | nil =>
      refine Or.inl ⟨x :: X', by simpa using h, [], rfl⟩
    | cons c y1 =>
      have h' : y1 ++ a2 = X' ++ Y := by
        have := congrArg List.tail h
        simpa using this
      rcases ih h' with ⟨x2, hx2, x1, hx1⟩ | ⟨w, hw⟩
      · refine Or.inl ⟨x2, hx2, x :: x1, by rw [hx1]; rfl⟩
      · exact Or.inr ⟨w, hw⟩

/-- The ways `<p>` splits as an append. -/
theorem split_p3 {x1 x2 : List Char} (h : "<p>".data = x1 ++ x2) :
    (x1 = [] ∧ x2 = "<p>".data) ∨ (x1 = ['<'] ∧ x2 = ['p', '>']) ∨
    (x1 = ['<', 'p'] ∧ x2 = ['>']) ∨ x2 = [] := by
  cases x1 with
  | nil => exact Or.inl ⟨rfl, by simpa using h.symm⟩
  | cons a y1 =>
    cases y1 with
    | nil =>
      simp only [List.cons_append, List.nil_append] at h
      have h' := (List.cons.injEq _ _ _ _).mp h
      exact Or.inr (Or.inl ⟨by rw [← h'.1], h'.2.symm⟩)
    | cons b y2 =>
      cases y2 with
      | nil =>
        simp only [List.cons_append, List.nil_append] at h
        have h1 := (List.cons.injEq _ _ _ _).mp h
        have h2 := (List.cons.injEq _ _ _ _).mp h1.2
        exact Or.inr (Or.inr (Or.inl
          ⟨by rw [← h1.1, ← h2.1], h2.2.symm⟩))
      | cons d y3 =>
        cases y3 with
        | nil =>
          simp only [List.cons_append, List.nil_append] at h
          have h1 := (List.cons.injEq _ _ _ _).mp h
          have h2 := (List.cons.injEq _ _ _ _).mp h1.2
          have h3 := (List.cons.injEq _ _ _ _).mp h2.2
          exact Or.inr (Or.inr (Or.inr h3.2.symm))
        | cons e y4 =>
          have := congrArg List.length h
          simp only [List.length_cons, List.length_append] at this
          exact absurd this (by simp; omega)

/-- The ways `</p>` splits as an append. -/
theorem split_p4 {x1 x2 : List Char} (h : "</p>".data = x1 ++ x2) :
    (x1 = [] ∧ x2 = "</p>".data) ∨ (x1 = ['<'] ∧ x2 = ['/', 'p', '>']) ∨
    (x1 = ['<', '/'] ∧ x2 = ['p', '>']) ∨
    (x1 = ['<', '/', 'p'] ∧ x2 = ['>']) ∨ x2 = [] := by
  cases x1 with
  | nil => exact Or.inl ⟨rfl, by simpa using h.symm⟩
  | cons a y1 =>
    cases y1 with
    | nil =>
      simp only [List.cons_append, List.nil_append] at h
      have h' := (List.cons.injEq _ _ _ _).mp h
      exact Or.inr (Or.inl ⟨by rw [← h'.1], h'.2.symm⟩)
    | cons b y2 =>
      cases y2 with
      | nil =>
        simp only [List.cons_append, List.nil_append] at h
        have h1 := (List.cons.injEq _ _ _ _).mp h
        have h2 := (List.cons.injEq _ _ _ _).mp h1.2
        exact Or.inr (Or.inr (Or.inl
          ⟨by rw [← h1.1, ← h2.1], h2.2.symm⟩))
      | cons d y3 =>
        cases y3 with
        | nil =>
          simp only [List.cons_append, List.nil_append] at h
          have h1 := (List.cons.injEq _ _ _ _).mp h
          have h2 := (List.cons.injEq _ _ _ _).mp h1.2
          have h3 := (List.cons.injEq _ _ _ _).mp h2.2
          exact Or.inr (Or.inr (Or.inr (Or.inl
            ⟨by rw [← h1.1, ← h2.1, ← h3.1], h3.2.symm⟩)))
        | cons e y4 =>
          cases y4 with
          | nil =>
            simp only [List.cons_append, List.nil_append] at h
            have h1 := (List.cons.injEq _ _ _ _).mp h
            have h2 := (List.cons.injEq _ _ _ _).mp h1.2
            have h3 := (List.cons.injEq _ _ _ _).mp h2.2
            have h4 := (List.cons.injEq _ _ _ _).mp h3.2
            exact Or.inr (Or.inr (Or.inr (Or.inr h4.2.symm)))
          | cons f y5 =>
            have := congrArg List.length h
            simp only [List.length_cons, List.length_append] at this
            exact absurd this (by simp; omega)

/-- A nonempty `dropWhile` residue passes through an append. -/
theorem dropWhile_append_pos (p : Char → Bool) (a b : List Char)
    (h : a.dropWhile p ≠ []) :
    (a ++ b).dropWhile p = a.dropWhile p ++ b := by
  induction a with
  | nil => exact absurd rfl h
  | cons c a' ih =>
    by_cases hc : p c
    · have h' : a'.dropWhile p ≠ [] := by
        simpa [List.dropWhile_cons, hc] using h
      simp [List.dropWhile_cons, hc, ih h']
    · simp [List.dropWhile_cons, hc]

/-- `dropWhile` over an all-accepted region. -/
theorem dropWhile_append_all (p : Char → Bool) (a b : List Char)
    (h : ∀ c ∈ a, p c = true) :
    (a ++ b).dropWhile p = b.dropWhile p := by
  induction a with
  | nil => rfl
  | cons c a' ih =>
    have hc := h c (List.mem_cons_self c a')
    simp [List.dropWhile_cons, hc,
      ih (fun d hd => h d (List.mem_cons_of_mem c hd))]

/-- `dropWhile` stops at a rejected head. -/
theorem dropWhile_cons_neg (p : Char → Bool) (c : Char) (l : List Char)
    (h : p c = false) : (c :: l).dropWhile p = c :: l := by
  simp [List.dropWhile_cons, h]

/-- The empty-paragraph matcher consumes at least the `<p>`. -/
theorem emptyPMatch_shrinks : Shrinks emptyPMatch := by
  intro l e r h
  unfold emptyPMatch at h
  by_cases hp : isPre "<p>".data l = true
  · rw [if_pos hp] at h
    dsimp only at h
    by_cases hp2 : isPre "</p>".data ((l.drop 3).dropWhile isJsSpace) = true
    · rw [if_pos hp2] at h
      simp only [Option.some.injEq, Prod.mk.injEq] at h
      obtain ⟨-, hr⟩ := h
      obtain ⟨l3, hl3⟩ := isPre_exists hp
      have h1 : ((l.drop 3).dropWhile isJsSpace).length ≤
          (l.drop 3).length := dropWhile_length_le _ _
      have h2 : (l.drop 3).length = l.length - 3 := List.length_drop 3 l
      have h3 : l.length = l3.length + 3 := by simp [hl3]
      have h4 : r.length ≤ ((l.drop 3).dropWhile isJsSpace).length := by
        rw [← hr]
        simp [List.length_drop]
      omega
    · rw [if_neg hp2] at h; cases h
  · rw [if_neg hp] at h; cases h

/-- The closing-unwrap matcher consumes at least the tag and the `</p>`. -/
theorem unwrapCloseMatch_shrinks (tags : List (List Char))
    (htags : ∀ t ∈ tags, t ≠ []) : Shrinks (unwrapCloseMatch tags) := by
  intro l e r h
  unfold unwrapCloseMatch at h
  cases hf : tags.find? (fun t => isPre t l) with
  | none => rw [hf] at h; cases h
  | some t =>
    rw [hf] at h
    dsimp only at h
    by_cases hp : isPre "</p>".data
        ((l.drop t.length).dropWhile isJsSpace) = true
    · rw [if_pos hp] at h
      simp only [Option.some.injEq, Prod.mk.injEq] at h
      obtain ⟨-, hr⟩ := h
      have hpre : isPre t l = true := by
        have hps := List.find?_some hf
        simpa using hps
      have htne := htags t (List.mem_of_find?_eq_some hf)
      obtain ⟨l2, hl2⟩ := isPre_exists hpre
      have h1 : ((l.drop t.length).dropWhile isJsSpace).length ≤
          (l.drop t.length).length := dropWhile_length_le _ _
      have h2 : (l.drop t.length).length = l.length - t.length :=
        List.length_drop _ _
      have h3 : l.length = t.length + l2.length := by simp [hl2]
      have h4 : r.length ≤ ((l.drop t.length).dropWhile isJsSpace).length
          := by
        rw [← hr]
        simp [List.length_drop]
      have h5 : 1 ≤ t.length := by
        cases t with
        | nil => exact absurd rfl htne
        | cons _ _ => exact Nat.succ_le_succ (Nat.zero_le _)
      omega
    · rw [if_neg hp] at h; cases h

/-- The pattern-prefix refutation at a suffix of an occurrence-free core
followed by a `<`-headed or empty continuation. -/
theorem isPre_pat_false {pat : List Char} (v C core : List Char)
    (hvne : v ≠ []) (hvsuf : ∃ w, core = w ++ v)
    (hcore : ¬ Occurs pat core)
    (hdrop : ∀ k, 1 ≤ k → (pat.drop k).head? ≠ some '<')
    (hC : C = [] ∨ C.head? = some '<') :
    isPre pat (v ++ C) = false := by
  cases hx : isPre pat (v ++ C) with
  | false => rfl
  | true =>
    exfalso
    rcases isPre_append_split hx with h1 | ⟨tp, htp, hpre⟩
    · obtain ⟨w, hw⟩ := hvsuf
      obtain ⟨r, hr⟩ := isPre_exists h1
      exact hcore ⟨w, r, by rw [hw, hr]; simp [List.append_assoc]⟩
    · cases htpx : tp with
      | nil =>
        subst htpx
        rw [List.append_nil] at htp
        obtain ⟨w, hw⟩ := hvsuf
        exact hcore ⟨w, [], by rw [hw, htp]; simp⟩
      | cons x tp2 =>
        subst htpx
        rcases hC with rfl | hChead
        · simp [isPre] at hpre
        · cases hCx : C with
          | nil => rw [hCx] at hChead; cases hChead
          | cons c0 C' =>
            have hc0 : c0 = '<' := by
              rw [hCx] at hChead
              simpa using hChead
            rw [hCx, hc0] at hpre
            have hxc : x = '<' := by
              have h' : (x == '<') = true ∧ isPre tp2 C' = true := by
                simpa [isPre, Bool.and_eq_true] using hpre
              exact eq_of_beq h'.1
            have hd : (pat.drop v.length).head? = some '<' := by
              rw [htp, List.drop_left, hxc]
              rfl
            have hv1 : 1 ≤ v.length := by
              cases v with
              | nil => exact absurd rfl hvne
              | cons _ _ => exact Nat.succ_le_succ (Nat.zero_le _)
            exact hdrop v.length hv1 hd

/-! ### The first cleanup: empty paragraphs are deleted, others kept -/

/-- The empty-paragraph matcher needs a `<p>` prefix. -/
theorem emptyPMatch_not_p {l : List Char}
    (h : isPre "<p>".data l = false) : emptyPMatch l = none := by
  simp [emptyPMatch, h]

/-- `<p>` is not a prefix past a non-`<` head. -/
theorem isPre_p_head_ne {c : Char} (X : List Char) (hc : c ≠ '<') :
    isPre "<p>".data (c :: X) = false := by
  simp [isPre, beq_false_of_ne (Ne.symm hc)]

/-- No empty-paragraph match starts inside `s ++ </p>` for a
paragraph-tag-free `s`. -/
theorem cleanA_inner_none (s R : List Char) (hN : NoP s) :
    ∀ y1 a2, s ++ "</p>".data = y1 ++ a2 → a2 ≠ [] →
      emptyPMatch (a2 ++ R) = none := by
  intro y1 a2 hsplit hne
  rcases suffix_of_append hsplit.symm with ⟨x2, hx2, x1, hx1⟩ | ⟨w1, hw1⟩
  · cases hx2e : x2 with
    | nil =>
      subst hx2e
      rw [hx2]
      apply emptyPMatch_not_p
      simp [isPre]
    | cons xc xrest =>
      rw [hx2, List.append_assoc]
      apply emptyPMatch_not_p
      exact isPre_pat_false x2 ("</p>".data ++ R) s
        (by rw [hx2e]; simp) ⟨x1, hx1⟩ hN.1 p1_drop (Or.inr rfl)
  · rcases split_p4 hw1 with ⟨-, ha⟩ | ⟨-, ha⟩ | ⟨-, ha⟩ | ⟨-, ha⟩ | ha
    · subst ha
      apply emptyPMatch_not_p
      simp [isPre]
    · subst ha
      simp only [List.cons_append]
      exact emptyPMatch_not_p (isPre_p_head_ne _ (by decide))
    · subst ha
      simp only [List.cons_append]
      exact emptyPMatch_not_p (isPre_p_head_ne _ (by decide))
    · subst ha
      simp only [List.cons_append]
      exact emptyPMatch_not_p (isPre_p_head_ne _ (by decide))
    · exact absurd ha hne

/-- The empty-paragraph scan copies a non-whitespace wrapped segment. -/
theorem cleanA_skip (s R : List Char) (hN : NoP s)
    (hws : s.all isJsSpace = false) :
    scan emptyPMatch (wrapP s ++ R) = wrapP s ++ scan emptyPMatch R := by
  apply scan_append_none
  intro a1 a2 he hne
  rw [wrapP] at he
  rcases suffix_of_append he.symm with ⟨x2, hx2, x1, hx1⟩ | ⟨y1, hy1⟩
  · rcases split_p3 hx1 with ⟨hx1e, hx⟩ | ⟨hx1e, hx⟩ | ⟨hx1e, hx⟩ | hx
    · subst hx
      rw [hx2, List.append_assoc, List.append_assoc]
      have hd : s.dropWhile isJsSpace ≠ [] := by
        intro hcon
        rw [List.dropWhile_eq_nil_iff] at hcon
        have hall : s.all isJsSpace = true :=
          List.all_eq_true.mpr (fun c hc => hcon c hc)
        rw [hall] at hws
        cases hws
      have hfalse : isPre "</p>".data
          ((s.dropWhile isJsSpace) ++ ("</p>".data ++ R)) = false :=
        isPre_pat_false _ _ s hd
          ⟨s.takeWhile isJsSpace,
            (List.takeWhile_append_dropWhile _ _).symm⟩
          hN.2 p2_drop (Or.inr rfl)
      unfold emptyPMatch
      rw [if_pos (isPre_append_self "<p>".data _)]
      dsimp only
      rw [show ("<p>".data ++ (s ++ ("</p>".data ++ R))).drop 3 =
        s ++ ("</p>".data ++ R) from List.drop_left' rfl]
      rw [dropWhile_append_pos _ _ _ hd, hfalse]
      simp
    · subst hx
      rw [hx2]
      simp only [List.cons_append, List.nil_append]
      exact emptyPMatch_not_p (isPre_p_head_ne _ (by decide))
    · subst hx
      rw [hx2]
      simp only [List.cons_append, List.nil_append]
      exact emptyPMatch_not_p (isPre_p_head_ne _ (by decide))
    · subst hx
      rw [List.nil_append] at hx2
      exact cleanA_inner_none s R hN [] a2 (by rw [hx2]; rfl) hne
  · exact cleanA_inner_none s R hN y1 a2 hy1 hne

/-- The empty-paragraph scan deletes an all-whitespace wrapped segment. -/
theorem cleanA_del (s F : List Char) (hws : s.all isJsSpace = true) :
    scan emptyPMatch (wrapP s ++ F) = scan emptyPMatch F := by
  have hall : ∀ c ∈ s, isJsSpace c = true := by
    intro c hc
    exact List.all_eq_true.mp hws c hc
  have hm : emptyPMatch (wrapP s ++ F) = some ([], F) := by
    rw [wrapP, List.append_assoc, List.append_assoc]
    unfold emptyPMatch
    rw [if_pos (isPre_append_self "<p>".data _)]
    dsimp only
    rw [show ("<p>".data ++ (s ++ ("</p>".data ++ F))).drop 3 =
      s ++ ("</p>".data ++ F) from List.drop_left' rfl]
    rw [dropWhile_append_all _ _ _ hall]
    rw [show ("</p>".data ++ F).dropWhile isJsSpace = "</p>".data ++ F
      from dropWhile_cons_neg _ _ _ (by decide)]
    rw [if_pos (isPre_append_self "</p>".data F)]
    rw [show ("</p>".data ++ F).drop 4 = F from List.drop_left' rfl]
  have hne : wrapP s ++ F ≠ [] := by
    rw [wrapP]
    simp
  rw [scan_some emptyPMatch_shrinks hne hm]
  rfl

/-- The first cleanup on the wrapped segments: all-whitespace segments are
deleted with their wrappers, the others are kept verbatim. -/
theorem cleanA_wraps : ∀ segs : List (List Char), (∀ s ∈ segs, NoP s) →
    scan emptyPMatch ((segs.map wrapP).flatten) =
      (((segs.filter (fun s => !(s.all isJsSpace))).map wrapP).flatten) := by
  intro segs
  induction segs with
  | nil => intro _; rfl
  | cons s segs' ih =>
    intro hN
    have hNs := hN s (List.mem_cons_self s segs')
    have hN' : ∀ t ∈ segs', NoP t :=
      fun t ht => hN t (List.mem_cons_of_mem s ht)
    rw [show (((s :: segs').map wrapP).flatten) =
      wrapP s ++ ((segs'.map wrapP).flatten) from by simp]
    by_cases hws : s.all isJsSpace = true
    · rw [cleanA_del s _ hws, ih hN']
      rw [show (s :: segs').filter (fun s => !(s.all isJsSpace)) =
        segs'.filter (fun s => !(s.all isJsSpace)) from by
        simp [List.filter_cons, hws]]
    · have hws' : s.all isJsSpace = false := by
        cases hx : s.all isJsSpace with
        | true => exact absurd hx hws
        | false => rfl
      rw [cleanA_skip s _ hNs hws', ih hN']
      rw [show (s :: segs').filter (fun s => !(s.all isJsSpace)) =
        s :: segs'.filter (fun s => !(s.all isJsSpace)) from by
        simp [List.filter_cons, hws']]
      simp

/-! ### Shared helpers for the unwrap cleanups over block lists -/

/-- Extending past a `<`-headed continuation does not change a prefix test
for a tag with no interior `<`. -/
theorem isPre_ext {t : List Char} (v X : List Char)
    (ht : '<' ∉ t.drop 1) (hv : v ≠ [])
    (hX : X = [] ∨ X.head? = some '<') :
    isPre t (v ++ X) = isPre t v := by
  cases hiv : isPre t v with
  | true => exact isPre_mono X hiv
  | false =>
    cases hx : isPre t (v ++ X) with
    | false => rfl
    | true =>
      exfalso
      rcases isPre_append_split hx with h1 | ⟨tp, htp, hpre⟩
      · rw [h1] at hiv; cases hiv
      · cases htpx : tp with
        | nil =>
          subst htpx
          rw [List.append_nil] at htp
          have hself := isPre_append_self v []
          rw [List.append_nil] at hself
          rw [htp, hself] at hiv
          cases hiv
        | cons x tp2 =>
          subst htpx
          rcases hX with rfl | hXh
          · simp [isPre] at hpre
          · cases hXc : X with
            | nil => rw [hXc] at hXh; cases hXh
            | cons c0 X' =>
              have hc0 : c0 = '<' := by
                rw [hXc] at hXh
                simpa using hXh
              rw [hXc, hc0] at hpre
              have hxc : x = '<' := by
                have h' : (x == '<') = true ∧ isPre tp2 X' = true := by
                  simpa [isPre, Bool.and_eq_true] using hpre
                exact eq_of_beq h'.1
              have hdropv : t.drop v.length = x :: tp2 := by
                rw [htp]
                exact List.drop_left _ _
              have hv1 : 1 ≤ v.length := by
                cases v with
                | nil => exact absurd rfl hv
                | cons _ _ => exact Nat.succ_le_succ (Nat.zero_le _)
              have hh : (t.drop v.length).head? = some '<' := by
                rw [hdropv, hxc]
                rfl
              have e : t.drop v.length = (t.drop 1).drop (v.length - 1) := by
                rw [List.drop_drop]
                congr 1
                omega
              rw [e] at hh
              exact head_drop_ne ht (v.length - 1) hh

/-- `find?` only depends on the predicate's values on the list. -/
theorem find?_congr {p q : List Char → Bool} (L : List (List Char))
    (h : ∀ t ∈ L, p t = q t) : L.find? p = L.find? q := by
  induction L with
  | nil => rfl
  | cons t L' ih =>
    simp only [List.find?]
    rw [h t (List.mem_cons_self t L')]
    cases hqt : q t with
    | true => rfl
    | false => exact ih (fun u hu => h u (List.mem_cons_of_mem t hu))

/-- `find?` picks the unique satisfying element. -/
theorem find?_unique {p : List Char → Bool} {L : List (List Char)}
    {t : List Char} (htm : t ∈ L) (hpt : p t = true)
    (hother : ∀ u ∈ L, u ≠ t → p u = false) : L.find? p = some t := by
  induction L with
  | nil => cases htm
  | cons u L' ih =>
    rcases List.mem_cons.mp htm with rfl | htm'
    · simp only [List.find?, hpt]
    · by_cases hut : u = t
      · subst hut
        simp only [List.find?, hpt]
      · rw [show List.find? p (u :: L') = List.find? p L' from by
          simp only [List.find?, hother u (List.mem_cons_self u L') hut]]
        exact ih htm'
          (fun w hw hwt => hother w (List.mem_cons_of_mem u hw) hwt)

/-- The open-unwrap matcher needs a `<p>` prefix. -/
theorem unwrapOpenMatch_not_p (tags : List (List Char)) {l : List Char}
    (h : isPre "<p>".data l = false) : unwrapOpenMatch tags l = none := by
  simp [unwrapOpenMatch, h]

/-- No position inside a tag-free core with its optional closing `</p>`
starts with `<p>`. -/
theorem no_p_inside (core R : List Char) (cl : Bool)
    (hN : ¬ Occurs "<p>".data core)
    (hR : R = [] ∨ R.head? = some '<') :
    ∀ y1 a2, core ++ (if cl then "</p>".data else []) = y1 ++ a2 →
      a2 ≠ [] → isPre "<p>".data (a2 ++ R) = false := by
  intro y1 a2 hsplit hne
  cases cl with
  | false =>
    rw [if_neg (by simp), List.append_nil] at hsplit
    exact isPre_pat_false a2 R core hne ⟨y1, hsplit⟩ hN p1_drop hR
  | true =>
    rw [if_pos rfl] at hsplit
    rcases suffix_of_append hsplit.symm with ⟨x2, hx2, x1, hx1⟩ | ⟨w1, hw1⟩
    · cases hx2e : x2 with
      | nil =>
        subst hx2e
        rw [hx2]
        simp [isPre]
      | cons xc xrest =>
        rw [hx2, List.append_assoc]
        exact isPre_pat_false x2 ("</p>".data ++ R) core
          (by rw [hx2e]; simp) ⟨x1, hx1⟩ hN p1_drop (Or.inr rfl)
    · rcases split_p4 hw1 with ⟨-, ha⟩ | ⟨-, ha⟩ | ⟨-, ha⟩ | ⟨-, ha⟩ | ha
      · subst ha
        simp [isPre]
      · subst ha
        simp only [List.cons_append]
        exact isPre_p_head_ne _ (by decide)
      · subst ha
        simp only [List.cons_append]
        exact isPre_p_head_ne _ (by decide)
      · subst ha
        simp only [List.cons_append]
        exact isPre_p_head_ne _ (by decide)
      · exact absurd ha hne

/-- The head of a `dropWhile` residue fails the predicate. -/
theorem dropWhile_head_false {p : Char → Bool} :
    ∀ {l t : List Char} {c : Char}, l.dropWhile p = c :: t → p c = false := by
  intro l
  induction l with
  | nil => intro t c h; cases h
  | cons d l' ih =>
    intro t c h
    by_cases hd : p d
    · rw [List.dropWhile_cons, if_pos hd] at h
      exact ih h
    · rw [List.dropWhile_cons, if_neg hd] at h
      obtain ⟨h1, h2⟩ := (List.cons.injEq _ _ _ _).mp h
      subst h1
      cases hx : p d with
      | false => rfl
      | true => exact absurd hx hd

/-- Every opener tag is `<`-headed. -/
theorem opener_cons {t : List Char} (h : t ∈ openerTags) :
    ∃ t2, t = '<' :: t2 := by
  fin_cases h
  · exact ⟨"h1>".data, rfl⟩
  · exact ⟨"h2>".data, rfl⟩
  · exact ⟨"h3>".data, rfl⟩
  · exact ⟨"pre>".data, rfl⟩
  · exact ⟨"ul>".data, rfl⟩

/-- Every closer tag starts with `</`. -/
theorem closer_cons {t : List Char} (h : t ∈ closerTags) :
    ∃ t2, t = '<' :: '/' :: t2 := by
  fin_cases h
  · exact ⟨"h1>".data, rfl⟩
  · exact ⟨"h2>".data, rfl⟩
  · exact ⟨"h3>".data, rfl⟩
  · exact ⟨"pre>".data, rfl⟩
  · exact ⟨"ul>".data, rfl⟩

/-- Rendering a block list, cons form. -/
theorem renderBs_cons (b : PBlock) (bs : List PBlock) :
    renderBs (b :: bs) = renderB b ++ renderBs bs := by
  simp [renderBs]

/-- The rendering of good blocks is empty or `<`-headed. -/
theorem renderBs_head (bs : List PBlock) (h : ∀ b ∈ bs, GoodB b) :
    renderBs bs = [] ∨ (renderBs bs).head? = some '<' := by
  cases bs with
  | nil => exact Or.inl rfl
  | cons b bs' =>
    right
    rw [renderBs_cons]
    have hb := h b (List.mem_cons_self b bs')
    unfold renderB
    cases hOp : b.hasOp with
    | true => rfl
    | false =>
      obtain ⟨t, r, hto, hcore⟩ := hb.2.2.2.2.2 hOp
      obtain ⟨t2, ht2⟩ := opener_cons hto
      rw [hcore, ht2]
      simp

/-- A non-all-whitespace list has a nonempty whitespace-stripped head. -/
theorem dropWhile_ne_of_not_all {s : List Char}
    (hws : s.all isJsSpace = false) : s.dropWhile isJsSpace ≠ [] := by
  intro hcon
  rw [List.dropWhile_eq_nil_iff] at hcon
  have hall : s.all isJsSpace = true :=
    List.all_eq_true.mpr (fun c hc => hcon c hc)
  rw [hall] at hws
  cases hws

/-- The open-unwrap cleanup acts blockwise. -/
theorem cleanOpen_blocks (To : List (List Char))
    (hTo1 : ∀ t ∈ To, t ∈ openerTags)
    (hTo2 : ∀ t ∈ To, '<' ∉ t.drop 1) :
    ∀ bs : List PBlock, (∀ b ∈ bs, GoodB b) →
      scan (unwrapOpenMatch To) (renderBs bs) =
        renderBs (bs.map (stepOpen To)) := by
  intro bs
  induction bs with
  | nil => intro _; rfl
  | cons b bs' ih =>
    intro hG
    have hGb := hG b (List.mem_cons_self b bs')
    have hG' : ∀ u ∈ bs', GoodB u :=
      fun u hu => hG u (List.mem_cons_of_mem b hu)
    have hR := renderBs_head bs' hG'
    have ihs := ih hG'
    rw [renderBs_cons, List.map_cons, renderBs_cons]
    cases hOp : b.hasOp with
    | false =>
      have hstep : stepOpen To b = b := by
        simp [stepOpen, hOp]
      rw [hstep]
      have hrB : renderB b = b.core ++
          (if b.hasCl then "</p>".data else []) := by
        simp [renderB, hOp]
      have hwalk : scan (unwrapOpenMatch To)
          (renderB b ++ renderBs bs') =
          renderB b ++ scan (unwrapOpenMatch To) (renderBs bs') := by
        apply scan_append_none
        intro a1 a2 he hne
        rw [hrB] at he
        exact unwrapOpenMatch_not_p To
          (no_p_inside b.core (renderBs bs') b.hasCl hGb.2.2.1 hR
            a1 a2 he hne)
      rw [hwalk, ihs]
    | true =>
      have hnw : b.core.dropWhile isJsSpace ≠ [] :=
        dropWhile_ne_of_not_all hGb.2.1
      have hXhead : (if b.hasCl then "</p>".data else []) ++
          renderBs bs' = [] ∨
          ((if b.hasCl then "</p>".data else []) ++
            renderBs bs').head? = some '<' := by
        cases hCl : b.hasCl with
        | true => exact Or.inr rfl
        | false =>
          rw [if_neg (by simp), List.nil_append]
          exact hR
      have hshape : renderB b ++ renderBs bs' =
          "<p>".data ++ (b.core ++
            ((if b.hasCl then "</p>".data else []) ++ renderBs bs')) := by
        simp [renderB, hOp, List.append_assoc]
      have hfcongr : To.find? (fun t => isPre t
          ((b.core.dropWhile isJsSpace) ++
            ((if b.hasCl then "</p>".data else []) ++ renderBs bs'))) =
          To.find? (fun t => isPre t (b.core.dropWhile isJsSpace)) := by
        apply find?_congr
        intro t htm
        exact isPre_ext _ _ (hTo2 t htm) hnw hXhead
      have hdw : (b.core ++ ((if b.hasCl then "</p>".data else []) ++
          renderBs bs')).dropWhile isJsSpace =
          (b.core.dropWhile isJsSpace) ++
            ((if b.hasCl then "</p>".data else []) ++ renderBs bs') :=
        dropWhile_append_pos _ _ _ hnw
      cases hf : To.find? (fun t => isPre t
          (b.core.dropWhile isJsSpace)) with
      | none =>
        have hstep : stepOpen To b = b := by
          simp [stepOpen, hOp, hf]
        rw [hstep]
        have hm0 : unwrapOpenMatch To (renderB b ++ renderBs bs') =
            none := by
          rw [hshape]
          unfold unwrapOpenMatch
          rw [if_pos (isPre_append_self "<p>".data _)]
          dsimp only
          rw [show ("<p>".data ++ (b.core ++
              ((if b.hasCl then "</p>".data else []) ++
                renderBs bs'))).drop 3 = b.core ++
              ((if b.hasCl then "</p>".data else []) ++ renderBs bs')
            from List.drop_left' rfl]
          rw [hdw, hfcongr, hf]
        have hwalk : scan (unwrapOpenMatch To)
            (renderB b ++ renderBs bs') =
            renderB b ++ scan (unwrapOpenMatch To) (renderBs bs') := by
          apply scan_append_none
          intro a1 a2 he hne
          have hrB : renderB b = "<p>".data ++ (b.core ++
              (if b.hasCl then "</p>".data else [])) := by
            simp [renderB, hOp]
          rw [hrB] at he
          rcases suffix_of_append he.symm with
            ⟨x2, hx2, x1, hx1⟩ | ⟨y1, hy1⟩
          · rcases split_p3 hx1 with ⟨-, hx⟩ | ⟨-, hx⟩ | ⟨-, hx⟩ | hx
            · subst hx
              rw [hx2]
              rw [show ("<p>".data ++ (b.core ++
                  (if b.hasCl then "</p>".data else []))) ++
                  renderBs bs' = renderB b ++ renderBs bs' from by
                rw [hrB]]
              exact hm0
            · subst hx
              rw [hx2]
              simp only [List.cons_append, List.nil_append]
              exact unwrapOpenMatch_not_p To (isPre_p_head_ne _ (by decide))
            · subst hx
              rw [hx2]
              simp only [List.cons_append, List.nil_append]
              exact unwrapOpenMatch_not_p To (isPre_p_head_ne _ (by decide))
            · subst hx
              rw [List.nil_append] at hx2
              exact unwrapOpenMatch_not_p To
                (no_p_inside b.core (renderBs bs') b.hasCl hGb.2.2.1 hR
                  [] a2 (by rw [hx2]; rfl) hne)
          · exact unwrapOpenMatch_not_p To
              (no_p_inside b.core (renderBs bs') b.hasCl hGb.2.2.1 hR
                y1 a2 hy1 hne)
        rw [hwalk, ihs]
      | some t =>
        have htTo : t ∈ To := List.mem_of_find?_eq_some hf
        have hpret : isPre t (b.core.dropWhile isJsSpace) = true := by
          have hps := List.find?_some hf
          simpa using hps
        obtain ⟨nw2, hnw2⟩ := isPre_exists hpret
        have hstep : stepOpen To b =
            ⟨false, b.core.dropWhile isJsSpace, b.hasCl⟩ := by
          simp [stepOpen, hOp, hf]
        rw [hstep]
        have hm0 : unwrapOpenMatch To (renderB b ++ renderBs bs') =
            some (t, nw2 ++ ((if b.hasCl then "</p>".data else []) ++
              renderBs bs')) := by
          rw [hshape]
          unfold unwrapOpenMatch
          rw [if_pos (isPre_append_self "<p>".data _)]
          dsimp only
          rw [show ("<p>".data ++ (b.core ++
              ((if b.hasCl then "</p>".data else []) ++
                renderBs bs'))).drop 3 = b.core ++
              ((if b.hasCl then "</p>".data else []) ++ renderBs bs')
            from List.drop_left' rfl]
          rw [hdw, hfcongr, hf]
          rw [hnw2, List.append_assoc]
          dsimp only
          rw [show (t ++ (nw2 ++ ((if b.hasCl then "</p>".data else []) ++
            renderBs bs'))).drop t.length = nw2 ++
              ((if b.hasCl then "</p>".data else []) ++ renderBs bs')
            from List.drop_left _ _]
        have hne0 : renderB b ++ renderBs bs' ≠ [] := by
          simp [renderB, hOp]
        rw [scan_some (unwrapOpenMatch_shrinks To) hne0 hm0]
        have hwalk : scan (unwrapOpenMatch To)
            (nw2 ++ ((if b.hasCl then "</p>".data else []) ++
              renderBs bs')) =
            (nw2 ++ (if b.hasCl then "</p>".data else [])) ++
              scan (unwrapOpenMatch To) (renderBs bs') := by
          rw [← List.append_assoc]
          apply scan_append_none
          intro a1 a2 he hne
          have hcoresplit : b.core ++
              (if b.hasCl then "</p>".data else []) =
              ((b.core.takeWhile isJsSpace ++ t) ++ a1) ++ a2 := by
            conv_lhs =>
              rw [← List.takeWhile_append_dropWhile
                (p := isJsSpace) (l := b.core), hnw2]
            simp only [List.append_assoc]
            rw [he]
          exact unwrapOpenMatch_not_p To
            (no_p_inside b.core (renderBs bs') b.hasCl hGb.2.2.1 hR
              _ a2 hcoresplit hne)
        rw [hwalk, ihs]
        have hrB2 : renderB (⟨false, b.core.dropWhile isJsSpace, b.hasCl⟩
            : PBlock) = (t ++ nw2) ++
            (if b.hasCl then "</p>".data else []) := by
          simp [renderB, hnw2]
        rw [hrB2]
        simp [List.append_assoc]

/-! ### Close-unwrap support -/

/-- Head mismatch falsifies any prefix test. -/
theorem isPre_cons_head_ne {p1 c : Char} (ps X : List Char) (h : p1 ≠ c) :
    isPre (p1 :: ps) (c :: X) = false := by
  simp [isPre, beq_false_of_ne h]

/-- Second-character mismatch falsifies a prefix test. -/
theorem isPre_two_ne {p1 p2 c1 c2 : Char} (ps X : List Char)
    (h : p2 ≠ c2) : isPre (p1 :: p2 :: ps) (c1 :: c2 :: X) = false := by
  by_cases h1 : p1 = c1
  · subst h1
    simp [isPre, beq_false_of_ne h]
  · simp [isPre, beq_false_of_ne h1]

/-- No closer tag starts with `</p>`. -/
theorem closer_p4_not_pre : ∀ t ∈ closerTags,
    isPre "</p>".data t = false := by decide

/-- `</p>` does not start with a closer tag. -/
theorem closer_not_pre_p4 : ∀ t ∈ closerTags,
    isPre t "</p>".data = false := by decide

/-- Closer tags have at least four characters. -/
theorem closer_len4 : ∀ t ∈ closerTags, 4 ≤ t.length := by decide

/-- Closer tags reversed start with `>`. -/
theorem closer_rev_cons {t : List Char} (h : t ∈ closerTags) :
    ∃ tr, t.reverse = '>' :: tr := by
  fin_cases h
  · exact ⟨_, rfl⟩
  · exact ⟨_, rfl⟩
  · exact ⟨_, rfl⟩
  · exact ⟨_, rfl⟩
  · exact ⟨_, rfl⟩

/-- Opener tags are `<`, then a non-`/` character. -/
theorem opener_two {t : List Char} (h : t ∈ openerTags) :
    ∃ c t2, t = '<' :: c :: t2 ∧ c ≠ '/' := by
  fin_cases h
  · exact ⟨'h', _, rfl, by decide⟩
  · exact ⟨'h', _, rfl, by decide⟩
  · exact ⟨'h', _, rfl, by decide⟩
  · exact ⟨'p', _, rfl, by decide⟩
  · exact ⟨'u', _, rfl, by decide⟩

/-- A `find?` over everywhere-false predicates fails. -/
theorem find_none_of_all {Tc : List (List Char)} {l : List Char}
    (h : ∀ t ∈ Tc, isPre t l = false) :
    Tc.find? (fun t => isPre t l) = none :=
  List.find?_eq_none.mpr (fun t ht => by simp [h t ht])

/-- The close matcher fails when no tag prefixes the input. -/
theorem unwrapCloseMatch_none_nf {Tc : List (List Char)} {l : List Char}
    (h : Tc.find? (fun t => isPre t l) = none) :
    unwrapCloseMatch Tc l = none := by
  unfold unwrapCloseMatch
  rw [h]

/-- Trailing whitespace does not affect the trimmed end. -/
theorem trimWsEnd_append_ws (A vv : List Char)
    (h : ∀ c ∈ vv, isJsSpace c = true) :
    trimWsEnd (A ++ vv) = trimWsEnd A := by
  unfold trimWsEnd
  rw [List.reverse_append]
  rw [dropWhile_append_all _ _ _ (fun c hc => h c (List.mem_reverse.mp hc))]

/-- Text ending in a closer tag is its own trimmed end. -/
theorem trimWsEnd_closer (cw t2 : List Char) (h : t2 ∈ closerTags) :
    trimWsEnd (cw ++ t2) = cw ++ t2 := by
  obtain ⟨tr, htr⟩ := closer_rev_cons h
  have h1 : (cw ++ t2).reverse = '>' :: (tr ++ cw.reverse) := by
    rw [List.reverse_append, htr]
    rfl
  unfold trimWsEnd
  rw [h1, dropWhile_cons_neg _ _ _ (by decide), ← h1,
    List.reverse_reverse]

/-- A list ends with its appended suffix. -/
theorem endsWith_append_self (t2 cw : List Char) :
    endsWith t2 (cw ++ t2) = true := by
  unfold endsWith
  rw [List.reverse_append]
  exact isPre_append_self _ _

/-- Rendered good blocks never start with `</p>`. -/
theorem renderBs_not_p4 (bs : List PBlock) (h : ∀ b ∈ bs, GoodB b) :
    isPre "</p>".data (renderBs bs) = false := by
  cases bs with
  | nil => simp [renderBs, isPre]
  | cons b bs' =>
    rw [renderBs_cons]
    have hb := h b (List.mem_cons_self b bs')
    cases hOp : b.hasOp with
    | true =>
      rw [show renderB b = "<p>".data ++
          (b.core ++ (if b.hasCl then "</p>".data else [])) from by
        simp [renderB, hOp]]
      rw [show "<p>".data = '<' :: 'p' :: '>' :: [] from rfl,
        show "</p>".data = '<' :: '/' :: 'p' :: '>' :: [] from rfl]
      simp only [List.cons_append, List.nil_append, List.append_assoc]
      exact isPre_two_ne _ _ (by decide)
    | false =>
      obtain ⟨t, r, hto, hcore⟩ := hb.2.2.2.2.2 hOp
      obtain ⟨c, t2, ht2, hcne⟩ := opener_two hto
      rw [show renderB b = b.core ++
          (if b.hasCl then "</p>".data else []) from by
        simp [renderB, hOp]]
      rw [hcore, ht2]
      rw [show "</p>".data = '<' :: '/' :: 'p' :: '>' :: [] from rfl]
      simp only [List.cons_append, List.nil_append, List.append_assoc]
      exact isPre_two_ne _ _ (fun e => hcne e.symm)

/-- The close matcher fails at a `<p>`. -/
theorem close_none_p (Tc : List (List Char))
    (hTc1 : ∀ t ∈ Tc, t ∈ closerTags) (Y : List Char) :
    unwrapCloseMatch Tc ("<p>".data ++ Y) = none := by
  apply unwrapCloseMatch_none_nf
  apply find_none_of_all
  intro t ht
  obtain ⟨t2, ht2⟩ := closer_cons (hTc1 t ht)
  rw [ht2, show "<p>".data = '<' :: 'p' :: '>' :: [] from rfl]
  simp only [List.cons_append, List.nil_append]
  exact isPre_two_ne _ _ (by decide)

/-- The close matcher fails at a non-`<` head. -/
theorem close_none_head (Tc : List (List Char))
    (hTc1 : ∀ t ∈ Tc, t ∈ closerTags) {c : Char} (X : List Char)
    (hc : c ≠ '<') : unwrapCloseMatch Tc (c :: X) = none := by
  apply unwrapCloseMatch_none_nf
  apply find_none_of_all
  intro t ht
  obtain ⟨t2, ht2⟩ := closer_cons (hTc1 t ht)
  rw [ht2]
  exact isPre_cons_head_ne _ _ (fun e => hc e.symm)

/-- The close matcher fails at a `</p>`. -/
theorem close_none_p4 (Tc : List (List Char))
    (hTc1 : ∀ t ∈ Tc, t ∈ closerTags)
    (hTc2 : ∀ t ∈ Tc, '<' ∉ t.drop 1) (R : List Char)
    (hR : R = [] ∨ R.head? = some '<') :
    unwrapCloseMatch Tc ("</p>".data ++ R) = none := by
  apply unwrapCloseMatch_none_nf
  apply find_none_of_all
  intro t ht
  rw [isPre_ext _ _ (hTc2 t ht) (by decide) hR]
  exact closer_not_pre_p4 t (hTc1 t ht)

/-- Inside a clean core, the close matcher fails at every proper
position, provided no eligible tag-then-whitespace run ends the core. -/
theorem closeRule_core_none (Tc : List (List Char))
    (hTc2 : ∀ t ∈ Tc, '<' ∉ t.drop 1)
    (core CONT : List Char)
    (hN : ¬ Occurs "</p>".data core)
    (hContHead : CONT = [] ∨ CONT.head? = some '<')
    (hElig : ∀ t2 ∈ Tc, ∀ cw vv, core = (cw ++ t2) ++ vv →
      (∀ c ∈ vv, isJsSpace c = true) →
      isPre "</p>".data (CONT.dropWhile isJsSpace) = false) :
    ∀ cw v, core = cw ++ v → v ≠ [] →
      unwrapCloseMatch Tc (v ++ CONT) = none := by
  intro cw v hcv hvne
  cases hfind : Tc.find? (fun t => isPre t (v ++ CONT)) with
  | none =>
    unfold unwrapCloseMatch
    rw [hfind]
  | some t2 =>
    have ht2 := List.mem_of_find?_eq_some hfind
    have hpre : isPre t2 (v ++ CONT) = true := by
      have hx := List.find?_some hfind
      simpa using hx
    have hcheck : isPre "</p>".data
        (((v ++ CONT).drop t2.length).dropWhile isJsSpace) = false := by
      rcases isPre_append_split hpre with h1 | ⟨tp, htp, hpre2⟩
      · obtain ⟨vv, hvv⟩ := isPre_exists h1
        have hdrop : (v ++ CONT).drop t2.length = vv ++ CONT := by
          rw [hvv, List.append_assoc]
          exact List.drop_left _ _
        rw [hdrop]
        by_cases hdw : vv.dropWhile isJsSpace = []
        · rw [List.dropWhile_eq_nil_iff] at hdw
          rw [dropWhile_append_all _ _ _ (fun c hc => hdw c hc)]
          exact hElig t2 ht2 cw vv
            (by rw [hcv, hvv]; simp [List.append_assoc])
            (fun c hc => hdw c hc)
        · rw [dropWhile_append_pos _ _ _ hdw]
          refine isPre_pat_false _ _ core hdw
            ⟨(cw ++ t2) ++ vv.takeWhile isJsSpace, ?_⟩ hN p2_drop hContHead
          rw [hcv, hvv]
          conv_lhs => rw [← List.takeWhile_append_dropWhile
            (p := isJsSpace) (l := vv)]
          simp [List.append_assoc]
      · cases htpx : tp with
        | nil =>
          subst htpx
          rw [List.append_nil] at htp
          have hdrop : (v ++ CONT).drop t2.length = CONT := by
            rw [htp]
            exact List.drop_left _ _
          rw [hdrop]
          exact hElig t2 ht2 cw []
            (by rw [hcv, htp]; simp) (by simp)
        | cons x tp2 =>
          subst htpx
          exfalso
          rcases hContHead with rfl | hCh
          · simp [isPre] at hpre2
          · cases hCx : CONT with
            | nil =>
              rw [hCx] at hCh
              cases hCh
            | cons c0 C' =>
              have hc0 : c0 = '<' := by
                rw [hCx] at hCh
                simpa using hCh
              rw [hCx, hc0] at hpre2
              have hxc : x = '<' := by
                have h' : (x == '<') = true ∧ isPre tp2 C' = true := by
                  simpa [isPre, Bool.and_eq_true] using hpre2
                exact eq_of_beq h'.1
              have hdropv : t2.drop v.length = x :: tp2 := by
                rw [htp]
                exact List.drop_left _ _
              have hh : (t2.drop v.length).head? = some '<' := by
                rw [hdropv, hxc]
                rfl
              have e : t2.drop v.length = (t2.drop 1).drop (v.length - 1) := by
                rw [List.drop_drop]
                congr 1
                cases v with
                | nil => exact absurd rfl hvne
                | cons a as => simp [Nat.add_comm]
              rw [e] at hh
              exact head_drop_ne (hTc2 t2 ht2) (v.length - 1) hh
    unfold unwrapCloseMatch
    rw [hfind]
    dsimp only
    rw [hcheck]
    rfl

/-- A successful suffix test exhibits the suffix. -/
theorem endsWith_exists {t l : List Char} (h : endsWith t l = true) :
    ∃ u, l = u ++ t := by
  unfold endsWith at h
  obtain ⟨z, hz⟩ := isPre_exists h
  refine ⟨z.reverse, ?_⟩
  have h2 := congrArg List.reverse hz
  simpa using h2

/-- Splitting off the trailing whitespace. -/
theorem trimWsEnd_decomp (l : List Char) :
    ∃ w, l = trimWsEnd l ++ w ∧ ∀ c ∈ w, isJsSpace c = true := by
  refine ⟨(l.reverse.takeWhile isJsSpace).reverse, ?_, ?_⟩
  · unfold trimWsEnd
    have h := List.takeWhile_append_dropWhile
      (p := isJsSpace) (l := l.reverse)
    have h2 := congrArg List.reverse h
    rw [List.reverse_append, List.reverse_reverse] at h2
    exact h2.symm
  · intro c hc
    rw [List.mem_reverse] at hc
    exact List.mem_takeWhile_imp hc

/-- `</p>` never starts at a closer tag with a continuation. -/
theorem p4_not_pre_closer_append (tc Y : List Char)
    (h : tc ∈ closerTags) : isPre "</p>".data (tc ++ Y) = false := by
  cases hx : isPre "</p>".data (tc ++ Y) with
  | false => rfl
  | true =>
    exfalso
    rcases isPre_append_split hx with h1 | ⟨tp, htp, hp2⟩
    · rw [closer_p4_not_pre tc h] at h1
      cases h1
    · have hlen : ("</p>".data).length = tc.length + tp.length := by
        rw [htp]
        simp
    
      have h4 := closer_len4 tc h
      have hl4 : ("</p>".data).length = 4 := by decide
      have htpnil : tp = [] :=
        List.eq_nil_of_length_eq_zero (by omega)
      subst htpnil
      rw [List.append_nil] at htp
      have hself : isPre "</p>".data tc = true := by
        rw [← htp]
        have hs := isPre_append_self "</p>".data []
        rwa [List.append_nil] at hs
      rw [closer_p4_not_pre tc h] at hself
      cases hself

/-- Whitespace stripping fixes a `</p>`-headed text. -/
theorem dropWhile_p4 (R : List Char) :
    ("</p>".data ++ R).dropWhile isJsSpace = "</p>".data ++ R := by
  rw [show "</p>".data = '<' :: '/' :: 'p' :: '>' :: ([] : List Char)
    from rfl]
  simp only [List.cons_append, List.nil_append]
  exact dropWhile_cons_neg _ _ _ (by decide)

/-- The paragraph-close check fails on a clean continuation. -/
theorem p4_check_fails {R : List Char}
    (hR : R = [] ∨ R.head? = some '<')
    (hRp4 : isPre "</p>".data R = false) :
    isPre "</p>".data (R.dropWhile isJsSpace) = false := by
  rcases hR with rfl | hh
  · decide
  · cases R with
    | nil => decide
    | cons c R' =>
      have hc : c = '<' := by simpa using hh
      subst hc
      rw [dropWhile_cons_neg _ _ _ (by decide)]
      exact hRp4

/-- The close matcher fires exactly at a tag before whitespace and a
closing `</p>`. -/
theorem closeMatch_at (Tc : List (List Char))
    (hTc3 : ∀ t ∈ Tc, ∀ u ∈ Tc, u.length = t.length)
    {tc : List Char} (htm : tc ∈ Tc) (w R : List Char)
    (hw : ∀ c ∈ w, isJsSpace c = true) :
    unwrapCloseMatch Tc (tc ++ (w ++ ("</p>".data ++ R))) =
      some (tc, R) := by
  have hfind : Tc.find?
      (fun t => isPre t (tc ++ (w ++ ("</p>".data ++ R)))) = some tc := by
    apply find?_unique htm (isPre_append_self _ _)
    intro u' hu' hne
    cases hx : isPre u' (tc ++ (w ++ ("</p>".data ++ R))) with
    | false => rfl
    | true =>
      exfalso
      rcases isPre_append_split hx with h1 | ⟨tp, htp, hp2⟩
      · exact hne (isPre_eq_of_length h1 (hTc3 tc htm u' hu'))
      · have hlen : u'.length = tc.length + tp.length := by
          rw [htp]
          simp
        have hlen2 := hTc3 tc htm u' hu'
        have htpnil : tp = [] :=
          List.eq_nil_of_length_eq_zero (by omega)
        subst htpnil
        rw [List.append_nil] at htp
        exact hne htp
  unfold unwrapCloseMatch
  rw [hfind]
  dsimp only
  rw [List.drop_left, dropWhile_append_all _ _ _ hw, dropWhile_p4,
    if_pos (isPre_append_self _ _),
    show ("</p>".data ++ R).drop 4 = R from List.drop_left' rfl]

/-- The possible suffixes of an optional `<p>` opener. -/
theorem opPart_split {op : Bool} {x1 x2 : List Char}
    (h : (if op then "<p>".data else ([] : List Char)) = x1 ++ x2) :
    x2 = [] ∨ x2 = "<p>".data ∨ x2 = ['p', '>'] ∨ x2 = ['>'] := by
  cases op with
  | false =>
    left
    have h' : x1 ++ x2 = [] := by simpa using h.symm
    exact (List.append_eq_nil.mp h').2
  | true =>
    have h' : "<p>".data = x1 ++ x2 := by simpa using h
    rcases split_p3 h' with ⟨-, hx⟩ | ⟨-, hx⟩ | ⟨-, hx⟩ | hx
    · exact Or.inr (Or.inl hx)
    · exact Or.inr (Or.inr (Or.inl hx))
    · exact Or.inr (Or.inr (Or.inr hx))
    · exact Or.inl hx

/-- The close-unwrap cleanup acts on one good block. -/
theorem cleanClose_block (Tc : List (List Char))
    (hTc1 : ∀ t ∈ Tc, t ∈ closerTags)
    (hTc2 : ∀ t ∈ Tc, '<' ∉ t.drop 1)
    (hTc3 : ∀ t ∈ Tc, ∀ u ∈ Tc, u.length = t.length)
    (b : PBlock) (hGb : GoodB b) (R : List Char)
    (hR : R = [] ∨ R.head? = some '<')
    (hRp4 : isPre "</p>".data R = false) :
    scan (unwrapCloseMatch Tc) (renderB b ++ R) =
      renderB (stepClose Tc b) ++ scan (unwrapCloseMatch Tc) R := by
  cases hCl : b.hasCl with
  | false =>
    have hstep : stepClose Tc b = b := by
      simp [stepClose, hCl]
    rw [hstep]
    have hrB : renderB b =
        (if b.hasOp then "<p>".data else []) ++ b.core := by
      simp [renderB, hCl]
    rw [hrB]
    apply scan_append_none
    intro a1 a2 he hne
    have hcorepos : ∀ y1 v, b.core = y1 ++ v → v ≠ [] →
        unwrapCloseMatch Tc (v ++ R) = none :=
      closeRule_core_none Tc hTc2 b.core R hGb.2.2.2.1 hR
        (fun t2 ht2 cw vv hdec hws2 => p4_check_fails hR hRp4)
    rcases suffix_of_append he.symm with ⟨x2, hx2, x1, hx1⟩ | ⟨y1, hy1⟩
    · rcases opPart_split hx1 with hx | hx | hx | hx
      · subst hx
        rw [List.nil_append] at hx2
        exact hcorepos [] a2 (by rw [hx2]; rfl) hne
      · subst hx
        rw [hx2, List.append_assoc]
        exact close_none_p Tc hTc1 _
      · subst hx
        rw [hx2]
        simp only [List.cons_append, List.nil_append, List.append_assoc]
        exact close_none_head Tc hTc1 _ (by decide)
      · subst hx
        rw [hx2]
        simp only [List.cons_append, List.nil_append, List.append_assoc]
        exact close_none_head Tc hTc1 _ (by decide)
    · exact hcorepos y1 a2 hy1 hne
  | true =>
    cases hfE : Tc.find? (fun t => endsWith t (trimWsEnd b.core)) with
    | none =>
      have hstep : stepClose Tc b = b := by
        simp [stepClose, hCl, hfE]
      rw [hstep]
      have hrB : renderB b = (if b.hasOp then "<p>".data else []) ++
          (b.core ++ "</p>".data) := by
        simp [renderB, hCl]
      rw [hrB]
      apply scan_append_none
      intro a1 a2 he hne
      have hcorepos : ∀ y1 v, b.core = y1 ++ v → v ≠ [] →
          unwrapCloseMatch Tc (v ++ ("</p>".data ++ R)) = none := by
        apply closeRule_core_none Tc hTc2 b.core ("</p>".data ++ R)
          hGb.2.2.2.1 (Or.inr rfl)
        intro t2 ht2 cw vv hdec hws2
        exfalso
        have hct : trimWsEnd b.core = cw ++ t2 := by
          rw [hdec, trimWsEnd_append_ws _ _ hws2,
            trimWsEnd_closer _ _ (hTc1 t2 ht2)]
        have hendsx : endsWith t2 (trimWsEnd b.core) = true := by
          rw [hct]
          exact endsWith_append_self _ _
        exact List.find?_eq_none.mp hfE t2 ht2 hendsx
      have hinner : ∀ v y1, b.core ++ "</p>".data = y1 ++ v → v ≠ [] →
          unwrapCloseMatch Tc (v ++ R) = none := by
        intro v y1 hy1 hvne
        rcases suffix_of_append hy1.symm with
          ⟨z2, hz2, z1, hz1⟩ | ⟨w1, hw1⟩
        · cases hz2e : z2 with
          | nil =>
            subst hz2e
            rw [List.nil_append] at hz2
            subst hz2
            exact close_none_p4 Tc hTc1 hTc2 R hR
          | cons zc zr =>
            subst hz2e
            rw [hz2, List.append_assoc]
            exact hcorepos z1 (zc :: zr) hz1 (by simp)
        · rcases split_p4 hw1 with
            ⟨-, ha⟩ | ⟨-, ha⟩ | ⟨-, ha⟩ | ⟨-, ha⟩ | ha
          · subst ha
            exact close_none_p4 Tc hTc1 hTc2 R hR
          · subst ha
            simp only [List.cons_append, List.nil_append]
            exact close_none_head Tc hTc1 _ (by decide)
          · subst ha
            simp only [List.cons_append, List.nil_append]
            exact close_none_head Tc hTc1 _ (by decide)
          · subst ha
            simp only [List.cons_append, List.nil_append]
            exact close_none_head Tc hTc1 _ (by decide)
          · exact absurd ha hvne
      rcases suffix_of_append he.symm with ⟨x2, hx2, x1, hx1⟩ | ⟨y1, hy1⟩
      · rcases opPart_split hx1 with hx | hx | hx | hx
        · subst hx
          rw [List.nil_append] at hx2
          exact hinner a2 [] (by rw [hx2]; rfl) hne
        · subst hx
          rw [hx2, List.append_assoc]
          exact close_none_p Tc hTc1 _
        · subst hx
          rw [hx2]
          simp only [List.cons_append, List.nil_append, List.append_assoc]
          exact close_none_head Tc hTc1 _ (by decide)
        · subst hx
          rw [hx2]
          simp only [List.cons_append, List.nil_append, List.append_assoc]
          exact close_none_head Tc hTc1 _ (by decide)
      · exact hinner a2 y1 hy1 hne
    | some tc =>
      have htm := List.mem_of_find?_eq_some hfE
      have hends : endsWith tc (trimWsEnd b.core) = true := by
        have hx := List.find?_some hfE
        simpa using hx
      obtain ⟨u, hu⟩ := endsWith_exists hends
      obtain ⟨w, hwdec, hws⟩ := trimWsEnd_decomp b.core
      have hcore : b.core = (u ++ tc) ++ w := by
        rw [hwdec, hu]
      have hstep : stepClose Tc b =
          ⟨b.hasOp, trimWsEnd b.core, false⟩ := by
        simp [stepClose, hCl, hfE]
      obtain ⟨tcc, htcc⟩ := closer_cons (hTc1 tc htm)
      have hre : renderB b ++ R =
          ((if b.hasOp then "<p>".data else []) ++ u) ++
            (tc ++ (w ++ ("</p>".data ++ R))) := by
        simp [renderB, hCl, hcore, List.append_assoc]
      rw [hre]
      have hA : scan (unwrapCloseMatch Tc)
          (((if b.hasOp then "<p>".data else []) ++ u) ++
            (tc ++ (w ++ ("</p>".data ++ R)))) =
          ((if b.hasOp then "<p>".data else []) ++ u) ++
            scan (unwrapCloseMatch Tc)
              (tc ++ (w ++ ("</p>".data ++ R))) := by
        apply scan_append_none
        intro a1 a2 he hne
        have hupos : ∀ y1 v, u = y1 ++ v → v ≠ [] →
            unwrapCloseMatch Tc
              (v ++ (tc ++ (w ++ ("</p>".data ++ R)))) = none := by
          apply closeRule_core_none Tc hTc2 u
            (tc ++ (w ++ ("</p>".data ++ R)))
          · intro ho
            exact hGb.2.2.2.1 (occurs_sub ho
              ⟨[], tc ++ w, by rw [hcore]; simp [List.append_assoc]⟩)
          · rw [htcc]
            exact Or.inr rfl
          · intro t2 ht2 cw vv hdec hws2
            have hdw : (tc ++ (w ++ ("</p>".data ++ R))).dropWhile
                isJsSpace = tc ++ (w ++ ("</p>".data ++ R)) := by
              rw [htcc]
              simp only [List.cons_append]
              exact dropWhile_cons_neg _ _ _ (by decide)
            rw [hdw]
            exact p4_not_pre_closer_append tc _ (hTc1 tc htm)
        rcases suffix_of_append he.symm with
          ⟨x2, hx2, x1, hx1⟩ | ⟨y1, hy1⟩
        · rcases opPart_split hx1 with hx | hx | hx | hx
          · subst hx
            rw [List.nil_append] at hx2
            exact hupos [] a2 (by rw [hx2]; rfl) hne
          · subst hx
            rw [hx2, List.append_assoc]
            exact close_none_p Tc hTc1 _
          · subst hx
            rw [hx2]
            simp only [List.cons_append, List.nil_append,
              List.append_assoc]
            exact close_none_head Tc hTc1 _ (by decide)
          · subst hx
            rw [hx2]
            simp only [List.cons_append, List.nil_append,
              List.append_assoc]
            exact close_none_head Tc hTc1 _ (by decide)
        · exact hupos y1 a2 hy1 hne
      rw [hA]
      have hm := closeMatch_at Tc hTc3 htm w R hws
      have hBne : tc ++ (w ++ ("</p>".data ++ R)) ≠ [] := by
        rw [htcc]
        simp
      have htne : ∀ t ∈ Tc, t ≠ [] := by
        intro t ht
        obtain ⟨t2c, ht2c⟩ := closer_cons (hTc1 t ht)
        rw [ht2c]
        simp
      rw [scan_some (unwrapCloseMatch_shrinks Tc htne) hBne hm]
      rw [hstep, hu]
      simp [renderB, List.append_assoc]

/-- The close-unwrap cleanup acts blockwise. -/
theorem cleanClose_blocks (Tc : List (List Char))
    (hTc1 : ∀ t ∈ Tc, t ∈ closerTags)
    (hTc2 : ∀ t ∈ Tc, '<' ∉ t.drop 1)
    (hTc3 : ∀ t ∈ Tc, ∀ u ∈ Tc, u.length = t.length) :
    ∀ bs : List PBlock, (∀ b ∈ bs, GoodB b) →
      scan (unwrapCloseMatch Tc) (renderBs bs) =
        renderBs (bs.map (stepClose Tc)) := by
  intro bs
  induction bs with
  | nil => intro _; rfl
  | cons b bs' ih =>
    intro hG
    have hGb := hG b (List.mem_cons_self b bs')
    have hG' : ∀ u ∈ bs', GoodB u :=
      fun u hu => hG u (List.mem_cons_of_mem b hu)
    rw [renderBs_cons, List.map_cons, renderBs_cons]
    rw [cleanClose_block Tc hTc1 hTc2 hTc3 b hGb (renderBs bs')
      (renderBs_head bs' hG') (renderBs_not_p4 bs' hG'), ih hG']

/-- Opener tags contain no whitespace. -/
theorem opener_no_ws : ∀ t ∈ openerTags, ∀ c ∈ t,
    isJsSpace c = false := by decide

/-- The open step preserves the block invariant. -/
theorem stepOpen_good (To : List (List Char))
    (hTo1 : ∀ t ∈ To, t ∈ openerTags)
    (b : PBlock) (h : GoodB b) : GoodB (stepOpen To b) := by
  unfold stepOpen
  cases hOp : b.hasOp with
  | false =>
    rw [if_neg (by simp)]
    exact h
  | true =>
    rw [if_pos rfl]
    cases hf : To.find?
        (fun t => isPre t (b.core.dropWhile isJsSpace)) with
    | none => exact h
    | some t =>
      have htTo := List.mem_of_find?_eq_some hf
      have hpret : isPre t (b.core.dropWhile isJsSpace) = true := by
        have hps := List.find?_some hf
        simpa using hps
      have hnw : b.core.dropWhile isJsSpace ≠ [] :=
        dropWhile_ne_of_not_all h.2.1
      refine ⟨hnw, ?_, ?_, ?_, ?_, ?_⟩
      · cases hd : b.core.dropWhile isJsSpace with
        | nil => exact absurd hd hnw
        | cons c tl =>
          have hc := dropWhile_head_false hd
          simp [hc]
      · intro ho
        exact h.2.2.1 (occurs_sub ho ⟨b.core.takeWhile isJsSpace, [],
          by rw [List.append_nil]
             exact (List.takeWhile_append_dropWhile _ _).symm⟩)
      · intro ho
        exact h.2.2.2.1 (occurs_sub ho ⟨b.core.takeWhile isJsSpace, [],
          by rw [List.append_nil]
             exact (List.takeWhile_append_dropWhile _ _).symm⟩)
      · intro hcl
        obtain ⟨u, t0, ht0, hcore⟩ := h.2.2.2.2.1 hcl
        by_cases hu : u.dropWhile isJsSpace = []
        · rw [List.dropWhile_eq_nil_iff] at hu
          refine ⟨[], t0, ht0, ?_⟩
          rw [hcore, dropWhile_append_all _ _ _ (fun c hc => hu c hc)]
          obtain ⟨t2, ht2⟩ := closer_cons ht0
          rw [ht2, dropWhile_cons_neg _ _ _ (by decide)]
          rfl
        · refine ⟨u.dropWhile isJsSpace, t0, ht0, ?_⟩
          rw [hcore, dropWhile_append_pos _ _ _ hu]
      · intro _
        obtain ⟨r, hr⟩ := isPre_exists hpret
        exact ⟨t, r, hTo1 t htTo, hr⟩

/-- The close step preserves the block invariant. -/
theorem stepClose_good (Tc : List (List Char))
    (hTc1 : ∀ t ∈ Tc, t ∈ closerTags)
    (b : PBlock) (h : GoodB b) : GoodB (stepClose Tc b) := by
  unfold stepClose
  cases hCl : b.hasCl with
  | false =>
    rw [if_neg (by simp)]
    exact h
  | true =>
    rw [if_pos rfl]
    cases hfE : Tc.find? (fun t => endsWith t (trimWsEnd b.core)) with
    | none => exact h
    | some tc =>
      have htm := List.mem_of_find?_eq_some hfE
      have hends : endsWith tc (trimWsEnd b.core) = true := by
        have hx := List.find?_some hfE
        simpa using hx
      obtain ⟨u, hu⟩ := endsWith_exists hends
      obtain ⟨w, hwdec, hws⟩ := trimWsEnd_decomp b.core
      obtain ⟨tcc, htcc⟩ := closer_cons (hTc1 tc htm)
      refine ⟨?_, ?_, ?_, ?_, ?_, ?_⟩
      · rw [hu, htcc]
        simp
      · cases hall : (trimWsEnd b.core).all isJsSpace with
        | false => rfl
        | true =>
          exfalso
          have hmem : '<' ∈ trimWsEnd b.core := by
            rw [hu, htcc]
            exact List.mem_append_right u
              (List.mem_cons_self _ _)
          have hws2 := List.all_eq_true.mp hall '<' hmem
          exact absurd hws2 (by decide)
      · intro ho
        exact h.2.2.1 (occurs_sub ho ⟨[], w, by simpa using hwdec⟩)
      · intro ho
        exact h.2.2.2.1 (occurs_sub ho ⟨[], w, by simpa using hwdec⟩)
      · intro _
        exact ⟨u, tc, hTc1 tc htm, hu⟩
      · intro hOp
        obtain ⟨t0, r, ht0, hcore⟩ := h.2.2.2.2.2 hOp
        have hpre : isPre t0 (trimWsEnd b.core ++ w) = true := by
          rw [← hwdec, hcore]
          exact isPre_append_self _ _
        rcases isPre_append_split hpre with h1 | ⟨tp, htp, hp2⟩
        · obtain ⟨r2, hr2⟩ := isPre_exists h1
          exact ⟨t0, r2, ht0, hr2⟩
        · cases htpx : tp with
          | nil =>
            subst htpx
            rw [List.append_nil] at htp
            exact ⟨t0, [], ht0, by rw [← htp, List.append_nil]⟩
          | cons x tp2 =>
            subst htpx
            exfalso
            obtain ⟨z, hz⟩ := isPre_exists hp2
            have hxw : x ∈ w := by
              rw [hz]
              exact List.mem_cons_self _ _
            have hxt : x ∈ t0 := by
              rw [htp]
              exact List.mem_append_right _ (List.mem_cons_self _ _)
            have h1x := hws x hxw
            have h2x := opener_no_ws t0 ht0 x hxt
            rw [h1x] at h2x
            cases h2x

/-- A non-`<`-headed pattern fails on an empty or `<`-headed text. -/
theorem isPre_slash_head_false {c : Char} (tp : List Char)
    (hc : c ≠ '<') (X : List Char)
    (hX : X = [] ∨ X.head? = some '<') :
    isPre (c :: tp) X = false := by
  rcases hX with rfl | hh
  · rfl
  · cases X with
    | nil => rfl
    | cons x X' =>
      have hx : x = '<' := by simpa using hh
      subst hx
      exact isPre_cons_head_ne _ _ hc

/-- `</p>` never starts at a clean core with closer and continuation. -/
theorem p4_not_pre_core_cont (core C R : List Char)
    (hN4 : ¬ Occurs "</p>".data core) (hne : core ≠ [])
    (hC : C = "</p>".data ∨ C = [])
    (hR : R = [] ∨ R.head? = some '<') :
    isPre "</p>".data (core ++ (C ++ R)) = false := by
  have hCR : C ++ R = [] ∨ (C ++ R).head? = some '<' := by
    rcases hC with rfl | rfl
    · exact Or.inr rfl
    · simpa using hR
  cases hx : isPre "</p>".data (core ++ (C ++ R)) with
  | false => rfl
  | true =>
    exfalso
    rcases isPre_append_split hx with h1 | ⟨tp, htp, hp2⟩
    · exact hN4 (occurs_of_isPre h1)
    · rcases split_p4 htp with
        ⟨hc, -⟩ | ⟨-, ht⟩ | ⟨-, ht⟩ | ⟨-, ht⟩ | ht
      · exact hne hc
      · subst ht
        rw [isPre_slash_head_false _ (by decide) _ hCR] at hp2
        cases hp2
      · subst ht
        rw [isPre_slash_head_false _ (by decide) _ hCR] at hp2
        cases hp2
      · subst ht
        rw [isPre_slash_head_false _ (by decide) _ hCR] at hp2
        cases hp2
      · subst ht
        rw [List.append_nil] at htp
        exact hN4 ⟨[], [], by simp [← htp]⟩

/-- The rendering of good blocks never contains `<p></p>`. -/
theorem renderBs_noPP : ∀ bs : List PBlock, (∀ b ∈ bs, GoodB b) →
    ¬ Occurs ("<p>".data ++ "</p>".data) (renderBs bs) := by
  intro bs
  induction bs with
  | nil =>
    intro _ h
    exact not_occurs_nil (by decide) h
  | cons b bs' ih =>
    intro hG hocc
    have hGb := hG b (List.mem_cons_self b bs')
    have hG' : ∀ u ∈ bs', GoodB u :=
      fun u hu => hG u (List.mem_cons_of_mem b hu)
    have hRhead := renderBs_head bs' hG'
    rw [renderBs_cons] at hocc
    rcases occurs_append_cases hocc with hv | ⟨u1, u2, hsp, hne, hpre⟩
    · exact ih hG' hv
    · obtain ⟨Z, hZ⟩ := isPre_exists hpre
      rw [List.append_assoc] at hZ
      have hrB : renderB b = (if b.hasOp then "<p>".data else []) ++
          (b.core ++ (if b.hasCl then "</p>".data else [])) := rfl
      rw [hrB] at hsp
      have hC : (if b.hasCl then "</p>".data else ([] : List Char)) =
          "</p>".data ∨
          (if b.hasCl then "</p>".data else ([] : List Char)) = [] := by
        cases hCl : b.hasCl
        · right
          simp
        · left
          simp
      rcases suffix_of_append hsp.symm with ⟨x2, hx2, x1, hx1⟩ | ⟨y1, hy1⟩
      · rcases opPart_split hx1 with hx | hx | hx | hx
        · subst hx
          rw [List.nil_append] at hx2
          have hfalse := no_p_inside b.core (renderBs bs') b.hasCl
            hGb.2.2.1 hRhead [] u2 (by rw [hx2]; rfl) hne
          rw [hZ, isPre_append_self] at hfalse
          cases hfalse
        · subst hx
          rw [hx2, List.append_assoc] at hZ
          have hcc := List.append_cancel_left hZ
          have hcl : isPre "</p>".data (b.core ++
              ((if b.hasCl then "</p>".data else []) ++
                renderBs bs')) = true := by
            rw [← List.append_assoc, hcc]
            exact isPre_append_self _ _
          rw [p4_not_pre_core_cont b.core _ _ hGb.2.2.2.1 hGb.1 hC
            hRhead] at hcl
          cases hcl
        · subst hx
          rw [hx2] at hZ
          have hh := congrArg List.head? hZ
          simp at hh
        · subst hx
          rw [hx2] at hZ
          have hh := congrArg List.head? hZ
          simp at hh
      · have hfalse := no_p_inside b.core (renderBs bs') b.hasCl
          hGb.2.2.1 hRhead y1 u2 hy1 hne
        rw [hZ, isPre_append_self] at hfalse
        cases hfalse

/-- Flattened paragraph wraps are the rendering of fully-wrapped blocks. -/
theorem wraps_renderBs (segs : List (List Char)) :
    (segs.map wrapP).flatten =
      renderBs (segs.map (fun s => (⟨true, s, true⟩ : PBlock))) := by
  unfold renderBs
  rw [List.map_map]
  rfl

/-- The blocks built from clean non-whitespace segments are good. -/
theorem initial_good (segs : List (List Char))
    (hN : ∀ s ∈ segs, NoP s) :
    ∀ b ∈ (segs.filter (fun s => !(s.all isJsSpace))).map
      (fun s => (⟨true, s, true⟩ : PBlock)), GoodB b := by
  intro b hb
  obtain ⟨s, hs, rfl⟩ := List.mem_map.mp hb
  rw [List.mem_filter] at hs
  obtain ⟨hmem, hws⟩ := hs
  have hNs := hN s hmem
  have hwsf : s.all isJsSpace = false := by
    cases hx : s.all isJsSpace with
    | false => rfl
    | true =>
      rw [hx] at hws
      simp at hws
  refine ⟨?_, hwsf, hNs.1, hNs.2,
    fun h => Bool.noConfusion h, fun h => Bool.noConfusion h⟩
  intro hnil
  have hnil2 : s = [] := hnil
  rw [hnil2] at hwsf
  simp at hwsf

/-- The six unwrap cleanups leave no empty paragraph in good blocks. -/
theorem cleanBG_noPP (bs : List PBlock) (hG : ∀ b ∈ bs, GoodB b) :
    ¬ Occurs ("<p>".data ++ "</p>".data)
      (stageCleanG (stageCleanF (stageCleanE (stageCleanD (stageCleanC
        (stageCleanB (renderBs bs))))))) := by
  intro hocc
  unfold stageCleanG stageCleanF stageCleanE stageCleanD stageCleanC
    stageCleanB at hocc
  rw [cleanOpen_blocks ["<h1>".data, "<h2>".data, "<h3>".data]
    (by decide) (by decide) bs hG] at hocc
  have hG1 : ∀ b ∈ bs.map
      (stepOpen ["<h1>".data, "<h2>".data, "<h3>".data]), GoodB b := by
    intro b hb
    obtain ⟨b0, hb0, rfl⟩ := List.mem_map.mp hb
    exact stepOpen_good _ (by decide) b0 (hG b0 hb0)
  revert hocc hG1
  generalize bs.map (stepOpen ["<h1>".data, "<h2>".data, "<h3>".data])
    = bs1
  intro hocc hG1
  rw [cleanClose_blocks ["</h1>".data, "</h2>".data, "</h3>".data]
    (by decide) (by decide) (by decide) bs1 hG1] at hocc
  have hG2 : ∀ b ∈ bs1.map
      (stepClose ["</h1>".data, "</h2>".data, "</h3>".data]), GoodB b := by
    intro b hb
    obtain ⟨b0, hb0, rfl⟩ := List.mem_map.mp hb
    exact stepClose_good _ (by decide) b0 (hG1 b0 hb0)
  revert hocc hG2
  generalize bs1.map (stepClose ["</h1>".data, "</h2>".data, "</h3>".data])
    = bs2
  intro hocc hG2
  rw [cleanOpen_blocks ["<pre>".data] (by decide) (by decide)
    bs2 hG2] at hocc
  have hG3 : ∀ b ∈ bs2.map (stepOpen ["<pre>".data]), GoodB b := by
    intro b hb
    obtain ⟨b0, hb0, rfl⟩ := List.mem_map.mp hb
    exact stepOpen_good _ (by decide) b0 (hG2 b0 hb0)
  revert hocc hG3
  generalize bs2.map (stepOpen ["<pre>".data]) = bs3
  intro hocc hG3
  rw [cleanClose_blocks ["</pre>".data] (by decide) (by decide)
    (by decide) bs3 hG3] at hocc
  have hG4 : ∀ b ∈ bs3.map (stepClose ["</pre>".data]), GoodB b := by
    intro b hb
    obtain ⟨b0, hb0, rfl⟩ := List.mem_map.mp hb
    exact stepClose_good _ (by decide) b0 (hG3 b0 hb0)
  revert hocc hG4
  generalize bs3.map (stepClose ["</pre>".data]) = bs4
  intro hocc hG4
  rw [cleanOpen_blocks ["<ul>".data] (by decide) (by decide)
    bs4 hG4] at hocc
  have hG5 : ∀ b ∈ bs4.map (stepOpen ["<ul>".data]), GoodB b := by
    intro b hb
    obtain ⟨b0, hb0, rfl⟩ := List.mem_map.mp hb
    exact stepOpen_good _ (by decide) b0 (hG4 b0 hb0)
  revert hocc hG5
  generalize bs4.map (stepOpen ["<ul>".data]) = bs5
  intro hocc hG5
  rw [cleanClose_blocks ["</ul>".data] (by decide) (by decide)
    (by decide) bs5 hG5] at hocc
  have hG6 : ∀ b ∈ bs5.map (stepClose ["</ul>".data]), GoodB b := by
    intro b hb
    obtain ⟨b0, hb0, rfl⟩ := List.mem_map.mp hb
    exact stepClose_good _ (by decide) b0 (hG5 b0 hb0)
  exact renderBs_noPP _ hG6 hocc

/-- No structural-pipeline output contains an empty paragraph wrapper. -/
theorem renderMarkdownL_no_empty_p (l : List Char) :
    ¬ Occurs ("<p>".data ++ "</p>".data) (renderMarkdownL l) := by
  intro hocc
  have hU := pipeline10_noP (noP_of_no_lt (escapeHtmlL_no_angle l).1)
  unfold renderMarkdownL structuralStages at hocc
  revert hocc hU
  generalize stageOrdered (stageGroup (stageListItems (stageItal
    (stageBold (stageH1 (stageH2 (stageH3 (stageInline (stageFence
      (escapeHtmlL l)))))))))) = U
  intro hocc2 hU
  obtain ⟨hpw, hsegN⟩ := stagePara_wraps U hU
  rw [hpw] at hocc2
  rw [show stageCleanA (((segsAux U.length U).map wrapP).flatten) =
      ((((segsAux U.length U).filter
        (fun s => !(s.all isJsSpace))).map wrapP).flatten) from
    cleanA_wraps _ hsegN] at hocc2
  rw [wraps_renderBs] at hocc2
  exact cleanBG_noPP _ (initial_good _ hsegN) hocc2

/-- No renderer output contains an empty paragraph wrapper: the output's
character data is the structural pipeline's output, and that list never
contains `<p></p>`. -/
theorem renderMarkdown_no_empty_p (s : String) :
    ∃ l : List Char, renderMarkdown s = ⟨l⟩ ∧
      ¬ Occurs "<p></p>".data l := by
  refine ⟨renderMarkdownL s.data, rfl, ?_⟩
  rw [show "<p></p>".data = "<p>".data ++ "</p>".data from by decide]
  exact renderMarkdownL_no_empty_p s.data

/-- Among equal-length tags, the one present at the head is found. -/
theorem find?_pref_at (L : List (List Char))
    (hL : ∀ a ∈ L, ∀ b ∈ L, b.length = a.length)
    {t : List Char} (htm : t ∈ L) (r : List Char) :
    L.find? (fun u => isPre u (t ++ r)) = some t := by
  apply find?_unique htm (isPre_append_self t r)
  intro t' ht' hne
  cases hx : isPre t' (t ++ r) with
  | false => rfl
  | true =>
    exfalso
    rcases isPre_append_split hx with h1 | ⟨tp, htp, hp2⟩
    · exact hne (isPre_eq_of_length h1 (hL t htm t' ht'))
    · have hlen : t'.length = t.length + tp.length := by
        rw [htp]
        simp
      have hlen3 := hL t htm t' ht'
      have htp0 : tp = [] := List.eq_nil_of_length_eq_zero (by omega)
      subst htp0
      rw [List.append_nil] at htp
      exact hne htp

/-- Among equal-length tags, the one present at the end is found. -/
theorem find?_endsWith_at (L : List (List Char))
    (hL : ∀ a ∈ L, ∀ b ∈ L, b.length = a.length)
    {t : List Char} (htm : t ∈ L) (u : List Char) :
    L.find? (fun v => endsWith v (u ++ t)) = some t := by
  apply find?_unique htm (endsWith_append_self t u)
  intro t' ht' hne
  cases hx : endsWith t' (u ++ t) with
  | false => rfl
  | true =>
    exfalso
    unfold endsWith at hx
    rw [List.reverse_append] at hx
    rcases isPre_append_split hx with h1 | ⟨tp, htp, hp2⟩
    · have hlen : t'.reverse.length = t.reverse.length := by
        simp [hL t htm t' ht']
      have heq := isPre_eq_of_length h1 hlen
      exact hne (by simpa using congrArg List.reverse heq)
    · have hlen2 : t'.reverse.length = t.reverse.length + tp.length := by
        rw [htp]
        simp
      have hlen3 := hL t htm t' ht'
      simp only [List.length_reverse] at hlen2
      have htp0 : tp = [] := List.eq_nil_of_length_eq_zero (by omega)
      subst htp0
      rw [List.append_nil] at htp
      exact hne (by simpa using congrArg List.reverse htp)

/-- An open-unwrap cleanup on one paragraph whose content starts, after
whitespace, with one of the stage's opening tags: the `<p>` and the
whitespace are removed. -/
theorem cleanOpen_adjacent (To : List (List Char))
    (hTo1 : ∀ t ∈ To, t ∈ openerTags)
    (hTo2 : ∀ t ∈ To, '<' ∉ t.drop 1)
    (hTo3 : ∀ a ∈ To, ∀ b ∈ To, b.length = a.length)
    {t : List Char} (htm : t ∈ To) (w r : List Char)
    (hw : ∀ c ∈ w, isJsSpace c = true)
    (hN1 : ¬ Occurs "<p>".data (w ++ (t ++ r)))
    (hN2 : ¬ Occurs "</p>".data (w ++ (t ++ r))) :
    scan (unwrapOpenMatch To)
      ("<p>".data ++ ((w ++ (t ++ r)) ++ "</p>".data)) =
      (t ++ r) ++ "</p>".data := by
  obtain ⟨t2, ht2⟩ := opener_cons (hTo1 t htm)
  have htne : t ≠ [] := by
    rw [ht2]
    simp
  have hGb : GoodB ⟨true, w ++ (t ++ r), true⟩ := by
    refine ⟨?_, ?_, hN1, hN2, fun h => Bool.noConfusion h,
      fun h => Bool.noConfusion h⟩
    · intro h0
      have h1 := List.append_eq_nil.mp h0
      have h2 := List.append_eq_nil.mp h1.2
      exact htne h2.1
    · cases hall : (w ++ (t ++ r)).all isJsSpace with
      | false => rfl
      | true =>
        exfalso
        have hmem : '<' ∈ w ++ (t ++ r) := by
          rw [ht2]
          exact List.mem_append_right w
            (List.mem_append_left r (List.mem_cons_self '<' t2))
        have hws2 := List.all_eq_true.mp hall '<' hmem
        exact absurd hws2 (by decide)
  have h := cleanOpen_blocks To hTo1 hTo2 [⟨true, w ++ (t ++ r), true⟩]
    (by
      intro b hb
      rw [List.mem_singleton] at hb
      rw [hb]
      exact hGb)
  have hdw : (w ++ (t ++ r)).dropWhile isJsSpace = t ++ r := by
    rw [dropWhile_append_all _ _ _ hw, ht2]
    simp only [List.cons_append]
    exact dropWhile_cons_neg _ _ _ (by decide)
  have hfind := find?_pref_at To hTo3 htm r
  have hstep : stepOpen To ⟨true, w ++ (t ++ r), true⟩ =
      ⟨false, t ++ r, true⟩ := by
    simp [stepOpen, hdw, hfind]
  calc (scan (unwrapOpenMatch To)
        ("<p>".data ++ ((w ++ (t ++ r)) ++ "</p>".data)))
      = scan (unwrapOpenMatch To)
        (renderBs [⟨true, w ++ (t ++ r), true⟩]) := by
        simp [renderBs, renderB]
    _ = renderBs ([⟨true, w ++ (t ++ r), true⟩].map (stepOpen To)) := h
    _ = (t ++ r) ++ "</p>".data := by
        rw [List.map_cons, List.map_nil, hstep]
        simp [renderBs, renderB]

/-- A close-unwrap cleanup on one paragraph whose content ends, before
whitespace, with one of the stage's closing tags: the whitespace and the
`</p>` are removed. -/
theorem cleanClose_adjacent (Tc : List (List Char))
    (hTc1 : ∀ t ∈ Tc, t ∈ closerTags)
    (hTc2 : ∀ t ∈ Tc, '<' ∉ t.drop 1)
    (hTc3 : ∀ a ∈ Tc, ∀ b ∈ Tc, b.length = a.length)
    {t : List Char} (htm : t ∈ Tc) (u w : List Char)
    (hw : ∀ c ∈ w, isJsSpace c = true)
    (hN1 : ¬ Occurs "<p>".data ((u ++ t) ++ w))
    (hN2 : ¬ Occurs "</p>".data ((u ++ t) ++ w)) :
    scan (unwrapCloseMatch Tc)
      ("<p>".data ++ (((u ++ t) ++ w) ++ "</p>".data)) =
      "<p>".data ++ (u ++ t) := by
  obtain ⟨t2, ht2⟩ := closer_cons (hTc1 t htm)
  have htne : t ≠ [] := by
    rw [ht2]
    simp
  have hGb : GoodB ⟨true, (u ++ t) ++ w, true⟩ := by
    refine ⟨?_, ?_, hN1, hN2, fun h => Bool.noConfusion h,
      fun h => Bool.noConfusion h⟩
    · intro h0
      have h1 := List.append_eq_nil.mp h0
      have h2 := List.append_eq_nil.mp h1.1
      exact htne h2.2
    · cases hall : ((u ++ t) ++ w).all isJsSpace with
      | false => rfl
      | true =>
        exfalso
        have hmem : '<' ∈ (u ++ t) ++ w := by
          refine List.mem_append_left w (List.mem_append_right u ?_)
          rw [ht2]
          exact List.mem_cons_self _ _
        have hws2 := List.all_eq_true.mp hall '<' hmem
        exact absurd hws2 (by decide)
  have h := cleanClose_blocks Tc hTc1 hTc2 hTc3
    [⟨true, (u ++ t) ++ w, true⟩]
    (by
      intro b hb
      rw [List.mem_singleton] at hb
      rw [hb]
      exact hGb)
  have htr : trimWsEnd ((u ++ t) ++ w) = u ++ t := by
    rw [trimWsEnd_append_ws _ _ hw, trimWsEnd_closer _ _ (hTc1 t htm)]
  have hfind := find?_endsWith_at Tc hTc3 htm u
  have htr2 : trimWsEnd (u ++ (t ++ w)) = u ++ t := by
    rw [← List.append_assoc]
    exact htr
  have hstep : stepClose Tc ⟨true, (u ++ t) ++ w, true⟩ =
      ⟨true, u ++ t, false⟩ := by
    simp [stepClose, htr2, hfind]
  calc (scan (unwrapCloseMatch Tc)
        ("<p>".data ++ (((u ++ t) ++ w) ++ "</p>".data)))
      = scan (unwrapCloseMatch Tc)
        (renderBs [⟨true, (u ++ t) ++ w, true⟩]) := by
        simp [renderBs, renderB]
    _ = renderBs ([⟨true, (u ++ t) ++ w, true⟩].map (stepClose Tc)) := h
    _ = "<p>".data ++ (u ++ t) := by
        rw [List.map_cons, List.map_nil, hstep]
        simp [renderBs, renderB]

/-- Claim C5 as amended: (1) for every input string the renderer's output
never contains an empty `<p></p>` wrapper; (2) the cleanup removes a `<p>`
wrapper when a block element produced by the header, code, or list stages
is adjacent, up to whitespace, to the paragraph boundary — for every
header/`pre`/`ul` tag, every whitespace run, and every clean wrapped
content, at the opening boundary (the `<p>` and the whitespace go) and at
the closing boundary (the whitespace and the `</p>` go) — with concrete
whole-pipeline runs for each kind; but (3) a block element in the interior
of a paragraph remains nested inside the `<p>` element. -/
theorem c5_cleanup_behaviour :
    (∀ s : String, ∃ l : List Char, renderMarkdown s = ⟨l⟩ ∧
      ¬ Occurs "<p></p>".data l) ∧
    (∀ t ∈ ["<h1>".data, "<h2>".data, "<h3>".data], ∀ w r : List Char,
      (∀ c ∈ w, isJsSpace c = true) →
      ¬ Occurs "<p>".data (w ++ (t ++ r)) →
      ¬ Occurs "</p>".data (w ++ (t ++ r)) →
      stageCleanB ("<p>".data ++ ((w ++ (t ++ r)) ++ "</p>".data)) =
        (t ++ r) ++ "</p>".data) ∧
    (∀ t ∈ ["</h1>".data, "</h2>".data, "</h3>".data], ∀ u w : List Char,
      (∀ c ∈ w, isJsSpace c = true) →
      ¬ Occurs "<p>".data ((u ++ t) ++ w) →
      ¬ Occurs "</p>".data ((u ++ t) ++ w) →
      stageCleanC ("<p>".data ++ (((u ++ t) ++ w) ++ "</p>".data)) =
        "<p>".data ++ (u ++ t)) ∧
    (∀ w r : List Char, (∀ c ∈ w, isJsSpace c = true) →
      ¬ Occurs "<p>".data (w ++ ("<pre>".data ++ r)) →
      ¬ Occurs "</p>".data (w ++ ("<pre>".data ++ r)) →
      stageCleanD ("<p>".data ++
          ((w ++ ("<pre>".data ++ r)) ++ "</p>".data)) =
        ("<pre>".data ++ r) ++ "</p>".data) ∧
    (∀ u w : List Char, (∀ c ∈ w, isJsSpace c = true) →
      ¬ Occurs "<p>".data ((u ++ "</pre>".data) ++ w) →
      ¬ Occurs "</p>".data ((u ++ "</pre>".data) ++ w) →
      stageCleanE ("<p>".data ++
          (((u ++ "</pre>".data) ++ w) ++ "</p>".data)) =
        "<p>".data ++ (u ++ "</pre>".data)) ∧
    (∀ w r : List Char, (∀ c ∈ w, isJsSpace c = true) →
      ¬ Occurs "<p>".data (w ++ ("<ul>".data ++ r)) →
      ¬ Occurs "</p>".data (w ++ ("<ul>".data ++ r)) →
      stageCleanF ("<p>".data ++
          ((w ++ ("<ul>".data ++ r)) ++ "</p>".data)) =
        ("<ul>".data ++ r) ++ "</p>".data) ∧
    (∀ u w : List Char, (∀ c ∈ w, isJsSpace c = true) →
      ¬ Occurs "<p>".data ((u ++ "</ul>".data) ++ w) →
      ¬ Occurs "</p>".data ((u ++ "</ul>".data) ++ w) →
      stageCleanG ("<p>".data ++
          (((u ++ "</ul>".data) ++ w) ++ "</p>".data)) =
        "<p>".data ++ (u ++ "</ul>".data)) ∧
    renderMarkdown "\n\n" = "" ∧
    renderMarkdown "x\n\n\n\ny" = "<p>x</p><p>y</p>" ∧
    renderMarkdown "# T\n\nBody" = "<h1>T</h1><p>Body</p>" ∧
    renderMarkdown "```\nconst x = 1;\n```" =
      "<pre><code>const x = 1;</code></pre>" ∧
    renderMarkdown "- a" = "<ul><li>a</li></ul>" ∧
    renderMarkdown "a\n# b\nc" = "<p>a\n<h1>b</h1>\nc</p>" := by
  refine ⟨renderMarkdown_no_empty_p, ?_, ?_, ?_, ?_, ?_, ?_,
    by decide, by decide, by decide, by decide, by decide, by decide⟩
  · intro t htm w r hw h1 h2
    exact cleanOpen_adjacent ["<h1>".data, "<h2>".data, "<h3>".data]
      (by decide) (by decide) (by decide) htm w r hw h1 h2
  · intro t htm u w hw h1 h2
    exact cleanClose_adjacent ["</h1>".data, "</h2>".data, "</h3>".data]
      (by decide) (by decide) (by decide) htm u w hw h1 h2
  · intro w r hw h1 h2
    exact cleanOpen_adjacent ["<pre>".data]
      (by decide) (by decide) (by decide) (by decide) w r hw h1 h2
  · intro u w hw h1 h2
    exact cleanClose_adjacent ["</pre>".data]
      (by decide) (by decide) (by decide) (by decide) u w hw h1 h2
  · intro w r hw h1 h2
    exact cleanOpen_adjacent ["<ul>".data]
      (by decide) (by decide) (by decide) (by decide) w r hw h1 h2
  · intro u w hw h1 h2
    exact cleanClose_adjacent ["</ul>".data]
      (by decide) (by decide) (by decide) (by decide) u w hw h1 h2

/-- Claim C5 witness: the adjacency-unwrap clauses applied at a concrete
header, code block, and list, with every hypothesis discharged by
evaluation, and the no-empty-wrapper clause instantiated at a concrete
input. -/
theorem c5_cleanup_behaviour_witness :
    (∃ l : List Char, renderMarkdown "x\n\n\n\ny" = ⟨l⟩ ∧
      ¬ Occurs "<p></p>".data l) ∧
    stageCleanB ("<p>".data ++
        (([' '] ++ ("<h2>".data ++ "x</h2>".data)) ++ "</p>".data)) =
      ("<h2>".data ++ "x</h2>".data) ++ "</p>".data ∧
    stageCleanC ("<p>".data ++
        ((("<h2>x".data ++ "</h2>".data) ++ [' ']) ++ "</p>".data)) =
      "<p>".data ++ ("<h2>x".data ++ "</h2>".data) ∧
    stageCleanD ("<p>".data ++
        (([] ++ ("<pre>".data ++ "y</pre>".data)) ++ "</p>".data)) =
      ("<pre>".data ++ "y</pre>".data) ++ "</p>".data ∧
    stageCleanE ("<p>".data ++
        ((("<pre>y".data ++ "</pre>".data) ++ []) ++ "</p>".data)) =
      "<p>".data ++ ("<pre>y".data ++ "</pre>".data) ∧
    stageCleanF ("<p>".data ++
        (([] ++ ("<ul>".data ++ "z</ul>".data)) ++ "</p>".data)) =
      ("<ul>".data ++ "z</ul>".data) ++ "</p>".data ∧
    stageCleanG ("<p>".data ++
        ((("<ul>z".data ++ "</ul>".data) ++ []) ++ "</p>".data)) =
      "<p>".data ++ ("<ul>z".data ++ "</ul>".data) :=
  ⟨c5_cleanup_behaviour.1 "x\n\n\n\ny",
   c5_cleanup_behaviour.2.1 "<h2>".data (by decide) [' ']
     "x</h2>".data (by decide) (not_occurs_of_b (by decide))
     (not_occurs_of_b (by decide)),
   c5_cleanup_behaviour.2.2.1 "</h2>".data (by decide) "<h2>x".data
     [' '] (by decide) (not_occurs_of_b (by decide))
     (not_occurs_of_b (by decide)),
   c5_cleanup_behaviour.2.2.2.1 [] "y</pre>".data (by decide)
     (not_occurs_of_b (by decide)) (not_occurs_of_b (by decide)),
   c5_cleanup_behaviour.2.2.2.2.1 "<pre>y".data [] (by decide)
     (not_occurs_of_b (by decide)) (not_occurs_of_b (by decide)),
   c5_cleanup_behaviour.2.2.2.2.2.1 [] "z</ul>".data (by decide)
     (not_occurs_of_b (by decide)) (not_occurs_of_b (by decide)),
   c5_cleanup_behaviour.2.2.2.2.2.2.1 "<ul>z".data [] (by decide)
     (not_occurs_of_b (by decide)) (not_occurs_of_b (by decide))⟩
